import Mathlib

/-!
kafkaesque: the LMAX-style ring buffer and the broker handlers on top of it.

Shallow embedding of `internal/draupnir/lmax.go` (RingBuffer, NewRingBuffer, Put, Get), of
the handlers of `internal/server/messaging.go` and `internal/server/admin.go`, of the
Avro and JSON Schema validators `internal/midas/schemavalidator/avro.go` and `json.go`, of the
schema registry `internal/midas/schemavalidator/registry.go`, and of the cuckoo filter
`internal/mnemosyne/rp_mcmurphy.go`.

Modelling conventions.
* Go slices are lists; an index expression `xs[i]` with `i` outside `0 ≤ i < len xs`
  is a runtime fault (`Outcome.panic`), as is `x % 0`, and as is `make` with a capacity that
  is negative or beyond what the Go runtime can allocate. That limit depends on the platform
  and on the memory left, so it is the parameter `maxCap` of `Get` and of what calls `Get`.
* `int`, `int32`, `int64` values are unbounded integers: the cursors only ever grow by the
  number of messages handled, so 64-bit wrap-around is out of reach of any run modelled here.
* Calls are sequential, an atomic load/store being a plain read/write of the field, except
  in the section on concurrent `Put` calls, where each call advances one atomic step at a time.
* The ring is generic in the type `μ` of the `*messaging.Message` values it carries; a cell
  of `buffer []interface{}` is `none` for the nil interface and `some p` when it holds the
  pointer `p` (the type assertion `.(*messaging.Message)` succeeds exactly on `some p`).
* A Go map with string keys is an association list; a `range` over it runs in the order of
  the list. Dereferencing a nil pointer and using a slice or a map as a map key are runtime
  faults (`Outcome.panic`).
* In the cuckoo filter a `uint16` or `uint32` is a natural number reduced modulo 2^16 or 2^32
  where the code can wrap. Every bucket index is a remainder modulo `numBuckets` and every
  slot index is drawn below `bucketSize`, and no method changes the shape of `buckets`
  (`CuckooReachable_shaped`), so its index expressions cannot fault and are total list
  accesses here. The results of `rand.Intn` are arguments of `Insert`.
-/

namespace Kafkaesque

/-- Result of running a piece of Go code: a normal return, a runtime panic, or a loop that
never ends. -/
inductive Outcome (α : Type) where
  | ok (a : α)
  | panic
  | diverges
  deriving DecidableEq, Repr

/-- The Go index expression `xs[i]` for a signed index: `none` when out of range. -/
def idx? {α : Type} (xs : List α) (i : Int) : Option α :=
  if i < 0 then none else xs[i.toNat]?

/-- The Go assignment `xs[i] = a` for an index already known to be in range. -/
def setIdx {α : Type} (xs : List α) (i : Int) (a : α) : List α :=
  xs.set i.toNat a

/-- The struct `RingBuffer` of lmax.go. `size` is a length handed to `make`, hence a natural
number; `available` holds the int32 flags (1 = FILLED, anything else = EMPTY). -/
structure RingBuffer (μ : Type) where
  size : Nat
  buffer : List (Option μ)
  writeCursor : Int
  ReadCursors : List Int
  available : List Int
  writeBarrier : Int
  readBarrier : Int
  deriving DecidableEq, Repr

/-- The constructor `NewRingBuffer(size, numConsumers)`: zeroed fields, every read cursor -1.
The two arguments are lengths passed to `make` (a negative one is a fault in Go), so they are
natural numbers here. -/
def NewRingBuffer {μ : Type} (size numConsumers : Nat) : RingBuffer μ :=
  { size := size
    buffer := List.replicate size none
    writeCursor := 0
    ReadCursors := List.replicate numConsumers (-1)
    available := List.replicate size 0
    writeBarrier := 0
    readBarrier := 0 }

/-- An upper bound of `maxCap` on a 64-bit Go runtime with a 48-bit heap address space:
`make` refuses a slice of more than 2^48 / 8 pointers whatever memory is left. -/
def exampleCap : Nat := 2 ^ 45

/-- How the `for` loop of `Get` was left: its condition `i < batchSize` became false, or the
`else { break }` branch ran on a slot whose flag was not 1. -/
inductive LoopExit where
  | exhausted
  | brokeOnEmpty
  deriving DecidableEq, Repr

/-- The `for i := 0; i < batchSize; { ... }` loop of `Get`. The first argument is
`batchSize - i`, the number of iterations still allowed; `g` is the index of the group whose
cursor is written; `results` is the slice built so far. A slot flagged 1 whose cell fails the
type assertion changes nothing and leaves `i` as it was, so the loop spins forever. -/
def getLoop {μ : Type} (g : Nat) :
    Nat → RingBuffer μ → Int → List μ → Outcome (RingBuffer μ × List μ × LoopExit)
  | 0, rb, _, results => .ok (rb, results, .exhausted)
  | n + 1, rb, nextRead, results =>
    if rb.size = 0 then .panic
    else
      let slot := nextRead.tmod (rb.size : Int)
      match idx? rb.available slot with
      | none => .panic
      | some flag =>
        if flag = 1 then
          match idx? rb.buffer slot with
          | none => .panic
          | some none => .diverges
          | some (some msg) =>
            getLoop g n
              { rb with
                available := setIdx rb.available slot 0
                ReadCursors := rb.ReadCursors.set g nextRead }
              (nextRead + 1) (results ++ [msg])
        else .ok (rb, results, .brokeOnEmpty)

/-- The body of `Get(batchSize, consumerGroup)`, keeping the way the loop was left next to
the returned slice. Its first statement is `results := make([]*messaging.Message, 0, batchSize)`,
which faults before the ring is read when `batchSize` is negative (`makeslice: cap out of
range`) and when it is more than the runtime can allocate (the same panic when the size in
bytes overflows or exceeds the address space, `out of memory` below that). `maxCap` is the
largest capacity `make` grants to a slice of message pointers at the time of the call. -/
def GetTraced {μ : Type} (maxCap : Nat) (rb : RingBuffer μ) (batchSize consumerGroup : Int) :
    Outcome (RingBuffer μ × List μ × LoopExit) :=
  if batchSize < 0 then .panic
  else if (maxCap : Int) < batchSize then .panic
  else
    match idx? rb.ReadCursors consumerGroup with
    | none => .panic
    | some readCursor => getLoop consumerGroup.toNat batchSize.toNat rb (readCursor + 1) []

/-- The method `RingBuffer.Get`: the ring after the call and the returned batch. -/
def Get {μ : Type} (maxCap : Nat) (rb : RingBuffer μ) (batchSize consumerGroup : Int) :
    Outcome (RingBuffer μ × List μ) :=
  match GetTraced maxCap rb batchSize consumerGroup with
  | .ok (rb', results, _) => .ok (rb', results)
  | .panic => .panic
  | .diverges => .diverges

/-- Iterations of the loop of `Get` counted while it runs: `reads` is the number of
iterations that took the FILLED branch and appended a message, `failedChecks` the number of
iterations that found the flag of their slot not FILLED and took the `break` branch. -/
structure LoopCount where
  reads : Nat
  failedChecks : Nat
  deriving DecidableEq, Repr

/-- The loop of `Get` as in `getLoop`, with a counter of its iterations carried along: each
pass through the loop body adds one to `reads` or to `failedChecks` in the branch it takes. -/
def getLoopCounted {μ : Type} (g : Nat) :
    Nat → RingBuffer μ → Int → List μ → LoopCount →
      Outcome (RingBuffer μ × List μ × LoopExit × LoopCount)
  | 0, rb, _, results, count => .ok (rb, results, .exhausted, count)
  | n + 1, rb, nextRead, results, count =>
    if rb.size = 0 then .panic
    else
      let slot := nextRead.tmod (rb.size : Int)
      match idx? rb.available slot with
      | none => .panic
      | some flag =>
        if flag = 1 then
          match idx? rb.buffer slot with
          | none => .panic
          | some none => .diverges
          | some (some msg) =>
            getLoopCounted g n
              { rb with
                available := setIdx rb.available slot 0
                ReadCursors := rb.ReadCursors.set g nextRead }
              (nextRead + 1) (results ++ [msg])
              { count with reads := count.reads + 1 }
        else
          .ok (rb, results, .brokeOnEmpty,
            { count with failedChecks := count.failedChecks + 1 })

/-- The body of `Get` as in `GetTraced`, with the iterations of its loop counted from zero. -/
def GetCounted {μ : Type} (maxCap : Nat) (rb : RingBuffer μ) (batchSize consumerGroup : Int) :
    Outcome (RingBuffer μ × List μ × LoopExit × LoopCount) :=
  if batchSize < 0 then .panic
  else if (maxCap : Int) < batchSize then .panic
  else
    match idx? rb.ReadCursors consumerGroup with
    | none => .panic
    | some readCursor =>
      getLoopCounted consumerGroup.toNat batchSize.toNat rb (readCursor + 1) []
        { reads := 0, failedChecks := 0 }

/-- The `for _, d := range data` loop of `Put`, threading the local `nextWrite`. -/
def putLoop {μ : Type} : List μ → RingBuffer μ → Int → Outcome (RingBuffer μ × Int)
  | [], rb, nextWrite => .ok (rb, nextWrite)
  | d :: ds, rb, nextWrite =>
    if rb.size = 0 then .panic
    else
      let slot := nextWrite.tmod (rb.size : Int)
      match idx? rb.buffer slot, idx? rb.available slot with
      | some _, some _ =>
        putLoop ds
          { rb with
            buffer := setIdx rb.buffer slot (some d)
            available := setIdx rb.available slot 1 }
          (nextWrite + 1)
      | _, _ => .panic

/-- The method `RingBuffer.Put(data...)`: fetch-and-add on the write cursor, the store loop,
then the final store of `nextWrite` into the write cursor. -/
def Put {μ : Type} (rb : RingBuffer μ) (data : List μ) : Outcome (RingBuffer μ) :=
  let added : Int := rb.writeCursor + (data.length : Int)
  match putLoop data { rb with writeCursor := added } (added - (data.length : Int)) with
  | .ok (rb', nextWrite) => .ok { rb' with writeCursor := nextWrite }
  | .panic => .panic
  | .diverges => .diverges

/-- The flag of the slot that sequence number `seq` maps to, when that slot exists. -/
def flagAt {μ : Type} (rb : RingBuffer μ) (seq : Int) : Option Int :=
  if rb.size = 0 then none else idx? rb.available (seq.tmod (rb.size : Int))

/-- The cell of the slot that sequence number `seq` maps to, when that slot exists. -/
def cellAt {μ : Type} (rb : RingBuffer μ) (seq : Int) : Option (Option μ) :=
  if rb.size = 0 then none else idx? rb.buffer (seq.tmod (rb.size : Int))

/-! ## Sequential histories -/

/-- One call of a sequential history on a ring. -/
inductive Op (μ : Type) where
  | put (data : List μ)
  | get (batchSize consumerGroup : Int)
  deriving DecidableEq, Repr

/-- Runs a sequential history. The result holds the final ring and the batches returned by
the `Get` calls, in call order. `stamp w data` is what a `Put` issued at write cursor `w`
stores for the arguments `data`: the identity for a plain run, `withSeq` to make every stored
message carry the sequence number it is stored under. -/
def runOps {μ ν : Type} (maxCap : Nat) (stamp : Int → List μ → List ν) :
    RingBuffer ν → List (Op μ) → Outcome (RingBuffer ν × List (List ν))
  | rb, [] => .ok (rb, [])
  | rb, .put data :: ops =>
    match Put rb (stamp rb.writeCursor data) with
    | .ok rb' => runOps maxCap stamp rb' ops
    | .panic => .panic
    | .diverges => .diverges
  | rb, .get k g :: ops =>
    match Get maxCap rb k g with
    | .ok (rb', batch) =>
      match runOps maxCap stamp rb' ops with
      | .ok (rb'', batches) => .ok (rb'', batch :: batches)
      | .panic => .panic
      | .diverges => .diverges
    | .panic => .panic
    | .diverges => .diverges

/-- Plain run: `Put` stores its arguments as they are. -/
def asIs {μ : Type} (_ : Int) (data : List μ) : List μ := data

/-- Pairs the `i`-th message of a batch with `w + i`, the value of `nextWrite` at the moment
`Put` stores it. -/
def withSeq {μ : Type} : Int → List μ → List (μ × Int)
  | _, [] => []
  | w, d :: ds => (d, w) :: withSeq (w + 1) ds

/-- All messages passed to `Put` over a history, in publish order. -/
def published {μ : Type} : List (Op μ) → List μ
  | [] => []
  | .put data :: ops => data ++ published ops
  | .get _ _ :: ops => published ops

/-- Every `Get` of the history is `Get(k, g)` for the one group `g`, with `k ≥ 0`. -/
def onlyGroup {μ : Type} (g : Nat) : List (Op μ) → Bool
  | [] => true
  | .put _ :: ops => onlyGroup g ops
  | .get k g' :: ops => decide (0 ≤ k) && decide (g' = (g : Int)) && onlyGroup g ops

/-- Checks along the run that the number of published-but-not-yet-delivered messages never
exceeds `cap`; `out` is that number before the first call of the history. -/
def outstandingBounded {μ ν : Type} (maxCap : Nat) (stamp : Int → List μ → List ν)
    (cap : Nat) : RingBuffer ν → Nat → List (Op μ) → Bool
  | _, _, [] => true
  | rb, out, .put data :: ops =>
    decide (out + data.length ≤ cap) &&
      (match Put rb (stamp rb.writeCursor data) with
       | .ok rb' => outstandingBounded maxCap stamp cap rb' (out + data.length) ops
       | _ => true)
  | rb, out, .get k g :: ops =>
    match Get maxCap rb k g with
    | .ok (rb', batch) => outstandingBounded maxCap stamp cap rb' (out - batch.length) ops
    | _ => true

/-- Every `Get` of the history asks for a batch that `make` can allocate. -/
def withinCap {μ : Type} (maxCap : Nat) : List (Op μ) → Bool
  | [] => true
  | .put _ :: ops => withinCap maxCap ops
  | .get k _ :: ops => decide (k ≤ (maxCap : Int)) && withinCap maxCap ops

/-- Publishes the batches one `Put` after the other. -/
def putAll {μ : Type} : RingBuffer μ → List (List μ) → Outcome (RingBuffer μ)
  | rb, [] => .ok rb
  | rb, data :: rest =>
    match Put rb data with
    | .ok rb' => putAll rb' rest
    | .panic => .panic
    | .diverges => .diverges

/-- States reachable from `NewRingBuffer(N, G)` by `Put` and `Get` calls that return, each
`Get` under whatever allocation limit held when it was called. -/
inductive Reachable {μ : Type} (N G : Nat) : RingBuffer μ → Prop where
  | fresh : Reachable N G (NewRingBuffer N G)
  | put {rb rb' : RingBuffer μ} (data : List μ) :
      Reachable N G rb → Put rb data = .ok rb' → Reachable N G rb'
  | get {rb rb' : RingBuffer μ} (maxCap : Nat) (k g : Int) (batch : List μ) :
      Reachable N G rb → Get maxCap rb k g = .ok (rb', batch) → Reachable N G rb'

/-! ## The broker handlers (`internal/server`) -/

/-- The wire record `messaging.Message`. -/
structure Message where
  id : String
  type : String
  payload : List UInt8
  deriving DecidableEq, Repr

/-- A `*messaging.Message`: `none` is the nil pointer. -/
abbrev MsgPtr := Option Message

/-- The struct `Server`: the ring and the two admin maps (Go maps as association lists).
The `memTable` field is only constructed, never used by a handler, and is left out. -/
structure Server where
  rb : RingBuffer MsgPtr
  topics : List (String × String)
  consumerMap : List (String × Bool)
  deriving DecidableEq, Repr

/-- The constructor `NewServer(size, numConsumers, ttl)`. -/
def NewServer (size numConsumers : Nat) : Server :=
  { rb := NewRingBuffer size numConsumers, topics := [], consumerMap := [] }

/-- The request `messaging.ConsumeRequest` (int32 fields as integers). -/
structure ConsumeRequest where
  topic : String
  consumerGroup : Int
  batchSize : Int
  deriving DecidableEq, Repr

/-- The reply `messaging.ConsumeResponse`. -/
structure ConsumeResponse where
  messages : List MsgPtr
  success : Bool
  deriving DecidableEq, Repr

/-- What a handler returns: `(resp, nil)` or `(nil, err)`. -/
inductive Reply (α : Type) where
  | response (resp : α)
  | error (msg : String)
  deriving DecidableEq, Repr

/-- The handler `Server.Consume`: calls `Get` with the two int32 fields of the request as they
come and wraps whatever it returns in a success response; the server afterwards holds the ring
as `Get` left it. `maxCap` is the allocation limit of the `Get` it calls. -/
def Server.Consume (maxCap : Nat) (s : Server) (req : ConsumeRequest) :
    Outcome (Server × Reply ConsumeResponse) :=
  match Get maxCap s.rb req.batchSize req.consumerGroup with
  | .ok (rb', messages) =>
    .ok ({ s with rb := rb' }, .response { messages := messages, success := true })
  | .panic => .panic
  | .diverges => .diverges

/-! ## Predicates used to state the properties -/

/-- The shape every ring built by `NewRingBuffer(N, _)` keeps: `N ≥ 1` slots and as many
cells and flags. -/
structure Shaped {μ : Type} (N : Nat) (rb : RingBuffer μ) : Prop where
  pos : 0 < N
  size : rb.size = N
  cells : rb.buffer.length = N
  flags : rb.available.length = N

/-- What a `Put` of `data` started at write cursor `w` leaves behind, `rb` being the ring
before and `rb'` the ring after. -/
structure PutPost {μ : Type} (N w : Nat) (data : List μ) (rb rb' : RingBuffer μ) : Prop where
  shaped : Shaped N rb'
  cursors : rb'.ReadCursors = rb.ReadCursors
  wbar : rb'.writeBarrier = rb.writeBarrier
  rbar : rb'.readBarrier = rb.readBarrier
  frame : ∀ s, (∀ i, i < data.length → (w + i) % N ≠ s) →
    rb'.buffer[s]? = rb.buffer[s]? ∧ rb'.available[s]? = rb.available[s]?
  filled : ∀ i, i < data.length → rb'.available[(w + i) % N]? = some 1
  holds : ∀ i, i < data.length → ∃ m, rb'.buffer[(w + i) % N]? = some (some m)
  stored : ∀ i, i < data.length → data.length ≤ i + N →
    rb'.buffer[(w + i) % N]? = some (data[i]?)

/-- What a `Get` for group `g` that started reading at sequence number `nr` and delivered
`r` messages leaves behind, `rb` being the ring before and `rb'` the ring after. -/
structure GetPost {μ : Type} (N g nr r : Nat) (rb rb' : RingBuffer μ) : Prop where
  shaped : Shaped N rb'
  cells : rb'.buffer = rb.buffer
  wcur : rb'.writeCursor = rb.writeCursor
  wbar : rb'.writeBarrier = rb.writeBarrier
  rbar : rb'.readBarrier = rb.readBarrier
  cursors : rb'.ReadCursors =
    if r = 0 then rb.ReadCursors else rb.ReadCursors.set g ((nr + r - 1 : Nat) : Int)
  cleared : ∀ i, i < r → rb'.available[(nr + i) % N]? = some 0
  frame : ∀ s, (∀ i, i < r → (nr + i) % N ≠ s) → rb'.available[s]? = rb.available[s]?

/-- The ring as seen by the one group `g` that consumes from it: `r` messages have been
delivered so far and `pending` are the published ones not delivered yet, sitting FILLED in
the slots of the sequence numbers `r, r + 1, ...`; every other slot is EMPTY. -/
structure Tracks {μ : Type} (N g r : Nat) (pending : List μ) (rb : RingBuffer μ) : Prop where
  shaped : Shaped N rb
  wcur : rb.writeCursor = ((r + pending.length : Nat) : Int)
  rcur : rb.ReadCursors[g]? = some ((r : Int) - 1)
  room : pending.length ≤ N
  filled : ∀ i, i < pending.length →
    rb.available[(r + i) % N]? = some 1 ∧ rb.buffer[(r + i) % N]? = some (pending[i]?)
  empty : ∀ s, s < N → (∀ i, i < pending.length → (r + i) % N ≠ s) →
    rb.available[s]? = some 0

/-- What the `Put` calls of a history store, in publish order, when the first of them is
issued at write cursor `w`. -/
def publishedAs {μ ν : Type} (stamp : Int → List μ → List ν) : Int → List (Op μ) → List ν
  | _, [] => []
  | w, .put data :: ops => stamp w data ++ publishedAs stamp (w + (data.length : Int)) ops
  | w, .get _ _ :: ops => publishedAs stamp w ops

/-- What every ring reachable from `NewRingBuffer(N, G)` satisfies: the shape, `G` read
cursors none below -1, a write cursor that is not negative, flags that are 0 or 1, and a
message in the cell of every FILLED slot. -/
structure Sound {μ : Type} (N G : Nat) (rb : RingBuffer μ) : Prop where
  shaped : Shaped N rb
  groups : rb.ReadCursors.length = G
  wcur : 0 ≤ rb.writeCursor
  rcur : ∀ (g : Nat) (c : Int), rb.ReadCursors[g]? = some c → -1 ≤ c
  backed : ∀ s : Nat, rb.available[s]? = some 1 → ∃ m, rb.buffer[s]? = some (some m)
  binary : ∀ (s : Nat) (f : Int), rb.available[s]? = some f → f = 0 ∨ f = 1

/-- The ring of scenario S3 once `Put A` has run on a fresh ring of capacity 3 with one
consumer group. -/
def ringS3 : RingBuffer String :=
  { size := 3
    buffer := [some "A", none, none]
    writeCursor := 1
    ReadCursors := [-1]
    available := [1, 0, 0]
    writeBarrier := 0
    readBarrier := 0 }

/-- The same ring with every stored message replaced by its image under `f`. -/
def RingBuffer.mapMsgs {μ ν : Type} (f : μ → ν) (rb : RingBuffer μ) : RingBuffer ν :=
  { size := rb.size
    buffer := rb.buffer.map (Option.map f)
    writeCursor := rb.writeCursor
    ReadCursors := rb.ReadCursors
    available := rb.available
    writeBarrier := rb.writeBarrier
    readBarrier := rb.readBarrier }

/-- Applies a function to the value of a normal return. -/
def Outcome.map {α β : Type} (f : α → β) : Outcome α → Outcome β
  | .ok a => .ok (f a)
  | .panic => .panic
  | .diverges => .diverges

/-! ## Go maps with string keys, and the admin and no-op handlers -/

/-- The Go lookup `v, ok := m[key]` on a map held as an association list. -/
def mapGet {υ : Type} : List (String × υ) → String → Option υ
  | [], _ => none
  | (k, v) :: rest, key => if k = key then some v else mapGet rest key

/-- The Go assignment `m[key] = v`: the entry of `key` is replaced where it stands, or a new
entry is added. -/
def mapSet {υ : Type} : List (String × υ) → String → υ → List (String × υ)
  | [], key, v => [(key, v)]
  | (k, w) :: rest, key, v =>
    if k = key then (k, v) :: rest else (k, w) :: mapSet rest key v

/-- The keys of a map, in the order the association list holds them. -/
def mapKeys {υ : Type} (m : List (String × υ)) : List String := m.map Prod.fst

/-- The request `messaging.PublishRequest`; `message` is a pointer and may be nil. -/
structure PublishRequest where
  topic : String
  message : MsgPtr
  deriving DecidableEq, Repr

/-- The reply `messaging.PublishResponse`. -/
structure PublishResponse where
  success : Bool
  deriving DecidableEq, Repr

/-- The handler `Server.Publish`: a nil message is answered with the error
`invalid message` before the ring is touched; otherwise the message pointer goes through
`Put` and the reply is a success. -/
def Server.Publish (s : Server) (req : PublishRequest) :
    Outcome (Server × Reply PublishResponse) :=
  match req.message with
  | none => .ok (s, .error "invalid message")
  | some m =>
    match Put s.rb [some m] with
    | .ok rb' => .ok ({ s with rb := rb' }, .response { success := true })
    | .panic => .panic
    | .diverges => .diverges

/-- The request `messaging.AckRequest`. -/
structure AckRequest where
  messageIds : List String
  consumerGroup : String
  deriving DecidableEq, Repr

/-- The reply `messaging.AckResponse`. -/
structure AckResponse where
  success : Bool
  deriving DecidableEq, Repr

/-- The handler `Server.Acknowledge`: logs and answers success. -/
def Server.Acknowledge (s : Server) (_ : AckRequest) : Outcome (Server × Reply AckResponse) :=
  .ok (s, .response { success := true })

/-- The request `messaging.DeadLetterRequest`, which has no fields. -/
structure DeadLetterRequest where
  deriving DecidableEq, Repr

/-- The reply `messaging.DeadLetterResponse`; a nil `Messages` slice is the empty list. -/
structure DeadLetterResponse where
  messages : List MsgPtr
  success : Bool
  deriving DecidableEq, Repr

/-- The handler `Server.GetDeadLetters`: logs and answers success with no messages. -/
def Server.GetDeadLetters (s : Server) (_ : DeadLetterRequest) :
    Outcome (Server × Reply DeadLetterResponse) :=
  .ok (s, .response { messages := [], success := true })

/-- The request `messaging.RegisterConsumerRequest`. -/
structure RegisterConsumerRequest where
  consumerGroup : String
  deriving DecidableEq, Repr

/-- The reply `messaging.RegisterConsumerResponse`. -/
structure RegisterConsumerResponse where
  success : Bool
  deriving DecidableEq, Repr

/-- The handler `Server.RegisterConsumerGroup`: `s.consumerMap[name] = true`, then success. -/
def Server.RegisterConsumerGroup (s : Server) (req : RegisterConsumerRequest) :
    Outcome (Server × Reply RegisterConsumerResponse) :=
  .ok ({ s with consumerMap := mapSet s.consumerMap req.consumerGroup true },
    .response { success := true })

/-- The request `messaging.CreateTopicRequest`. -/
structure CreateTopicRequest where
  topic : String
  strategy : String
  deriving DecidableEq, Repr

/-- The reply `messaging.CreateTopicResponse`; an unset `Error` is the empty string. -/
structure CreateTopicResponse where
  success : Bool
  error : String
  deriving DecidableEq, Repr

/-- The handler `Server.CreateTopic`. -/
def Server.CreateTopic (s : Server) (req : CreateTopicRequest) :
    Outcome (Server × Reply CreateTopicResponse) :=
  if req.topic = "" ∨ req.strategy = "" then
    .ok (s, .response { success := false, error := "Invalid topic or strategy" })
  else
    match mapGet s.topics req.topic with
    | some _ => .ok (s, .response { success := false, error := "Topic already exists" })
    | none =>
      .ok ({ s with topics := mapSet s.topics req.topic req.strategy },
        .response { success := true, error := "" })

/-- The record `messaging.TopicInfo`. -/
structure TopicInfo where
  topic : String
  strategy : String
  deriving DecidableEq, Repr

/-- The request `messaging.ListTopicsRequest`, which has no fields. -/
structure ListTopicsRequest where
  deriving DecidableEq, Repr

/-- The reply `messaging.ListTopicsResponse`. -/
structure ListTopicsResponse where
  topics : List TopicInfo
  deriving DecidableEq, Repr

/-- The handler `Server.ListTopics`. Go ranges over a map in an unspecified order; here the
entries come in the order the association list holds them, and what is proved about the
reply is proved for every rearrangement of it. -/
def Server.ListTopics (s : Server) (_ : ListTopicsRequest) :
    Outcome (Server × Reply ListTopicsResponse) :=
  .ok (s, .response { topics := s.topics.map (fun p => { topic := p.1, strategy := p.2 }) })

/-- The request `messaging.ListConsumersRequest`, which has no fields. -/
structure ListConsumersRequest where
  deriving DecidableEq, Repr

/-- The reply `messaging.ListConsumersResponse`. -/
structure ListConsumersResponse where
  consumerGroups : List String
  deriving DecidableEq, Repr

/-- The handler `Server.ListConsumers`, with the same convention on the order as
`Server.ListTopics`. -/
def Server.ListConsumers (s : Server) (_ : ListConsumersRequest) :
    Outcome (Server × Reply ListConsumersResponse) :=
  .ok (s, .response { consumerGroups := mapKeys s.consumerMap })

/-- A reply that `ListTopics` can give in state `s`: the entries of the topic map in any
order. -/
def listsTopics (s : Server) (listed : List TopicInfo) : Prop :=
  ∃ s' first, s.ListTopics {} = .ok (s', .response { topics := first }) ∧ listed.Perm first

/-- A reply that `ListConsumers` can give in state `s`: the keys of the consumer map in any
order. -/
def listsConsumers (s : Server) (listed : List String) : Prop :=
  ∃ s' first, s.ListConsumers {} = .ok (s', .response { consumerGroups := first }) ∧
    listed.Perm first

/-- What the topic map of a server satisfies as a Go map filled by `CreateTopic` only: no key
occurs twice, and no key and no strategy is the empty string. -/
structure RegistryOk (topics : List (String × String)) : Prop where
  nodup : (mapKeys topics).Nodup
  named : ∀ p ∈ topics, p.1 ≠ "" ∧ p.2 ≠ ""

/-- One RPC of the broker. -/
inductive Rpc where
  | publish (req : PublishRequest)
  | consume (req : ConsumeRequest)
  | acknowledge (req : AckRequest)
  | getDeadLetters (req : DeadLetterRequest)
  | registerConsumerGroup (req : RegisterConsumerRequest)
  | createTopic (req : CreateTopicRequest)
  | listTopics (req : ListTopicsRequest)
  | listConsumers (req : ListConsumersRequest)
  deriving DecidableEq, Repr

/-- The server after one RPC, when the handler returns. -/
def Server.after (maxCap : Nat) (s : Server) : Rpc → Outcome Server
  | .publish req => (s.Publish req).map Prod.fst
  | .consume req => (s.Consume maxCap req).map Prod.fst
  | .acknowledge req => (s.Acknowledge req).map Prod.fst
  | .getDeadLetters req => (s.GetDeadLetters req).map Prod.fst
  | .registerConsumerGroup req => (s.RegisterConsumerGroup req).map Prod.fst
  | .createTopic req => (s.CreateTopic req).map Prod.fst
  | .listTopics req => (s.ListTopics req).map Prod.fst
  | .listConsumers req => (s.ListConsumers req).map Prod.fst

/-- Servers reachable from `NewServer(N, G, ttl)` by RPCs that return, each under whatever
allocation limit held when it was called. -/
inductive ServerReachable (N G : Nat) : Server → Prop where
  | fresh : ServerReachable N G (NewServer N G)
  | call {s s' : Server} (maxCap : Nat) (rpc : Rpc) :
      ServerReachable N G s → s.after maxCap rpc = .ok s' → ServerReachable N G s'

/-! ## Concurrent Put calls, one atomic step at a time -/

/-- Where one `Put` call stands between its atomic steps: not started; past the
fetch-and-add, holding its local `nextWrite` and the messages still to store; returned. -/
inductive PutPc (μ : Type) where
  | ready
  | storing (nextWrite : Int) (rest : List μ)
  | returned
  deriving DecidableEq, Repr

/-- One `Put(data...)` call in flight. -/
structure PutCall (μ : Type) where
  data : List μ
  pc : PutPc μ
  deriving DecidableEq, Repr

/-- The next atomic step of a `Put` call on the shared ring: the fetch-and-add
`atomic.AddInt64(&rb.writeCursor, len(data))`, or one iteration of the store loop, or the
final `atomic.StoreInt64(&rb.writeCursor, nextWrite)`. One loop iteration is taken as a single
step; splitting it into its two stores only adds interleavings. The third component is what
the iteration logs: the message and the value of `nextWrite` it is stored under. -/
def PutCall.step {μ : Type} (rb : RingBuffer μ) (c : PutCall μ) :
    Outcome (RingBuffer μ × PutCall μ × List (μ × Int)) :=
  match c.pc with
  | .ready =>
    let added : Int := rb.writeCursor + (c.data.length : Int)
    .ok ({ rb with writeCursor := added },
      { c with pc := .storing (added - (c.data.length : Int)) c.data }, [])
  | .storing nextWrite (d :: ds) =>
    if rb.size = 0 then .panic
    else
      let slot := nextWrite.tmod (rb.size : Int)
      match idx? rb.buffer slot, idx? rb.available slot with
      | some _, some _ =>
        .ok ({ rb with
               buffer := setIdx rb.buffer slot (some d)
               available := setIdx rb.available slot 1 },
          { c with pc := .storing (nextWrite + 1) ds }, [(d, nextWrite)])
      | _, _ => .panic
  | .storing nextWrite [] =>
    .ok ({ rb with writeCursor := nextWrite }, { c with pc := .returned }, [])
  | .returned => .ok (rb, c, [])

/-- A ring shared by several `Put` calls, with the log lines of the stores made so far. -/
structure Producers (μ : Type) where
  rb : RingBuffer μ
  calls : List (PutCall μ)
  logged : List (μ × Int)
  deriving DecidableEq, Repr

/-- The ring `rb` with one `Put` call per batch, none of them started. -/
def Producers.start {μ : Type} (rb : RingBuffer μ) (batches : List (List μ)) : Producers μ :=
  { rb := rb, calls := batches.map (fun data => { data := data, pc := .ready }), logged := [] }

/-- Lets call number `i` take its next atomic step (nothing happens when there is no such
call). -/
def Producers.step {μ : Type} (st : Producers μ) (i : Nat) : Outcome (Producers μ) :=
  match st.calls[i]? with
  | none => .ok st
  | some c =>
    match c.step st.rb with
    | .ok (rb', c', lines) =>
      .ok { rb := rb', calls := st.calls.set i c', logged := st.logged ++ lines }
    | .panic => .panic
    | .diverges => .diverges

/-- Runs an interleaving, given as the list of the calls that step, in order. -/
def Producers.run {μ : Type} : Producers μ → List Nat → Outcome (Producers μ)
  | st, [] => .ok st
  | st, i :: rest =>
    match st.step i with
    | .ok st' => Producers.run st' rest
    | .panic => .panic
    | .diverges => .diverges

/-! ## The Avro validator (`internal/midas/schemavalidator/avro.go`) -/

/-- A Go value held in an `interface{}`, by dynamic type: the nil interface, the types the
validator tells apart, and `other` for a value of any other type (named as `%T` prints it).
A float carries the number it denotes. A `map[string]interface{}` is an association list;
Go ranges over a map in an unspecified order, here the order of the list. -/
inductive GoVal where
  | nil
  | bool (b : Bool)
  | int (n : Int)
  | int64 (n : Int)
  | float32 (x : Rat)
  | float64 (x : Rat)
  | string (s : String)
  | bytes (b : List UInt8)
  | slice (xs : List GoVal)
  | map (kvs : List (String × GoVal))
  | other (typeName : String)

/-- The Go index expression `m[key]` on a `map[string]interface{}`: the nil interface when
the key is missing. -/
def goIndex : List (String × GoVal) → String → GoVal
  | [], _ => .nil
  | (k, v) :: rest, key => if k = key then v else goIndex rest key

/-- What the verb `%T` of package fmt prints for a value. -/
def goTypeName : GoVal → String
  | .nil => "<nil>"
  | .bool _ => "bool"
  | .int _ => "int"
  | .int64 _ => "int64"
  | .float32 _ => "float32"
  | .float64 _ => "float64"
  | .string _ => "string"
  | .bytes _ => "[]uint8"
  | .slice _ => "[]interface {}"
  | .map _ => "map[string]interface {}"
  | .other typeName => typeName

/-- The parts of package fmt the validator relies on and that are not spelled out here:
`verbV v` is what `%v` prints for `v`, and `errorf0 s` is the message of `fmt.Errorf(s)`
called with the format `s` and no argument. -/
structure Fmt where
  verbV : GoVal → String
  errorf0 : String → String

/-- The library function `strings.Join(elems, sep)`. -/
def stringsJoin : List String → String → String
  | [], _ => ""
  | [x], _ => x
  | x :: y :: rest, sep => x ++ sep ++ stringsJoin (y :: rest) sep

/-- The struct `AvroSchemaField`. -/
structure AvroSchemaField where
  name : String
  type : GoVal

/-- The struct `AvroSchema`, as `json.Unmarshal` fills it. -/
structure AvroSchema where
  type : GoVal
  name : String
  fields : List AvroSchemaField
  items : GoVal
  values : GoVal

/-- The function `checkPrimitiveType`. -/
def checkPrimitiveType (avroType : String) (value : GoVal) : Bool :=
  if avroType = "null" then
    match value with
    | .nil => true
    | _ => false
  else if avroType = "boolean" then
    match value with
    | .bool _ => true
    | _ => false
  else if avroType = "int" then
    match value with
    | .int _ => true
    | .float64 _ => true
    | _ => false
  else if avroType = "long" then
    match value with
    | .int64 _ => true
    | .float64 _ => true
    | _ => false
  else if avroType = "float" then
    match value with
    | .float32 _ => true
    | .float64 _ => true
    | _ => false
  else if avroType = "double" then
    match value with
    | .float64 _ => true
    | _ => false
  else if avroType = "string" then
    match value with
    | .string _ => true
    | _ => false
  else if avroType = "bytes" then
    match value with
    | .bytes _ => true
    | _ => false
  else false

mutual

/-- The function `validateType`: `none` is the nil error. A map type whose `type` entry is
not a string falls out of the switch and is accepted. -/
def validateType (fx : Fmt) (expectedType value : GoVal) (fieldName : String) :
    Option String :=
  match expectedType with
  | .string t =>
    if checkPrimitiveType t value then none
    else
      some ("field '" ++ fieldName ++ "' has incorrect type: expected " ++ t ++ ", got " ++
        goTypeName value)
  | .slice ts =>
    if unionAccepts fx ts value fieldName then none
    else
      some ("field '" ++ fieldName ++ "' does not match any allowed types: " ++
        fx.verbV (.slice ts))
  | .map t =>
    match goIndex t "type" with
    | .string typeName =>
      if typeName = "array" then checkArrayType fx t value fieldName
      else if typeName = "map" then checkMapType fx t value fieldName
      else if typeName = "record" then checkRecordType fx t value fieldName
      else some ("field '" ++ fieldName ++ "' has unsupported complex type: " ++ typeName)
    | _ => none
  | other =>
    some ("field '" ++ fieldName ++ "' has unsupported type: " ++ fx.verbV other)
termination_by 2 * sizeOf expectedType + 1

/-- The loop over a union type in `validateType`: whether some member type accepts the
value. -/
def unionAccepts (fx : Fmt) (ts : List GoVal) (value : GoVal) (fieldName : String) : Bool :=
  match ts with
  | [] => false
  | subType :: rest =>
    if (validateType fx subType value fieldName).isNone then true
    else unionAccepts fx rest value fieldName
termination_by 2 * sizeOf (GoVal.slice ts)

/-- The function `checkArrayType`. -/
def checkArrayType (fx : Fmt) (schema : List (String × GoVal)) (value : GoVal)
    (fieldName : String) : Option String :=
  match value with
  | .slice arr =>
    let errors := arr.enum.filterMap (fun iv =>
      validateType fx (goIndex schema "items") iv.2
        (fieldName ++ "[" ++ toString iv.1 ++ "]"))
    if errors.length > 0 then some (fx.errorf0 (stringsJoin errors "\n")) else none
  | _ => some ("field '" ++ fieldName ++ "' must be an array")
termination_by 2 * sizeOf (GoVal.map schema)
decreasing_by
  have key : ∀ (m : List (String × GoVal)) (k : String),
      sizeOf (goIndex m k) < 1 + sizeOf m := by
    intro m k
    induction m with
    | nil => simp [goIndex]
    | cons p rest ih =>
      obtain ⟨k', v⟩ := p
      simp only [goIndex]
      split
      · simp; omega
      · simp; omega
  have := key schema "items"
  simp_wf
  omega

/-- The function `checkMapType`. -/
def checkMapType (fx : Fmt) (schema : List (String × GoVal)) (value : GoVal)
    (fieldName : String) : Option String :=
  match value with
  | .map m =>
    let errors := m.filterMap (fun kv =>
      validateType fx (goIndex schema "values") kv.2 (fieldName ++ "[" ++ kv.1 ++ "]"))
    if errors.length > 0 then some (fx.errorf0 (stringsJoin errors "\n")) else none
  | _ => some ("field '" ++ fieldName ++ "' must be a map")
termination_by 2 * sizeOf (GoVal.map schema)
decreasing_by
  have key : ∀ (m : List (String × GoVal)) (k : String),
      sizeOf (goIndex m k) < 1 + sizeOf m := by
    intro m k
    induction m with
    | nil => simp [goIndex]
    | cons p rest ih =>
      obtain ⟨k', v⟩ := p
      simp only [goIndex]
      split
      · simp; omega
      · simp; omega
  have := key schema "values"
  simp_wf
  omega

/-- The function `checkRecordType`. -/
def checkRecordType (fx : Fmt) (schema : List (String × GoVal)) (value : GoVal)
    (fieldName : String) : Option String :=
  match value with
  | .map recordData =>
    match _hfields : goIndex schema "fields" with
    | .slice fields =>
      let errors := recordErrors fx fields recordData fieldName
      if errors.length > 0 then some (fx.errorf0 (stringsJoin errors "\n")) else none
    | _ => some ("field '" ++ fieldName ++ "' has an invalid record schema")
  | _ => some ("field '" ++ fieldName ++ "' must be a record (object)")
termination_by 2 * sizeOf (GoVal.map schema)
decreasing_by
  have key : ∀ (m : List (String × GoVal)) (k : String),
      sizeOf (goIndex m k) < 1 + sizeOf m := by
    intro m k
    induction m with
    | nil => simp [goIndex]
    | cons p rest ih =>
      obtain ⟨k', v⟩ := p
      simp only [goIndex]
      split
      · simp; omega
      · simp; omega
  have := key schema "fields"
  rw [_hfields] at this
  simp_wf
  simp only [GoVal.slice.sizeOf_spec] at this
  omega

/-- The loop over the declared fields in `checkRecordType`: the errors it collects. -/
def recordErrors (fx : Fmt) (fields : List GoVal) (recordData : List (String × GoVal))
    (fieldName : String) : List String :=
  match fields with
  | [] => []
  | field :: rest =>
    match field with
    | .map fieldMap =>
      match goIndex fieldMap "name" with
      | .string fieldNameNested =>
        match mapGet recordData fieldNameNested with
        | none =>
          ("missing required field: " ++ fieldName ++ "." ++ fieldNameNested) ::
            recordErrors fx rest recordData fieldName
        | some val =>
          match validateType fx (goIndex fieldMap "type") val
              (fieldName ++ "." ++ fieldNameNested) with
          | some err => err :: recordErrors fx rest recordData fieldName
          | none => recordErrors fx rest recordData fieldName
      | _ => recordErrors fx rest recordData fieldName
    | _ => recordErrors fx rest recordData fieldName
termination_by 2 * sizeOf (GoVal.slice fields)
decreasing_by
  all_goals simp_wf
  have key : ∀ (m : List (String × GoVal)) (k : String),
      sizeOf (goIndex m k) < 1 + sizeOf m := by
    intro m k
    induction m with
    | nil => simp [goIndex]
    | cons p rest ih =>
      obtain ⟨k', v⟩ := p
      simp only [goIndex]
      split
      · simp; omega
      · simp; omega
  have key2 : ∀ (m : List (String × GoVal)) (k : String),
      2 * sizeOf (goIndex m k) + 1 < 2 * (1 + sizeOf m) := by
    intro m k
    have := key m k
    omega
  exact Nat.lt_of_lt_of_le (key2 _ _) (by omega)

end

/-- The loop over `schema.Fields` in `ValidateAvro`: the errors it collects, in order. -/
def fieldErrors (fx : Fmt) (data : List (String × GoVal)) : List AvroSchemaField → List String
  | [] => []
  | field :: rest =>
    match mapGet data field.name with
    | none => ("missing required field: " ++ field.name) :: fieldErrors fx data rest
    | some val =>
      match validateType fx field.type val field.name with
      | some err => err :: fieldErrors fx data rest
      | none => fieldErrors fx data rest

/-- The function `ValidateAvro`: `none` is the nil error, `some msg` an error with message
`msg`. The decoder `json.Unmarshal` into an `AvroSchema` is the parameter `unmarshal`, which
gives the decoded schema or the message of its error. -/
def ValidateAvro (unmarshal : List UInt8 → Except String AvroSchema) (fx : Fmt)
    (schemaJSON : List UInt8) (data : List (String × GoVal)) : Option String :=
  match unmarshal schemaJSON with
  | .error err => some ("invalid Avro schema format: " ++ err)
  | .ok schema =>
    match schema.type with
    | .string "record" =>
      let errors := fieldErrors fx data schema.fields
      if errors.length > 0 then
        some ("schema validation failed:\n" ++ stringsJoin errors "\n")
      else none
    | other =>
      some ("only 'record' type schemas are supported at the top level, found: " ++
        fx.verbV other)

/-- The text `part` occurs in `s`. -/
def containsText (s part : String) : Prop := ∃ before after : String, s = before ++ part ++ after

/-- The schema of TestValidateAvro_MissingFields: a record with a string field `id` and an
int field `age`. -/
def missingFieldsSchema : AvroSchema :=
  { type := .string "record"
    name := "TestRecord"
    fields := [{ name := "id", type := .string "string" }, { name := "age", type := .string "int" }]
    items := .nil
    values := .nil }

/-- A formatter to run examples with: `%v` prints nothing and `fmt.Errorf(s)` gives `s`. -/
def plainFmt : Fmt := { verbV := fun _ => "", errorf0 := fun s => s }

/-- Whether `validateType` accepts the value for the type. The answer does not depend on the
field name or on the formatter (`validateType_none_iff`); they only shape the message. -/
def avroAccepts (expectedType value : GoVal) : Bool :=
  (validateType plainFmt expectedType value "").isNone

/-- The value is a Go string. -/
def GoVal.isString : GoVal → Bool
  | .string _ => true
  | _ => false

/-- The value is a Go bool. -/
def GoVal.isBool : GoVal → Bool
  | .bool _ => true
  | _ => false

/-- The value is a Go int. -/
def GoVal.isInt : GoVal → Bool
  | .int _ => true
  | _ => false

/-- The value is a number: an int, an int64, a float32 or a float64. -/
def GoVal.isNumber : GoVal → Bool
  | .int _ => true
  | .int64 _ => true
  | .float32 _ => true
  | .float64 _ => true
  | _ => false

/-- The schema of TestValidateAvro_ValidInput: string `id`, int `age`, boolean `active`. -/
def validInputSchema : AvroSchema :=
  { type := .string "record"
    name := "TestRecord"
    fields := [{ name := "id", type := .string "string" }, { name := "age", type := .string "int" },
      { name := "active", type := .string "boolean" }]
    items := .nil
    values := .nil }

/-- The nested record type of TestValidateAvro_NestedRecord: a string `name`, an int `age`. -/
def childRecordType : List (String × GoVal) :=
  [("type", .string "record"), ("name", .string "ChildRecord"),
   ("fields", .slice [.map [("name", .string "name"), ("type", .string "string")],
                      .map [("name", .string "age"), ("type", .string "int")]])]

/-- The schema of TestValidateAvro_NestedRecord: one field `child` of the nested type. -/
def nestedRecordSchema : AvroSchema :=
  { type := .string "record"
    name := "ParentRecord"
    fields := [{ name := "child", type := .map childRecordType }]
    items := .nil
    values := .nil }

/-- The schema of TestValidateAvro_NonRecordSchema, whose top-level type is `string`. -/
def nonRecordSchema : AvroSchema :=
  { type := .string "string", name := "", fields := [], items := .nil, values := .nil }

/-! ## The JSON Schema validator (`internal/midas/schemavalidator/json.go`) -/

/-- The struct `JSONSchema`. A nil pointer is `none`, and so is the nil map of `Properties`;
a nil slice is the empty list. The map `Properties` is held as an association list. -/
structure JSONSchema where
  type : GoVal
  properties : Option (List (String × Option JSONSchema))
  required : List String
  enum : List GoVal
  minimum : Option Rat
  maximum : Option Rat
  minLength : Option Int
  maxLength : Option Int
  pattern : Option String
  format : Option String
  items : Option JSONSchema
  minItems : Option Int
  maxItems : Option Int
  uniqueItems : Bool

/-- The library functions the JSON validator relies on and that are not spelled out here:
`verbV v` and `verbF x` are what the verbs `%v` and `%f` of package fmt print,
`deepEqual` is `reflect.DeepEqual`, and `matchString pattern s` is the first result of
`regexp.MatchString(pattern, s)`, which is false when the pattern does not compile. -/
structure JsonLib where
  verbV : GoVal → String
  verbF : Rat → String
  deepEqual : GoVal → GoVal → Bool
  matchString : String → String → Bool

/-- The function `checkJsonPrimitiveType`. -/
def checkJsonPrimitiveType (expected : String) (value : GoVal) : Bool :=
  if expected = "null" then
    match value with | .nil => true | _ => false
  else if expected = "boolean" then
    match value with | .bool _ => true | _ => false
  else if expected = "integer" then
    match value with | .int _ => true | _ => false
  else if expected = "number" then
    match value with | .float64 _ => true | _ => false
  else if expected = "string" then
    match value with | .string _ => true | _ => false
  else if expected = "object" then
    match value with | .map _ => true | _ => false
  else if expected = "array" then
    match value with | .slice _ => true | _ => false
  else false

mutual
/-- The function `validateJSONType`. -/
def validateJSONType (expectedType value : GoVal) : Bool :=
  match expectedType with
  | .string expected => checkJsonPrimitiveType expected value
  | .slice expected => anyJSONType expected value
  | _ => false
termination_by 2 * sizeOf expectedType + 1
decreasing_by
  simp_wf

/-- The loop over a union type in `validateJSONType`. -/
def anyJSONType (expected : List GoVal) (value : GoVal) : Bool :=
  match expected with
  | [] => false
  | subType :: rest =>
    if validateJSONType subType value then true else anyJSONType rest value
termination_by 2 * sizeOf (GoVal.slice expected)
decreasing_by
  all_goals simp_wf
  all_goals omega
end

/-- Whether a value can be a key of a `map[interface{}]bool`: a slice or a map cannot, and
using one as a key is a run-time panic. -/
def GoVal.hashable : GoVal → Bool
  | .bytes _ => false
  | .slice _ => false
  | .map _ => false
  | _ => true

/-- Equality of two hashable values as keys of a `map[interface{}]bool`: the same dynamic
type and equal values. A value of another type is known by its type name only. -/
def GoVal.keyEq : GoVal → GoVal → Bool
  | .nil, .nil => true
  | .bool a, .bool b => a == b
  | .int a, .int b => a == b
  | .int64 a, .int64 b => a == b
  | .float32 a, .float32 b => a == b
  | .float64 a, .float64 b => a == b
  | .string a, .string b => a == b
  | .other a, .other b => a == b
  | _, _ => false

/-- The loop of `validateJSONSchema` over the array under `uniqueItems`: `seen` are the keys
of `uniqueSet`; the result says whether the loop found a repeated item (and stopped). -/
def uniqueLoop : List GoVal → List GoVal → Outcome Bool
  | [], _ => .ok false
  | v :: rest, seen =>
    if v.hashable then
      if seen.any (fun u => GoVal.keyEq u v) then .ok true
      else uniqueLoop rest (v :: seen)
    else .panic

/-- The required-fields block of `validateJSONSchema`. -/
def requiredErrors (schema : JSONSchema) (data : GoVal) (path : String) : List String :=
  match data with
  | .map obj =>
    schema.required.filterMap (fun field =>
      match mapGet obj field with
      | some _ => none
      | none => some (path ++ ": missing required field '" ++ field ++ "'"))
  | _ => []

/-- The type block of `validateJSONSchema`. -/
def typeErrors (lib : JsonLib) (schema : JSONSchema) (data : GoVal) (path : String) :
    List String :=
  match schema.type with
  | .nil => []
  | t =>
    if validateJSONType t data then []
    else [path ++ ": incorrect type, expected " ++ lib.verbV t]

/-- The enum block of `validateJSONSchema`. -/
def enumErrors (lib : JsonLib) (schema : JSONSchema) (data : GoVal) (path : String) :
    List String :=
  if schema.enum.length > 0 then
    if schema.enum.any (fun e => lib.deepEqual e data) then []
    else [path ++ ": value not in enum " ++ lib.verbV (.slice schema.enum)]
  else []

/-- The number block of `validateJSONSchema`: it applies to a `float64` only. -/
def numberErrors (lib : JsonLib) (schema : JSONSchema) (data : GoVal) (path : String) :
    List String :=
  match data with
  | .float64 num =>
    (match schema.minimum with
      | some min => if num < min then [path ++ ": value must be >= " ++ lib.verbF min] else []
      | none => []) ++
    (match schema.maximum with
      | some max => if num > max then [path ++ ": value must be <= " ++ lib.verbF max] else []
      | none => [])
  | _ => []

/-- The string block of `validateJSONSchema`; `len(str)` counts bytes. -/
def stringErrors (lib : JsonLib) (schema : JSONSchema) (data : GoVal) (path : String) :
    List String :=
  match data with
  | .string str =>
    (match schema.minLength with
      | some n =>
        if (str.utf8ByteSize : Int) < n then
          [path ++ ": string length must be >= " ++ toString n]
        else []
      | none => []) ++
    (match schema.maxLength with
      | some n =>
        if (str.utf8ByteSize : Int) > n then
          [path ++ ": string length must be <= " ++ toString n]
        else []
      | none => []) ++
    (match schema.pattern with
      | some p =>
        if lib.matchString p str then []
        else [path ++ ": does not match pattern '" ++ p ++ "'"]
      | none => [])
  | _ => []

/-- The `minItems` and `maxItems` checks of `validateJSONSchema`. -/
def itemCountErrors (schema : JSONSchema) (arr : List GoVal) (path : String) : List String :=
  (match schema.minItems with
    | some n =>
      if (arr.length : Int) < n then
        [path ++ ": array must have at least " ++ toString n ++ " items"]
      else []
    | none => []) ++
  (match schema.maxItems with
    | some n =>
      if (arr.length : Int) > n then
        [path ++ ": array must have at most " ++ toString n ++ " items"]
      else []
    | none => [])

/-- The `uniqueItems` check of `validateJSONSchema`. -/
def uniqueErrors (schema : JSONSchema) (arr : List GoVal) (path : String) :
    Outcome (List String) :=
  if schema.uniqueItems then
    match uniqueLoop arr [] with
    | .ok true => .ok [path ++ ": array must have unique items"]
    | .ok false => .ok []
    | .panic => .panic
    | .diverges => .diverges
  else .ok []

mutual
/-- The function `validateJSONSchema`. The result is the list of errors the call appends to
`*errors`; a nil `schema` is dereferenced at once, which is a run-time panic. -/
def validateJSONSchema (lib : JsonLib) (schema : Option JSONSchema) (data : GoVal)
    (path : String) : Outcome (List String) :=
  match schema with
  | none => .panic
  | some s =>
    let required := requiredErrors s data path
    let rest : Outcome (List String) :=
      let scalar := typeErrors lib s data path ++ enumErrors lib s data path ++
        numberErrors lib s data path ++ stringErrors lib s data path
      match data with
      | .slice arr =>
        match uniqueErrors s arr path with
        | .ok unique =>
          match itemsLoop lib s.items arr path 0 with
          | .ok items => .ok (scalar ++ itemCountErrors s arr path ++ unique ++ items)
          | .panic => .panic
          | .diverges => .diverges
        | .panic => .panic
        | .diverges => .diverges
      | _ => .ok scalar
    match _hp : s.properties with
    | some props =>
      match data with
      | .map obj =>
        match propertiesLoop lib props obj path with
        | .ok properties =>
          match rest with
          | .ok errs => .ok (required ++ properties ++ errs)
          | .panic => .panic
          | .diverges => .diverges
        | .panic => .panic
        | .diverges => .diverges
      | _ => .ok (required ++ [path ++ ": expected an object"])
    | none =>
      match rest with
      | .ok errs => .ok (required ++ errs)
      | .panic => .panic
      | .diverges => .diverges
termination_by (sizeOf schema, 0)
decreasing_by
  · simp_wf
    apply Prod.Lex.left
    have : sizeOf s.items < sizeOf s := by
      cases s
      simp
      omega
    omega
  · simp_wf
    apply Prod.Lex.left
    have : sizeOf s.properties < sizeOf s := by
      cases s
      simp
      omega
    rw [_hp] at this
    simp at this
    omega

/-- The loop of `validateJSONSchema` over `schema.Properties`, in the order of the list. -/
def propertiesLoop (lib : JsonLib) (props : List (String × Option JSONSchema))
    (obj : List (String × GoVal)) (path : String) : Outcome (List String) :=
  match props with
  | [] => .ok []
  | (field, propSchema) :: rest =>
    match mapGet obj field with
    | some value =>
      match validateJSONSchema lib propSchema value (path ++ "." ++ field) with
      | .ok errs =>
        match propertiesLoop lib rest obj path with
        | .ok more => .ok (errs ++ more)
        | .panic => .panic
        | .diverges => .diverges
      | .panic => .panic
      | .diverges => .diverges
    | none => propertiesLoop lib rest obj path
termination_by (sizeOf props, 0)
decreasing_by
  all_goals simp_wf
  all_goals apply Prod.Lex.left
  all_goals omega

/-- The loop of `validateJSONSchema` over the items of an array, from index `i` on. -/
def itemsLoop (lib : JsonLib) (items : Option JSONSchema) (arr : List GoVal) (path : String)
    (i : Nat) : Outcome (List String) :=
  match arr with
  | [] => .ok []
  | v :: rest =>
    match validateJSONSchema lib items v (path ++ "[" ++ toString i ++ "]") with
    | .ok errs =>
      match itemsLoop lib items rest path (i + 1) with
      | .ok more => .ok (errs ++ more)
      | .panic => .panic
      | .diverges => .diverges
    | .panic => .panic
    | .diverges => .diverges
termination_by (sizeOf items, 1 + arr.length)
decreasing_by
  · simp_wf
    apply Prod.Lex.right
    omega
  · simp_wf
    apply Prod.Lex.right
    omega
end

/-- The function `ValidateJSON`: `none` is the nil error, `some msg` an error with message
`msg`. The decoder `json.Unmarshal` into a `JSONSchema` is the parameter `unmarshal`. The
verb `%s` prints the list of errors between brackets, separated by blanks. -/
def ValidateJSON (unmarshal : List UInt8 → Except String JSONSchema) (lib : JsonLib)
    (schemaJSON : List UInt8) (data : List (String × GoVal)) : Outcome (Option String) :=
  match unmarshal schemaJSON with
  | .error _ => .ok (some "invalid JSON schema format")
  | .ok schema =>
    match validateJSONSchema lib (some schema) (.map data) "" with
    | .ok errors =>
      if errors.length > 0 then
        .ok (some ("schema validation failed:\n" ++ "[" ++ stringsJoin errors " " ++ "]"))
      else .ok none
    | .panic => .panic
    | .diverges => .diverges

/-- The zero value `JSONSchema{}`, which `json.Unmarshal` fills in. -/
def emptySchema : JSONSchema :=
  { type := .nil, properties := none, required := [], enum := [], minimum := none,
    maximum := none, minLength := none, maxLength := none, pattern := none, format := none,
    items := none, minItems := none, maxItems := none, uniqueItems := false }

/-- The schema with `required: ["name"]` and a property `tags` of type array that declares no
`items`. -/
def missingNameSchema : JSONSchema :=
  { emptySchema with
    required := ["name"]
    properties := some [("tags", some { emptySchema with type := GoVal.string "array" })] }

/-- The schema with one property `p` of type string. -/
def stringPropertySchema : JSONSchema :=
  { emptySchema with
    properties := some [("p", some { emptySchema with type := GoVal.string "string" })] }

/-- The schema with one property `age` of type integer and minimum 10. -/
def integerMinimumSchema : JSONSchema :=
  { emptySchema with
    properties := some [("age", some { emptySchema with
      type := GoVal.string "integer", minimum := some 10 })] }

/-- The schema with one property `xs` of type array with `minItems: 2` and no `items`. -/
def shortArraySchema : JSONSchema :=
  { emptySchema with
    properties := some [("xs", some { emptySchema with
      type := GoVal.string "array", minItems := some 2 })] }

/-- The schema with one property `xs` of type array with `uniqueItems: true` and no
`items`. -/
def uniqueArraySchema : JSONSchema :=
  { emptySchema with
    properties := some [("xs", some { emptySchema with
      type := GoVal.string "array", uniqueItems := true })] }

/-- The schema with one property `xs` with `uniqueItems: true` whose `items` is the empty
schema. -/
def uniqueItemsSchema : JSONSchema :=
  { emptySchema with
    properties := some [("xs", some { emptySchema with
      uniqueItems := true, items := some emptySchema })] }

/-- The schema with one property `tags` of type array that declares no `items`. -/
def tagsArraySchema : JSONSchema :=
  { emptySchema with
    properties := some [("tags", some { emptySchema with type := GoVal.string "array" })] }

/-- The schema with one property `xs`, an array of objects with `uniqueItems: true`. -/
def uniqueObjectsSchema : JSONSchema :=
  { emptySchema with
    properties := some [("xs", some { emptySchema with
      type := GoVal.string "array", uniqueItems := true,
      items := some { emptySchema with type := GoVal.string "object" } })] }

/-- A library to run examples with: the verbs print nothing, nothing is deeply equal and no
pattern matches. -/
def plainLib : JsonLib :=
  { verbV := fun _ => "", verbF := fun _ => "", deepEqual := fun _ _ => false,
    matchString := fun _ _ => false }

/-! ## The schema registry (`internal/midas/schemavalidator/registry.go`) -/

/-- The struct `Schema`. -/
structure Schema where
  ID : String
  Name : String
  Version : String
  Format : String
  Content : String
  deriving DecidableEq, Repr

/-- The struct `SchemaRegistry`, without its mutex: every method holds the lock from its
first to its last statement, so calls run one after the other. The maps hold pointers to
schemas that no method changes after it has built them; they hold the schemas here. -/
structure SchemaRegistry where
  schemasByID : List (String × Schema)
  schemasByNameVers : List (String × Schema)
  deriving DecidableEq, Repr

/-- The constructor `NewSchemaRegistry`. -/
def NewSchemaRegistry : SchemaRegistry :=
  { schemasByID := [], schemasByNameVers := [] }

/-- The function `generateSchemaID`. The parameter `sha256Hex s` stands for
`hex.EncodeToString` of `sha256.Sum256([]byte(s))`, library code not spelled out here. -/
def generateSchemaID (sha256Hex : String → String) (name version format content : String) :
    String :=
  sha256Hex (name ++ version ++ format ++ content)

/-- The method `RegisterSchema`: the registry after the call, and the returned ID or the
message of the returned error. -/
def SchemaRegistry.RegisterSchema (sha256Hex : String → String) (r : SchemaRegistry)
    (id name version format content : String) : SchemaRegistry × Except String String :=
  let id := if id = "" then generateSchemaID sha256Hex name version format content else id
  match mapGet r.schemasByID id with
  | some _ => (r, .error "schema ID already exists")
  | none =>
    let schemaKey := name ++ ":" ++ version
    match mapGet r.schemasByNameVers schemaKey with
    | some _ => (r, .error "schema name and version already registered")
    | none =>
      let schema : Schema :=
        { ID := id, Name := name, Version := version, Format := format, Content := content }
      ({ schemasByID := mapSet r.schemasByID id schema
         schemasByNameVers := mapSet r.schemasByNameVers schemaKey schema }, .ok id)

/-- The method `GetSchema`: the schema found, or the message of the returned error. -/
def SchemaRegistry.GetSchema (r : SchemaRegistry) (identifier version : String) :
    Except String Schema :=
  if version = "" then
    match mapGet r.schemasByID identifier with
    | some schema => .ok schema
    | none => .error "schema not found"
  else
    match mapGet r.schemasByNameVers (identifier ++ ":" ++ version) with
    | some schema => .ok schema
    | none => .error "schema not found"

/-- Registries reachable from `NewSchemaRegistry` by `RegisterSchema` calls (`GetSchema`
changes nothing). -/
inductive RegistryReachable (sha256Hex : String → String) : SchemaRegistry → Prop where
  | fresh : RegistryReachable sha256Hex NewSchemaRegistry
  | register {r : SchemaRegistry} (id name version format content : String) :
      RegistryReachable sha256Hex r →
      RegistryReachable sha256Hex
        (r.RegisterSchema sha256Hex id name version format content).1

/-- A schema is registered when the table of IDs holds it. -/
def SchemaRegistry.registered (r : SchemaRegistry) (s : Schema) : Prop :=
  ∃ id, mapGet r.schemasByID id = some s

/-- A stand-in for the digest in examples whose IDs are all given: the text itself. -/
def plainDigest (s : String) : String := s

/-! ## The cuckoo filter (`internal/mnemosyne/rp_mcmurphy.go`) -/

/-- The constant `bucketSize`. -/
def bucketSize : Nat := 4

/-- The constant `numBuckets`. -/
def numBuckets : Nat := 1024

/-- The constant `maxKicks`. -/
def maxKicks : Nat := 500

/-- The struct `CuckooFilter`: `buckets [][]uint16`, a fingerprint being a number below
65536 and 0 marking an empty slot. -/
structure CuckooFilter where
  buckets : List (List Nat)
  deriving DecidableEq, Repr

/-- The constructor `NewCuckooFilter`: `numBuckets` buckets of `bucketSize` zeros. -/
def NewCuckooFilter : CuckooFilter :=
  { buckets := List.replicate numBuckets (List.replicate bucketSize 0) }

/-- The function `hashFunc`: the 32-bit FNV-1 hash that `fnv.New32` of package hash/fnv
computes. It starts from the offset basis 2166136261 and, for each byte in turn, multiplies
by the prime 16777619 modulo 2^32 and then xors the byte in. -/
def hashFunc (data : List UInt8) : Nat :=
  data.foldl (fun h b => ((h * 16777619) % 4294967296) ^^^ b.toNat) 2166136261

/-- The function `fingerprint`: `uint16(h) + 1` in uint16 arithmetic. -/
def fingerprint (data : List UInt8) : Nat :=
  (hashFunc data % 65536 + 1) % 65536

/-- The function `index`. -/
def index (data : List UInt8) : Nat :=
  hashFunc data % numBuckets

/-- The function `altIndex`. Its argument `idx` is always a result of `index` or of
`altIndex`, hence a natural number; `byte(fp)` and `byte(fp >> 8)` are the low and the high
byte of the fingerprint. -/
def altIndex (idx fp : Nat) : Nat :=
  let h := hashFunc [UInt8.ofNat fp, UInt8.ofNat (fp >>> 8)]
  (idx ^^^ (h % numBuckets)) % numBuckets

/-- The bucket `cf.buckets[i]`. -/
def CuckooFilter.bucket (cf : CuckooFilter) (i : Nat) : List Nat :=
  cf.buckets.getD i []

/-- The assignment `cf.buckets[i][j] = fp`. -/
def CuckooFilter.store (cf : CuckooFilter) (i j fp : Nat) : CuckooFilter :=
  { buckets := cf.buckets.set i ((cf.bucket i).set j fp) }

/-- The loop of `insertIntoBucket` on one bucket: the bucket with `fp` in place of its first
zero, or `none` when it holds no zero. -/
def fillFirstEmpty : List Nat → Nat → Option (List Nat)
  | [], _ => none
  | f :: rest, fp =>
    if f = 0 then some (fp :: rest)
    else
      match fillFirstEmpty rest fp with
      | some rest' => some (f :: rest')
      | none => none

/-- The method `insertIntoBucket`: the filter after the call and the returned boolean. -/
def CuckooFilter.insertIntoBucket (cf : CuckooFilter) (i fp : Nat) : CuckooFilter × Bool :=
  match fillFirstEmpty (cf.bucket i) fp with
  | some b => ({ buckets := cf.buckets.set i b }, true)
  | none => (cf, false)

/-- The method `contains`. -/
def CuckooFilter.contains (cf : CuckooFilter) (i fp : Nat) : Bool :=
  (cf.bucket i).any (fun f => f == fp)

/-- The eviction loop of `Insert`, `for n := 0; n < maxKicks; n++`. The first argument is
`maxKicks - n`; `picks n` is what `rand.Intn(bucketSize)` returns in iteration `n`, taken
modulo `bucketSize` since `rand.Intn` returns a number below its argument. -/
def kickLoop (picks : Nat → Nat) :
    Nat → Nat → CuckooFilter → Nat → Nat → CuckooFilter × Bool
  | 0, _, cf, _, _ => (cf, false)
  | left + 1, n, cf, i, fp =>
    let j := picks n % bucketSize
    let evicted := (cf.bucket i).getD j 0
    let cf1 := cf.store i j fp
    let i' := altIndex i evicted
    match cf1.insertIntoBucket i' evicted with
    | (cf2, true) => (cf2, true)
    | (cf2, false) => kickLoop picks left (n + 1) cf2 i' evicted

/-- The method `Insert`: the filter after the call and the returned boolean. `first` is
what `rand.Intn(2)` returns, taken modulo 2, and `picks` gives the results of
`rand.Intn(bucketSize)`. -/
def CuckooFilter.Insert (cf : CuckooFilter) (data : List UInt8) (first : Nat)
    (picks : Nat → Nat) : CuckooFilter × Bool :=
  let fp := fingerprint data
  let i1 := index data
  let i2 := altIndex i1 fp
  match cf.insertIntoBucket i1 fp with
  | (cf1, true) => (cf1, true)
  | (_, false) =>
    match cf.insertIntoBucket i2 fp with
    | (cf2, true) => (cf2, true)
    | (_, false) => kickLoop picks maxKicks 0 cf (if first % 2 = 0 then i1 else i2) fp

/-- The method `Lookup`. -/
def CuckooFilter.Lookup (cf : CuckooFilter) (data : List UInt8) : Bool :=
  let fp := fingerprint data
  let i1 := index data
  let i2 := altIndex i1 fp
  cf.contains i1 fp || cf.contains i2 fp

/-- The loop of `removeFromBucket` on one bucket: the bucket with 0 in place of the first
slot that holds `fp`, or `none` when no slot does. -/
def clearFirst : List Nat → Nat → Option (List Nat)
  | [], _ => none
  | f :: rest, fp =>
    if f = fp then some (0 :: rest)
    else
      match clearFirst rest fp with
      | some rest' => some (f :: rest')
      | none => none

/-- The method `removeFromBucket`. -/
def CuckooFilter.removeFromBucket (cf : CuckooFilter) (i fp : Nat) : CuckooFilter × Bool :=
  match clearFirst (cf.bucket i) fp with
  | some b => ({ buckets := cf.buckets.set i b }, true)
  | none => (cf, false)

/-- The method `Delete`. -/
def CuckooFilter.Delete (cf : CuckooFilter) (data : List UInt8) : CuckooFilter × Bool :=
  let fp := fingerprint data
  let i1 := index data
  let i2 := altIndex i1 fp
  match cf.removeFromBucket i1 fp with
  | (cf1, true) => (cf1, true)
  | (_, false) => cf.removeFromBucket i2 fp

/-- The shape of every filter built by `NewCuckooFilter`: `numBuckets` buckets of
`bucketSize` slots each. -/
def CuckooShaped (cf : CuckooFilter) : Prop :=
  cf.buckets.length = numBuckets ∧ ∀ b ∈ cf.buckets, b.length = bucketSize

/-- Filters reachable from `NewCuckooFilter` by `Insert` calls, whatever the random choices
and the returned boolean, and by `Delete` calls (`Lookup` changes nothing). -/
inductive CuckooReachable : CuckooFilter → Prop where
  | fresh : CuckooReachable NewCuckooFilter
  | insert {cf : CuckooFilter} (data : List UInt8) (first : Nat) (picks : Nat → Nat) :
      CuckooReachable cf → CuckooReachable (cf.Insert data first picks).1
  | delete {cf : CuckooFilter} (data : List UInt8) :
      CuckooReachable cf → CuckooReachable (cf.Delete data).1

/-- Runs `Insert` on each byte string in turn, every random choice being `choice`. -/
def insertAll (choice : Nat) : CuckooFilter → List (List UInt8) → CuckooFilter
  | cf, [] => cf
  | cf, data :: rest => insertAll choice (cf.Insert data choice (fun _ => choice)).1 rest

/-- The byte string `aulq`: its fingerprint is 17459 and its two buckets are both 50. -/
def keyAulq : List UInt8 := [97, 117, 108, 113]

/-- The byte string `ym`: its fingerprint is 2048 and its first bucket is 1023. -/
def keyYm : List UInt8 := [121, 109]

/-- The byte string `bywh`: its hash ends in sixteen ones, its first bucket is 1023 and its
second is 50. -/
def keyBywh : List UInt8 := [98, 121, 119, 104]

/-- The filter after four `Insert` calls of `aulq` and four of `ym`: buckets 50 and 1023 are
full. -/
def fullBuckets : CuckooFilter :=
  insertAll 0 NewCuckooFilter [keyAulq, keyAulq, keyAulq, keyAulq, keyYm, keyYm, keyYm, keyYm]

end Kafkaesque

namespace Kafkaesque

/-! ## Index arithmetic -/

theorem idx_natCast {α : Type} (xs : List α) (a : Nat) : idx? xs (a : Int) = xs[a]? := by
  simp [idx?]

theorem tmod_natCast (a N : Nat) : (a : Int).tmod (N : Int) = ((a % N : Nat) : Int) := rfl

theorem setIdx_natCast {α : Type} (xs : List α) (a : Nat) (x : α) :
    setIdx xs (a : Int) x = xs.set a x := by
  simp [setIdx]

theorem exists_getElem_of_lt {α : Type} {xs : List α} {i : Nat} (h : i < xs.length) :
    ∃ a, xs[i]? = some a :=
  ⟨xs[i], List.getElem?_eq_getElem h⟩

/-- Two sequence numbers less than a lap apart never share a slot. -/
theorem slot_inj {N a i j : Nat} (hij : i ≤ j) (hlt : j < i + N)
    (h : (a + i) % N = (a + j) % N) : i = j := by
  have h1 : i ≡ j [MOD N] := Nat.ModEq.add_left_cancel' a h
  have h2 : N ∣ j - i := (Nat.modEq_iff_dvd' hij).1 h1
  have h3 : j - i = 0 := Nat.eq_zero_of_dvd_of_lt h2 (by omega)
  omega

theorem slot_ne {N a i j : Nat} (hij : i < j) (hlt : j < i + N) :
    (a + i) % N ≠ (a + j) % N := by
  intro h
  have := slot_inj (Nat.le_of_lt hij) hlt h
  omega

/-! ## The store loop of Put -/

theorem putLoop_post {μ : Type} (N : Nat) :
    ∀ (data : List μ) (rb : RingBuffer μ) (w : Nat), Shaped N rb →
      ∃ rb', putLoop data rb (w : Int) = .ok (rb', ((w + data.length : Nat) : Int)) ∧
        rb'.writeCursor = rb.writeCursor ∧ PutPost N w data rb rb' := by
  intro data
  induction data with
  | nil =>
    intro rb w hs
    refine ⟨rb, by simp [putLoop], rfl, ⟨hs, rfl, rfl, rfl, ?_, ?_, ?_, ?_⟩⟩
    · intro s _; exact ⟨rfl, rfl⟩
    · intro i hi; simp at hi
    · intro i hi; simp at hi
    · intro i hi; simp at hi
  | cons d ds ih =>
    intro rb w hs
    have hN := hs.pos
    have hslot : w % N < N := Nat.mod_lt _ hN
    have hsz : rb.size ≠ 0 := by rw [hs.size]; omega
    obtain ⟨c0, hc0⟩ : ∃ c, rb.buffer[w % N]? = some c :=
      exists_getElem_of_lt (by rw [hs.cells]; exact hslot)
    obtain ⟨f0, hf0⟩ : ∃ f, rb.available[w % N]? = some f :=
      exists_getElem_of_lt (by rw [hs.flags]; exact hslot)
    have hs1 : Shaped N
        { rb with
          buffer := rb.buffer.set (w % N) (some d)
          available := rb.available.set (w % N) 1 } :=
      ⟨hN, hs.size, by simp [hs.cells], by simp [hs.flags]⟩
    obtain ⟨rb', hrun, hwc, hp⟩ := ih _ (w + 1) hs1
    refine ⟨rb', ?_, hwc, ?_⟩
    · rw [putLoop, if_neg hsz]
      have hcast : (rb.size : Int) = (N : Int) := by rw [hs.size]
      have e1 : (w : Int) + 1 = ((w + 1 : Nat) : Int) := by push_cast; ring
      simp only [hcast, tmod_natCast, idx_natCast, setIdx_natCast, hc0, hf0]
      rw [e1, hrun]
      simp only [List.length_cons]
      congr 3
      omega
    · have hframe1 : ∀ s, s ≠ w % N →
          (rb.buffer.set (w % N) (some d))[s]? = rb.buffer[s]? ∧
          (rb.available.set (w % N) 1)[s]? = rb.available[s]? := by
        intro s hne
        exact ⟨List.getElem?_set_ne (Ne.symm hne), List.getElem?_set_ne (Ne.symm hne)⟩
      have hlater : ∀ i, i < ds.length → (w + 1 + i) % N = (w + (i + 1)) % N := by
        intro i _; congr 1; omega
      refine ⟨hp.shaped, hp.cursors, hp.wbar, hp.rbar, ?_, ?_, ?_, ?_⟩
      · intro s hne
        have h0 : s ≠ w % N := fun e => hne 0 (by simp) (by simp [e])
        have hrest : ∀ i, i < ds.length → (w + 1 + i) % N ≠ s := by
          intro i hi
          rw [hlater i hi]
          exact hne (i + 1) (by simp; omega)
        obtain ⟨hb, ha⟩ := hp.frame s hrest
        obtain ⟨hb1, ha1⟩ := hframe1 s h0
        exact ⟨hb.trans hb1, ha.trans ha1⟩
      · intro i hi
        cases i with
        | zero =>
          by_cases hex : ∃ j, j < ds.length ∧ (w + 1 + j) % N = w % N
          · obtain ⟨j, hj, hje⟩ := hex
            have := hp.filled j hj
            rw [hje] at this
            simpa using this
          · have hno : ∀ i, i < ds.length → (w + 1 + i) % N ≠ w % N :=
              fun i hi he => hex ⟨i, hi, he⟩
            have := (hp.frame (w % N) hno).2
            simp only [Nat.add_zero]
            rw [this]
            exact List.getElem?_set_self (by rw [hs.flags]; exact hslot)
        | succ i =>
          have hi2 : i < ds.length := by simpa using hi
          have := hp.filled i hi2
          rwa [hlater i hi2] at this
      · intro i hi
        cases i with
        | zero =>
          by_cases hex : ∃ j, j < ds.length ∧ (w + 1 + j) % N = w % N
          · obtain ⟨j, hj, hje⟩ := hex
            have := hp.holds j hj
            rw [hje] at this
            simpa using this
          · have hno : ∀ i, i < ds.length → (w + 1 + i) % N ≠ w % N :=
              fun i hi he => hex ⟨i, hi, he⟩
            have := (hp.frame (w % N) hno).1
            simp only [Nat.add_zero]
            rw [this]
            exact ⟨d, List.getElem?_set_self (by rw [hs.cells]; exact hslot)⟩
        | succ i =>
          have hi2 : i < ds.length := by simpa using hi
          have := hp.holds i hi2
          rwa [hlater i hi2] at this
      · intro i hi hlen
        cases i with
        | zero =>
          have hno : ∀ i, i < ds.length → (w + 1 + i) % N ≠ w % N := by
            intro i hi2
            rw [hlater i hi2]
            have hlen2 : ds.length + 1 ≤ N := by simpa using hlen
            have := slot_ne (a := w) (N := N) (i := 0) (j := i + 1) (by omega) (by omega)
            intro he
            exact this (by simpa using he.symm)
          have := (hp.frame (w % N) hno).1
          simp only [Nat.add_zero]
          rw [this]
          simpa using List.getElem?_set_self (by rw [hs.cells]; exact hslot)
        | succ i =>
          have hi2 : i < ds.length := by simpa using hi
          have hlen2 : ds.length ≤ i + N := by
            have : ds.length + 1 ≤ i + 1 + N := by simpa using hlen
            omega
          have := hp.stored i hi2 hlen2
          rw [hlater i hi2] at this
          simpa using this

/-- A sequential `Put` on a well-shaped ring with write cursor `w ≥ 0` returns, moves the
write cursor to `w + k` and leaves the state described by `PutPost`. -/
theorem Put_post {μ : Type} {N : Nat} (w : Nat) (rb : RingBuffer μ) (data : List μ)
    (hs : Shaped N rb) (hw : rb.writeCursor = (w : Int)) :
    ∃ rb', Put rb data = .ok rb' ∧ rb'.writeCursor = ((w + data.length : Nat) : Int) ∧
      PutPost N w data rb rb' := by
  have hs1 : Shaped N { rb with writeCursor := rb.writeCursor + (data.length : Int) } :=
    ⟨hs.pos, hs.size, hs.cells, hs.flags⟩
  obtain ⟨rb1, hrun, _, hp⟩ := putLoop_post N data _ w hs1
  refine ⟨{ rb1 with writeCursor := ((w + data.length : Nat) : Int) }, ?_, rfl, ?_⟩
  · have e : rb.writeCursor + (data.length : Int) - (data.length : Int) = (w : Int) := by
      rw [hw]; ring
    simp only [Put, e, hrun]
  · exact ⟨⟨hp.shaped.pos, hp.shaped.size, hp.shaped.cells, hp.shaped.flags⟩,
      hp.cursors, hp.wbar, hp.rbar, hp.frame, hp.filled, hp.holds, hp.stored⟩

theorem Shaped_fresh {μ : Type} {N : Nat} (G : Nat) (hN : 0 < N) :
    Shaped N (NewRingBuffer N G : RingBuffer μ) :=
  ⟨hN, rfl, by simp [NewRingBuffer], by simp [NewRingBuffer]⟩

theorem flagAt_natCast {μ : Type} {N : Nat} {rb : RingBuffer μ} (hs : Shaped N rb) (a : Nat) :
    flagAt rb (a : Int) = rb.available[a % N]? := by
  have hsz : rb.size ≠ 0 := by rw [hs.size]; exact Nat.pos_iff_ne_zero.1 hs.pos
  rw [flagAt, if_neg hsz, hs.size, tmod_natCast, idx_natCast]

theorem cellAt_natCast {μ : Type} {N : Nat} {rb : RingBuffer μ} (hs : Shaped N rb) (a : Nat) :
    cellAt rb (a : Int) = rb.buffer[a % N]? := by
  have hsz : rb.size ≠ 0 := by rw [hs.size]; exact Nat.pos_iff_ne_zero.1 hs.pos
  rw [cellAt, if_neg hsz, hs.size, tmod_natCast, idx_natCast]

/-! ## The read loop of Get -/

/-- One successful iteration of the read loop, on a ring whose slot for `nr` is FILLED. -/
theorem getLoop_step {μ : Type} {N : Nat} (g n : Nat) (rb : RingBuffer μ) (nr : Nat)
    (acc : List μ) (m : μ) (hs : Shaped N rb)
    (hflag : rb.available[nr % N]? = some 1) (hcell : rb.buffer[nr % N]? = some (some m)) :
    getLoop g (n + 1) rb (nr : Int) acc =
      getLoop g n
        { rb with
          available := rb.available.set (nr % N) 0
          ReadCursors := rb.ReadCursors.set g (nr : Int) }
        ((nr + 1 : Nat) : Int) (acc ++ [m]) := by
  have hsz : rb.size ≠ 0 := by rw [hs.size]; exact Nat.pos_iff_ne_zero.1 hs.pos
  have hcast : (rb.size : Int) = (N : Int) := by rw [hs.size]
  have e1 : (nr : Int) + 1 = ((nr + 1 : Nat) : Int) := by push_cast; ring
  rw [getLoop, if_neg hsz]
  simp only [hcast, tmod_natCast, idx_natCast, setIdx_natCast, hflag, hcell, e1, if_true]

/-- The read loop stops at once on a slot that is not FILLED. -/
theorem getLoop_stop {μ : Type} {N : Nat} (g n : Nat) (rb : RingBuffer μ) (nr : Nat)
    (acc : List μ) (f : Int) (hs : Shaped N rb)
    (hflag : rb.available[nr % N]? = some f) (hf : f ≠ 1) :
    getLoop g (n + 1) rb (nr : Int) acc = .ok (rb, acc, .brokeOnEmpty) := by
  have hsz : rb.size ≠ 0 := by rw [hs.size]; exact Nat.pos_iff_ne_zero.1 hs.pos
  have hcast : (rb.size : Int) = (N : Int) := by rw [hs.size]
  rw [getLoop, if_neg hsz]
  simp only [hcast, tmod_natCast, idx_natCast, hflag, if_neg hf]

theorem getLoop_run {μ : Type} {N : Nat} (g : Nat) :
    ∀ (ms : List μ) (n : Nat) (rb : RingBuffer μ) (nr : Nat) (acc : List μ),
      Shaped N rb → ms.length ≤ n → ms.length ≤ N →
      (∀ i, i < ms.length →
        rb.available[(nr + i) % N]? = some 1 ∧ rb.buffer[(nr + i) % N]? = some (ms[i]?)) →
      (ms.length = n ∨ ms.length = N ∨
        ∃ f, rb.available[(nr + ms.length) % N]? = some f ∧ f ≠ 1) →
      ∃ rb' ex, getLoop g n rb (nr : Int) acc = .ok (rb', acc ++ ms, ex) ∧
        GetPost N g nr ms.length rb rb' := by
  intro ms
  induction ms with
  | nil =>
    intro n rb nr acc hs _ _ _ hstop
    have hpost : GetPost N g nr 0 rb rb :=
      ⟨hs, rfl, rfl, rfl, rfl, by simp, fun i hi => absurd hi (Nat.not_lt_zero i),
        fun _ _ => rfl⟩
    cases n with
    | zero => exact ⟨rb, .exhausted, by simp [getLoop], hpost⟩
    | succ n =>
      rcases hstop with h | h | ⟨f, hf, hne⟩
      · simp at h
      · have := hs.pos
        simp at h
        omega
      · refine ⟨rb, .brokeOnEmpty, ?_, hpost⟩
        have := getLoop_stop g n rb nr acc f hs (by simpa using hf) hne
        simpa using this
  | cons m ms ih =>
    intro n rb nr acc hs hn hN hfill hstop
    have hpos := hs.pos
    cases n with
    | zero => simp at hn
    | succ n =>
      have hlenN : ms.length + 1 ≤ N := by simpa using hN
      have h0 := hfill 0 (by simp)
      have hflag : rb.available[nr % N]? = some 1 := by simpa using h0.1
      have hcell : rb.buffer[nr % N]? = some (some m) := by simpa using h0.2
      have hslot : nr % N < N := Nat.mod_lt _ hpos
      have hs1 : Shaped N
          { rb with
            available := rb.available.set (nr % N) 0
            ReadCursors := rb.ReadCursors.set g (nr : Int) } :=
        ⟨hpos, hs.size, hs.cells, by simp [hs.flags]⟩
      have hne : ∀ i, i < ms.length → nr % N ≠ (nr + 1 + i) % N := by
        intro i hi
        have := slot_ne (a := nr) (N := N) (i := 0) (j := i + 1) (by omega) (by omega)
        have e : nr + 1 + i = nr + (i + 1) := by omega
        rw [e]
        simpa using this
      have hfill1 : ∀ i, i < ms.length →
          (rb.available.set (nr % N) 0)[(nr + 1 + i) % N]? = some 1 ∧
          rb.buffer[(nr + 1 + i) % N]? = some (ms[i]?) := by
        intro i hi
        have := hfill (i + 1) (by simp; omega)
        have e : nr + 1 + i = nr + (i + 1) := by omega
        rw [List.getElem?_set_ne (hne i hi), e]
        simpa using this
      have hstop1 : ms.length = n ∨ ms.length = N ∨
          ∃ f, (rb.available.set (nr % N) 0)[(nr + 1 + ms.length) % N]? = some f ∧ f ≠ 1 := by
        rcases hstop with h | h | ⟨f, hf, hfne⟩
        · left; simpa using h
        · right; right
          refine ⟨0, ?_, by decide⟩
          have e : (nr + 1 + ms.length) % N = nr % N := by
            have : nr + 1 + ms.length = nr + N := by simp at h; omega
            rw [this, Nat.add_mod_right]
          rw [e]
          exact List.getElem?_set_self (by rw [hs.flags]; exact hslot)
        · right; right
          have e : nr + (m :: ms).length = nr + 1 + ms.length := by simp; omega
          rw [e] at hf
          by_cases hc : nr % N = (nr + 1 + ms.length) % N
          · refine ⟨0, ?_, by decide⟩
            rw [← hc]
            exact List.getElem?_set_self (by rw [hs.flags]; exact hslot)
          · exact ⟨f, by rw [List.getElem?_set_ne hc]; exact hf, hfne⟩
      obtain ⟨rb', ex, hrun, hp⟩ :=
        ih n _ (nr + 1) (acc ++ [m]) hs1 (by simpa using hn) (by omega) hfill1 hstop1
      refine ⟨rb', ex, ?_, ?_⟩
      · rw [getLoop_step g n rb nr acc m hs hflag hcell, hrun]
        simp
      · refine ⟨hp.shaped, hp.cells, hp.wcur, hp.wbar, hp.rbar, ?_, ?_, ?_⟩
        · rw [hp.cursors]
          by_cases hz : ms.length = 0
          · simp [hz]
          · have e : nr + 1 + ms.length - 1 = nr + (m :: ms).length - 1 := by simp
            simp [hz, List.set_set, e]
        · intro i hi
          cases i with
          | zero =>
            have hfr := hp.frame (nr % N) (fun i hi he => hne i hi he.symm)
            simp only [Nat.add_zero]
            rw [hfr]
            exact List.getElem?_set_self (by rw [hs.flags]; exact hslot)
          | succ i =>
            have := hp.cleared i (by simpa using hi)
            have e : nr + 1 + i = nr + (i + 1) := by omega
            rwa [e] at this
        · intro s hs2
          have h0s : nr % N ≠ s := hs2 0 (by simp)
          have hfr := hp.frame s (fun i hi => by
            have e : nr + 1 + i = nr + (i + 1) := by omega
            rw [e]
            exact hs2 (i + 1) (by simp; omega))
          rw [hfr]
          exact List.getElem?_set_ne h0s

/-! ## One consuming group, no overwrite -/

theorem Tracks_fresh {μ : Type} {N G g : Nat} (hN : 0 < N) (hg : g < G) :
    Tracks N g 0 ([] : List μ) (NewRingBuffer N G) := by
  refine ⟨Shaped_fresh G hN, by simp [NewRingBuffer], ?_, Nat.zero_le _, ?_, ?_⟩
  · simp [NewRingBuffer, List.getElem?_replicate, hg]
  · intro i hi; simp at hi
  · intro s hs _; simp [NewRingBuffer, List.getElem?_replicate, hs]

theorem Put_tracks {μ : Type} {N g r : Nat} {pending : List μ} {rb : RingBuffer μ}
    (ht : Tracks N g r pending rb) (data : List μ) (hroom : pending.length + data.length ≤ N) :
    ∃ rb', Put rb data = .ok rb' ∧ Tracks N g r (pending ++ data) rb' ∧
      rb'.ReadCursors = rb.ReadCursors := by
  obtain ⟨rb', hput, hw, hp⟩ := Put_post (r + pending.length) rb data ht.shaped ht.wcur
  have hunwritten : ∀ i, i < pending.length →
      ∀ j, j < data.length → (r + pending.length + j) % N ≠ (r + i) % N := by
    intro i hi j hj he
    have := slot_ne (a := r) (N := N) (i := i) (j := pending.length + j) (by omega) (by omega)
    exact this (by rw [← he]; congr 1; omega)
  refine ⟨rb', hput, ⟨hp.shaped, ?_, ?_, ?_, ?_, ?_⟩, hp.cursors⟩
  · rw [hw]; simp [Nat.add_assoc]
  · rw [hp.cursors]; exact ht.rcur
  · simpa using hroom
  · intro i hi
    by_cases hlt : i < pending.length
    · obtain ⟨hb, ha⟩ := hp.frame ((r + i) % N) (hunwritten i hlt)
      rw [hb, ha, List.getElem?_append_left hlt]
      exact ht.filled i hlt
    · have hj : i - pending.length < data.length := by
        simp at hi; omega
      have e : (r + i) % N = (r + pending.length + (i - pending.length)) % N := by
        congr 1; omega
      rw [e, List.getElem?_append_right (by omega)]
      exact ⟨hp.filled _ hj, hp.stored _ hj (by omega)⟩
  · intro s hs hne
    have hnw : ∀ j, j < data.length → (r + pending.length + j) % N ≠ s := by
      intro j hj
      have := hne (pending.length + j) (by simp; omega)
      rwa [← Nat.add_assoc] at this
    rw [(hp.frame s hnw).2]
    exact ht.empty s hs (fun i hi => hne i (by simp; omega))

/-- The first statement of `Get`: a batch size that is negative or beyond the allocation
limit makes `make` fault, whatever the ring and the group. -/
theorem Get_make_faults {maxCap : Nat} {μ : Type} (rb : RingBuffer μ) (k g : Int)
    (h : k < 0 ∨ (maxCap : Int) < k) :
    GetTraced maxCap rb k g = .panic ∧ Get maxCap rb k g = .panic := by
  have key : GetTraced maxCap rb k g = .panic := by
    unfold GetTraced
    split
    · rfl
    · split
      · rfl
      · omega
  exact ⟨key, by simp only [Get, key]⟩

/-- A `Get` that returns was asked for a batch size from 0 to the allocation limit. -/
theorem Get_ok_bounds {maxCap : Nat} {μ : Type} {rb : RingBuffer μ} {k g : Int} {res : RingBuffer μ × List μ}
    (h : Get maxCap rb k g = .ok res) : 0 ≤ k ∧ k ≤ (maxCap : Int) := by
  by_contra hn
  have hf : k < 0 ∨ (maxCap : Int) < k := by omega
  rw [(Get_make_faults rb k g hf).2] at h
  cases h

/-- Below the allocation limit a `Get` does not depend on it. -/
theorem Get_cap_irrelevant {μ : Type} (cap1 cap2 : Nat) (rb : RingBuffer μ) (k g : Int)
    (h1 : k ≤ (cap1 : Int)) (h2 : k ≤ (cap2 : Int)) :
    GetTraced cap1 rb k g = GetTraced cap2 rb k g ∧ Get cap1 rb k g = Get cap2 rb k g := by
  have key : GetTraced cap1 rb k g = GetTraced cap2 rb k g := by
    unfold GetTraced
    rw [if_neg (by omega : ¬ ((cap1 : Int) < k)), if_neg (by omega : ¬ ((cap2 : Int) < k))]
  exact ⟨key, by simp only [Get, key]⟩

theorem Get_tracks {maxCap : Nat} {μ : Type} {N g r : Nat} {pending : List μ} {rb : RingBuffer μ}
    (ht : Tracks N g r pending rb) (k : Nat) (hcap : k ≤ maxCap) :
    ∃ rb', Get maxCap rb (k : Int) (g : Int) = .ok (rb', pending.take k) ∧
      Tracks N g (r + min k pending.length) (pending.drop k) rb' ∧
      rb'.writeCursor = rb.writeCursor ∧
      rb'.ReadCursors.length = rb.ReadCursors.length ∧
      ∀ g', g' ≠ g → rb'.ReadCursors[g']? = rb.ReadCursors[g']? := by
  have hs := ht.shaped
  have hpos := hs.pos
  have hroom := ht.room
  have hlen : (pending.take k).length = min k pending.length := List.length_take k pending
  have hfill : ∀ i, i < (pending.take k).length →
      rb.available[(r + i) % N]? = some 1 ∧
      rb.buffer[(r + i) % N]? = some ((pending.take k)[i]?) := by
    intro i hi
    rw [hlen] at hi
    have := ht.filled i (by omega)
    rw [List.getElem?_take, if_pos (by omega)]
    exact this
  have hstop : (pending.take k).length = k ∨ (pending.take k).length = N ∨
      ∃ f, rb.available[(r + (pending.take k).length) % N]? = some f ∧ f ≠ 1 := by
    rw [hlen]
    by_cases hk : k ≤ pending.length
    · left; omega
    · by_cases hN : pending.length = N
      · right; left; omega
      · right; right
        have e : min k pending.length = pending.length := by omega
        rw [e]
        refine ⟨0, ht.empty _ (Nat.mod_lt _ hpos) ?_, by decide⟩
        intro i hi
        exact slot_ne hi (by omega)
  have hsum : r + pending.length = r + min k pending.length + (pending.length - k) := by
    rcases Nat.le_total k pending.length with h | h
    · rw [Nat.min_eq_left h]; omega
    · rw [Nat.min_eq_right h]; omega
  have hmin1 : ∀ i, i < pending.length - k → min k pending.length = k := by
    intro i hi; omega
  have hmin2 : ∀ i, i < pending.length → ¬ i < min k pending.length →
      min k pending.length = k ∧ k ≤ i := by
    intro i hi hn; omega
  obtain ⟨rb', ex, hrun, hp⟩ :=
    getLoop_run g (pending.take k) k rb r [] hs (by rw [hlen]; omega) (by rw [hlen]; omega)
      hfill hstop
  rw [hlen] at hp
  have hcur : idx? rb.ReadCursors (g : Int) = some ((r : Int) - 1) := by
    rw [idx_natCast]; exact ht.rcur
  have hglt : g < rb.ReadCursors.length := by
    by_contra hcon
    have := ht.rcur
    rw [List.getElem?_eq_none (by omega)] at this
    cases this
  refine ⟨rb', ?_, ⟨hp.shaped, ?_, ?_, ?_, ?_, ?_⟩, hp.wcur, ?_, ?_⟩
  · have hk : ¬ ((k : Int) < 0) := by omega
    have hk3 : ¬ ((maxCap : Int) < (k : Int)) := by omega
    simp only [Get, GetTraced, if_neg hk, if_neg hk3, hcur, Int.toNat_ofNat, sub_add_cancel,
      hrun, List.nil_append]
  · rw [hp.wcur, ht.wcur, List.length_drop, hsum]
  · rw [hp.cursors]
    by_cases hz : min k pending.length = 0
    · rw [if_pos hz, hz]; exact ht.rcur
    · rw [if_neg hz, List.getElem?_set_self hglt]
      congr 1
      have : 1 ≤ r + min k pending.length := by omega
      push_cast [Nat.cast_sub this]
      ring
  · rw [List.length_drop]; omega
  · intro i hi
    rw [List.length_drop] at hi
    have hmin : min k pending.length = k := hmin1 i hi
    have e : r + min k pending.length + i = r + (k + i) := by rw [hmin, Nat.add_assoc]
    rw [e, hp.cells, List.getElem?_drop]
    refine ⟨?_, (ht.filled (k + i) (by omega)).2⟩
    rw [hp.frame, (ht.filled (k + i) (by omega)).1]
    intro j hj
    exact slot_ne (by omega) (by omega)
  · intro s hs2 hne
    rw [List.length_drop] at hne
    by_cases hc : ∃ j, j < min k pending.length ∧ (r + j) % N = s
    · obtain ⟨j, hj, hje⟩ := hc
      rw [← hje]
      exact hp.cleared j hj
    · have hnc : ∀ j, j < min k pending.length → (r + j) % N ≠ s :=
        fun j hj he => hc ⟨j, hj, he⟩
      rw [hp.frame s hnc]
      refine ht.empty s hs2 ?_
      intro i hi
      by_cases hik : i < min k pending.length
      · exact hnc i hik
      · obtain ⟨hmin, hki⟩ := hmin2 i hi hik
        have := hne (i - k) (by omega)
        have e : r + min k pending.length + (i - k) = r + i := by rw [hmin]; omega
        rwa [e] at this
  · rw [hp.cursors]
    split
    · rfl
    · simp
  · intro g' hg'
    rw [hp.cursors]
    split
    · rfl
    · exact List.getElem?_set_ne (Ne.symm hg')

/-- Along a history in which one group consumes and at most `N` messages are ever
outstanding, every call returns and the delivered batches followed by what is still pending
spell out exactly what was stored, in publish order. -/
theorem run_tracks {maxCap : Nat} {μ ν : Type} {N g : Nat} (stamp : Int → List μ → List ν)
    (hlen : ∀ w d, (stamp w d).length = d.length) :
    ∀ (ops : List (Op μ)) (rb : RingBuffer ν) (r : Nat) (pending : List ν),
      Tracks N g r pending rb → onlyGroup g ops = true →
      outstandingBounded maxCap stamp N rb pending.length ops = true →
      withinCap maxCap ops = true →
      ∃ rb' batches r' pending', runOps maxCap stamp rb ops = .ok (rb', batches) ∧
        Tracks N g r' pending' rb' ∧
        batches.flatten ++ pending' = pending ++ publishedAs stamp rb.writeCursor ops := by
  intro ops
  induction ops with
  | nil =>
    intro rb r pending ht _ _ _
    exact ⟨rb, [], r, pending, rfl, ht, by simp [publishedAs]⟩
  | cons op ops ih =>
    intro rb r pending ht hg hb hw
    cases op with
    | put data =>
      simp only [onlyGroup] at hg
      simp only [withinCap] at hw
      simp only [outstandingBounded, Bool.and_eq_true, decide_eq_true_eq] at hb
      obtain ⟨hroom, hb⟩ := hb
      obtain ⟨rb1, hput, ht1, _⟩ :=
        Put_tracks ht (stamp rb.writeCursor data) (by rw [hlen]; exact hroom)
      rw [hput] at hb
      simp only at hb
      have hl : pending.length + data.length = (pending ++ stamp rb.writeCursor data).length := by
        simp [hlen]
      rw [hl] at hb
      obtain ⟨rb', batches, r', pending', hrun, ht', heq⟩ := ih rb1 r _ ht1 hg hb hw
      refine ⟨rb', batches, r', pending', ?_, ht', ?_⟩
      · simp only [runOps, hput, hrun]
      · have hw : rb1.writeCursor = rb.writeCursor + (data.length : Int) := by
          rw [ht1.wcur, ht.wcur]
          simp [hlen]
          ring
        rw [heq, hw]
        simp [publishedAs]
    | get k g' =>
      simp only [onlyGroup, Bool.and_eq_true, decide_eq_true_eq] at hg
      obtain ⟨⟨hk, hg'⟩, hg⟩ := hg
      obtain ⟨kn, rfl⟩ := Int.eq_ofNat_of_zero_le hk
      subst hg'
      simp only [withinCap, Bool.and_eq_true, decide_eq_true_eq] at hw
      obtain ⟨hkc, hwc⟩ := hw
      obtain ⟨rb1, hget, ht1, hw, _, _⟩ := Get_tracks ht kn (show kn ≤ maxCap by omega)
      simp only [outstandingBounded, hget] at hb
      have hl : pending.length - (pending.take kn).length = (pending.drop kn).length := by
        rw [List.length_take, List.length_drop]
        rcases Nat.le_total kn pending.length with h | h
        · rw [Nat.min_eq_left h]
        · rw [Nat.min_eq_right h]; omega
      rw [hl] at hb
      obtain ⟨rb', batches, r', pending', hrun, ht', heq⟩ := ih rb1 _ _ ht1 hg hb hwc
      refine ⟨rb', pending.take kn :: batches, r', pending', ?_, ht', ?_⟩
      · simp only [runOps, hget, hrun]
      · rw [List.flatten_cons, List.append_assoc, heq, hw, ← List.append_assoc,
          List.take_append_drop]
        simp [publishedAs]

theorem publishedAs_asIs {μ : Type} (ops : List (Op μ)) (w : Int) :
    publishedAs asIs w ops = published ops := by
  induction ops generalizing w with
  | nil => rfl
  | cons op ops ih =>
    cases op with
    | put data => simp [publishedAs, published, asIs, ih]
    | get k g => simp [publishedAs, published, ih]

/-- A history that runs to the end asked `make` only for batches it can allocate. -/
theorem runOps_ok_withinCap {maxCap : Nat} {μ ν : Type} (stamp : Int → List μ → List ν) :
    ∀ (ops : List (Op μ)) (rb : RingBuffer ν) (res : RingBuffer ν × List (List ν)),
      runOps maxCap stamp rb ops = .ok res → withinCap maxCap ops = true := by
  intro ops
  induction ops with
  | nil => intro _ _ _; rfl
  | cons op ops ih =>
    intro rb res h
    cases op with
    | put data =>
      simp only [runOps] at h
      simp only [withinCap]
      cases hput : Put rb (stamp rb.writeCursor data) with
      | ok rb1 => rw [hput] at h; exact ih rb1 res h
      | panic => rw [hput] at h; cases h
      | diverges => rw [hput] at h; cases h
    | get k g =>
      simp only [runOps] at h
      simp only [withinCap, Bool.and_eq_true, decide_eq_true_eq]
      cases hget : Get maxCap rb k g with
      | ok r1 =>
        rw [hget] at h
        refine ⟨(Get_ok_bounds hget).2, ?_⟩
        cases hrun : runOps maxCap stamp r1.1 ops with
        | ok r2 => exact ih r1.1 r2 hrun
        | panic => simp only [hrun] at h; cases h
        | diverges => simp only [hrun] at h; cases h
      | panic => rw [hget] at h; cases h
      | diverges => rw [hget] at h; cases h

/-- C1. Sequence conservation: on a fresh ring of capacity N ≥ 1 with the single consumer
group 0, every sequential history of Put calls and Get(k, 0) calls during which the number
of published-but-undelivered messages never exceeds N runs to the end without a fault as long
as every batch size is one `make` can allocate, and whenever the history runs to the end the
concatenation of the batches returned by Get is a prefix of the concatenation of the messages
passed to Put, in publish order. -/
theorem sequence_conservation {μ : Type} (maxCap N : Nat) (hN : 1 ≤ N) (ops : List (Op μ))
    (hg : onlyGroup 0 ops = true)
    (hb : outstandingBounded maxCap asIs N (NewRingBuffer N 1) 0 ops = true) :
    (withinCap maxCap ops = true →
      ∃ rb' batches, runOps maxCap asIs (NewRingBuffer N 1) ops = .ok (rb', batches)) ∧
    ∀ rb' batches, runOps maxCap asIs (NewRingBuffer N 1) ops = .ok (rb', batches) →
      batches.flatten <+: published ops := by
  have key : withinCap maxCap ops = true →
      ∃ rb' batches, runOps maxCap asIs (NewRingBuffer N 1) ops = .ok (rb', batches) ∧
        batches.flatten <+: published ops := by
    intro hw
    obtain ⟨rb', batches, _, pending', hrun, _, heq⟩ :=
      run_tracks asIs (fun _ _ => rfl) ops (NewRingBuffer N 1) 0 []
        (Tracks_fresh hN (by decide)) hg hb hw
    refine ⟨rb', batches, hrun, pending', ?_⟩
    rw [heq, publishedAs_asIs]
    rfl
  refine ⟨?_, ?_⟩
  · intro hw
    obtain ⟨rb', batches, hrun, _⟩ := key hw
    exact ⟨rb', batches, hrun⟩
  · intro rb' batches hrun
    obtain ⟨rb1, batches1, hrun1, hpre⟩ := key (runOps_ok_withinCap asIs ops _ _ hrun)
    rw [hrun] at hrun1
    simp only [Outcome.ok.injEq, Prod.mk.injEq] at hrun1
    rw [hrun1.2]
    exact hpre

/-- Scenario S2 (TestRingBufferWrapAround) as an instance of C1: capacity 3, Put 1,2,3;
Get(2,0) returns 1,2; Put 4; Get(2,0) returns 3,4. -/
theorem sequence_conservation_witness :
    (1 ≤ 3) ∧
    onlyGroup 0 [Op.put ["1", "2", "3"], .get 2 0, .put ["4"], .get 2 0] = true ∧
    outstandingBounded exampleCap asIs 3 (NewRingBuffer 3 1) 0
      [Op.put ["1", "2", "3"], .get 2 0, .put ["4"], .get 2 0] = true ∧
    withinCap exampleCap [Op.put ["1", "2", "3"], .get 2 0, .put ["4"], .get 2 0] = true ∧
    (∃ rb', runOps exampleCap asIs (NewRingBuffer 3 1)
        [Op.put ["1", "2", "3"], .get 2 0, .put ["4"], .get 2 0] =
      .ok (rb', [["1", "2"], ["3", "4"]])) ∧
    (["1", "2"] ++ ["3", "4"] : List String) <+:
      published [Op.put ["1", "2", "3"], .get 2 0, .put ["4"], .get 2 0] := by
  have hrun : runOps exampleCap asIs (NewRingBuffer 3 1)
      [Op.put ["1", "2", "3"], .get 2 0, .put ["4"], .get 2 0] =
      .ok (RingBuffer.mk 3 [some "4", some "2", some "3"] 4 [3] [0, 0, 0] 0 0,
        [["1", "2"], ["3", "4"]]) := by decide
  have h := (sequence_conservation exampleCap 3 (by decide)
    [Op.put ["1", "2", "3"], .get 2 0, .put ["4"], .get 2 0] (by decide) (by decide)).2 _ _ hrun
  exact ⟨by decide, by decide, by decide, by decide, ⟨_, hrun⟩, by simpa using h⟩

/-! ## Get on a slot that is not FILLED, and Get over a known run of FILLED slots -/

/-- A `Get` with batch size 0, or whose first slot is not FILLED, returns the empty batch and
the ring as it was. -/
theorem Get_noop {maxCap : Nat} {μ : Type} (rb : RingBuffer μ) (k g c : Int) (hk : 0 ≤ k)
    (hcap : k ≤ (maxCap : Int))
    (hg : idx? rb.ReadCursors g = some c)
    (h : k = 0 ∨ ∃ f, flagAt rb (c + 1) = some f ∧ f ≠ 1) :
    GetTraced maxCap rb k g = .ok (rb, [], if k = 0 then .exhausted else .brokeOnEmpty) ∧
      Get maxCap rb k g = .ok (rb, []) := by
  have hk2 : ¬ (k < 0) := by omega
  have hk3 : ¬ ((maxCap : Int) < k) := by omega
  have key : GetTraced maxCap rb k g =
      .ok (rb, [], if k = 0 then .exhausted else .brokeOnEmpty) := by
    obtain ⟨kn, rfl⟩ := Int.eq_ofNat_of_zero_le hk
    simp only [GetTraced, if_neg hk2, if_neg hk3, hg, Int.toNat_ofNat]
    cases kn with
    | zero => simp [getLoop]
    | succ n =>
      have hne : ((n + 1 : Nat) : Int) ≠ 0 := by omega
      rcases h with h | ⟨f, hf, hne1⟩
      · exact absurd h hne
      · rw [if_neg hne]
        unfold flagAt at hf
        by_cases hsz : rb.size = 0
        · rw [if_pos hsz] at hf; cases hf
        · rw [if_neg hsz] at hf
          rw [getLoop, if_neg hsz]
          simp only [hf, if_neg hne1]
  exact ⟨key, by simp only [Get, key]⟩

/-- A group index without a read cursor makes `Get` fault, whatever the ring and the batch
size. -/
theorem Get_out_of_range {maxCap : Nat} {μ : Type} (rb : RingBuffer μ) (k g : Int)
    (hg : idx? rb.ReadCursors g = none) : Get maxCap rb k g = .panic := by
  have h : GetTraced maxCap rb k g = .panic := by
    simp only [GetTraced, hg]
    split
    · rfl
    · split <;> rfl
  simp only [Get, h]

/-- `Get(k, g)` on a ring whose slots for the sequence numbers `nr, nr + 1, ...` are known to
be FILLED with `ms`, up to the batch size, a full lap, or a slot that is not FILLED. -/
theorem Get_run {maxCap : Nat} {μ : Type} {N : Nat} (g k nr : Nat) (rb : RingBuffer μ) (ms : List μ)
    (hs : Shaped N rb) (hc : rb.ReadCursors[g]? = some ((nr : Int) - 1))
    (hk : ms.length ≤ k) (hN : ms.length ≤ N) (hcap : k ≤ maxCap)
    (hfill : ∀ i, i < ms.length →
      rb.available[(nr + i) % N]? = some 1 ∧ rb.buffer[(nr + i) % N]? = some (ms[i]?))
    (hstop : ms.length = k ∨ ms.length = N ∨
      ∃ f, rb.available[(nr + ms.length) % N]? = some f ∧ f ≠ 1) :
    ∃ rb', Get maxCap rb (k : Int) (g : Int) = .ok (rb', ms) ∧
      GetPost N g nr ms.length rb rb' := by
  obtain ⟨rb', ex, hrun, hp⟩ := getLoop_run g ms k rb nr [] hs hk hN hfill hstop
  have hcur : idx? rb.ReadCursors (g : Int) = some ((nr : Int) - 1) := by
    rw [idx_natCast]; exact hc
  have hk2 : ¬ ((k : Int) < 0) := by omega
  have hk3 : ¬ ((maxCap : Int) < (k : Int)) := by omega
  refine ⟨rb', ?_, hp⟩
  simp only [Get, GetTraced, if_neg hk2, if_neg hk3, hcur, Int.toNat_ofNat, sub_add_cancel,
    hrun, List.nil_append]

/-- On a ring with nothing pending for its one consumer, any group finds its next slot
EMPTY as soon as its cursor is at least -1. -/
theorem Tracks_nil_flag {μ : Type} {N g r : Nat} {rb : RingBuffer μ}
    (ht : Tracks N g r ([] : List μ) rb) (a : Nat) : flagAt rb (a : Int) = some 0 := by
  rw [flagAt_natCast ht.shaped]
  exact ht.empty _ (Nat.mod_lt _ ht.shaped.pos) (fun i hi => absurd hi (Nat.not_lt_zero i))

/-- Publishing at most `N` messages on a fresh ring and consuming them with group `g`
returns them in order and leaves a ring with nothing pending and every other cursor at -1. -/
theorem fresh_put_get {maxCap : Nat} {μ : Type} {N G g : Nat} (hN : 1 ≤ N) (hg : g < G) (batch : List μ)
    (hk : batch.length ≤ N) (hcap : batch.length ≤ maxCap) :
    ∃ rb1 rb2, Put (NewRingBuffer N G) batch = .ok rb1 ∧
      Get maxCap rb1 (batch.length : Int) (g : Int) = .ok (rb2, batch) ∧
      Tracks N g batch.length ([] : List μ) rb2 ∧
      ∀ g', g' ≠ g → g' < G → rb2.ReadCursors[g']? = some (-1) := by
  obtain ⟨rb1, hput, ht1, hrc1⟩ :=
    Put_tracks (Tracks_fresh (μ := μ) hN hg) batch (by simpa using hk)
  obtain ⟨rb2, hget, ht2, _, _, hrc2⟩ := Get_tracks ht1 batch.length hcap
  simp only [List.nil_append, List.take_length, List.drop_length, Nat.min_self,
    Nat.zero_add] at hget ht2
  refine ⟨rb1, rb2, hput, hget, ht2, ?_⟩
  intro g' hne hlt
  rw [hrc2 g' hne, hrc1]
  simp [NewRingBuffer, List.getElem?_replicate, hlt]

/-- C2, as the claim states it, fails on a batch size that `make` cannot allocate: with
capacity 3 and one group, after Put 1,2 and the Get(2, 0) that returns them, Get(2^62, 0)
stops with a runtime fault instead of returning the empty batch. -/
theorem round_trip_huge_batch_faults :
    ∃ rb1 rb2, Put (NewRingBuffer 3 1) ["1", "2"] = .ok rb1 ∧
      Get exampleCap rb1 2 0 = .ok (rb2, ["1", "2"]) ∧
      (0 : Int) ≤ 2 ^ 62 ∧ Get exampleCap rb2 (2 ^ 62) 0 = .panic :=
  ⟨RingBuffer.mk 3 [some "1", some "2", none] 2 [-1] [1, 1, 0] 0 0,
    RingBuffer.mk 3 [some "1", some "2", none] 2 [1] [0, 0, 0] 0 0,
    by decide, by decide, by decide, by decide⟩

/-- C2 (amended). Basic round trip: on a fresh ring of capacity N ≥ 1 with at least one
consumer group, Put of a batch of k ≤ N messages followed by Get(k, 0) returns exactly that
batch in the same order (k being a capacity `make` can allocate, k ≤ maxCap), and a Get(j, 0)
right after returns the empty batch and leaves the ring as it is for every j with
0 ≤ j ≤ maxCap, and stops with a runtime fault for every other j. -/
theorem put_get_round_trip {μ : Type} (maxCap N G : Nat) (hN : 1 ≤ N) (hG : 1 ≤ G)
    (batch : List μ) (hk : batch.length ≤ N) (hcap : batch.length ≤ maxCap) :
    ∃ rb1 rb2, Put (NewRingBuffer N G) batch = .ok rb1 ∧
      Get maxCap rb1 (batch.length : Int) 0 = .ok (rb2, batch) ∧
      (∀ j : Int, 0 ≤ j → j ≤ (maxCap : Int) → Get maxCap rb2 j 0 = .ok (rb2, [])) ∧
      (∀ j : Int, j < 0 ∨ (maxCap : Int) < j → Get maxCap rb2 j 0 = .panic) := by
  obtain ⟨rb1, rb2, hput, hget, ht2, _⟩ := fresh_put_get (g := 0) hN hG batch hk hcap
  refine ⟨rb1, rb2, hput, by simpa using hget, ?_, fun j hj => (Get_make_faults rb2 j 0 hj).2⟩
  intro j hj hjc
  have hc : idx? rb2.ReadCursors 0 = some ((batch.length : Int) - 1) := by
    have := ht2.rcur
    simpa [idx?] using this
  refine (Get_noop rb2 j 0 _ hj hjc hc (Or.inr ⟨0, ?_, by decide⟩)).2
  have := Tracks_nil_flag ht2 batch.length
  simpa using this

/-- Scenario S1 (TestPutAndGet) as an instance of the amended C2, with an allocation limit of
1000 entries: capacity 3, one group, Put 1,2; Get(2,0) returns 1,2; Get(1,0) returns
nothing. -/
theorem put_get_round_trip_witness :
    (1 ≤ 3) ∧ (1 ≤ 1) ∧ (["1", "2"] : List String).length ≤ 3 ∧
    (["1", "2"] : List String).length ≤ 1000 ∧
    ∃ rb1 rb2, Put (NewRingBuffer 3 1) ["1", "2"] = .ok rb1 ∧
      Get 1000 rb1 2 0 = .ok (rb2, ["1", "2"]) ∧ Get 1000 rb2 1 0 = .ok (rb2, []) := by
  obtain ⟨rb1, rb2, hput, hget, hnone, _⟩ :=
    put_get_round_trip 1000 3 1 (by decide) (by decide) ["1", "2"] (by decide) (by decide)
  exact ⟨by decide, by decide, by decide, by decide, rb1, rb2, hput, hget,
    hnone 1 (by decide) (by decide)⟩

/-- C5, as the claim states it, fails on batch sizes that `make` refuses: with capacity 3 and
two groups, after Put x,y and the Get(2, 0) that returns them, both Get(-1, 1) and
Get(2^62, 1) stop with a runtime fault instead of returning the empty batch. -/
theorem first_consume_wins_fails :
    ∃ rb1 rb2, Put (NewRingBuffer 3 2) ["x", "y"] = .ok rb1 ∧
      Get exampleCap rb1 2 0 = .ok (rb2, ["x", "y"]) ∧
      Get exampleCap rb2 (-1) 1 = .panic ∧ Get exampleCap rb2 (2 ^ 62) 1 = .panic :=
  ⟨RingBuffer.mk 3 [some "x", some "y", none] 2 [-1, -1] [1, 1, 0] 0 0,
    RingBuffer.mk 3 [some "x", some "y", none] 2 [1, -1] [0, 0, 0] 0 0,
    by decide, by decide, by decide, by decide⟩

/-- C5 (amended). Shared availability (first consume wins): on a fresh ring of capacity N ≥ 1
with at least two consumer groups, after Put of k ≤ N messages and the Get(k, 0) that returns
them (k ≤ maxCap, a capacity `make` can allocate), group 1's read cursor is -1, and Get(j, 1)
returns the empty batch and changes nothing, that cursor included, for every j with
0 ≤ j ≤ maxCap; for every other j it stops with a runtime fault. -/
theorem first_consume_wins {μ : Type} (maxCap N G : Nat) (hN : 1 ≤ N) (hG : 2 ≤ G)
    (batch : List μ) (hk : batch.length ≤ N) (hcap : batch.length ≤ maxCap) :
    ∃ rb1 rb2, Put (NewRingBuffer N G) batch = .ok rb1 ∧
      Get maxCap rb1 (batch.length : Int) 0 = .ok (rb2, batch) ∧
      idx? rb2.ReadCursors 1 = some (-1) ∧
      (∀ j : Int, 0 ≤ j → j ≤ (maxCap : Int) → Get maxCap rb2 j 1 = .ok (rb2, [])) ∧
      (∀ j : Int, j < 0 ∨ (maxCap : Int) < j → Get maxCap rb2 j 1 = .panic) := by
  obtain ⟨rb1, rb2, hput, hget, ht2, hrc⟩ :=
    fresh_put_get (g := 0) hN (by omega : 0 < G) batch hk hcap
  have hc : idx? rb2.ReadCursors 1 = some (-1) := by
    have := hrc 1 (by decide) (by omega)
    simpa [idx?] using this
  refine ⟨rb1, rb2, hput, by simpa using hget, hc, ?_,
    fun j hj => (Get_make_faults rb2 j 1 hj).2⟩
  intro j hj hjc
  refine (Get_noop rb2 j 1 _ hj hjc hc (Or.inr ⟨0, ?_, by decide⟩)).2
  have := Tracks_nil_flag ht2 0
  simpa using this

/-- Scenario S4 as an instance of the amended C5, with an allocation limit of 1000 entries:
capacity 3, two groups, Put x,y; Get(2,0) returns x,y; Get(2,1) returns nothing. -/
theorem first_consume_wins_witness :
    (1 ≤ 3) ∧ (2 ≤ 2) ∧ (["x", "y"] : List String).length ≤ 3 ∧
    (["x", "y"] : List String).length ≤ 1000 ∧
    ∃ rb1 rb2, Put (NewRingBuffer 3 2) ["x", "y"] = .ok rb1 ∧
      Get 1000 rb1 2 0 = .ok (rb2, ["x", "y"]) ∧
      Get 1000 rb2 2 1 = .ok (rb2, []) ∧
      idx? rb2.ReadCursors 1 = some (-1) := by
  obtain ⟨rb1, rb2, hput, hget, hcur, hnone, _⟩ :=
    first_consume_wins 1000 3 2 (by decide) (by decide) ["x", "y"] (by decide) (by decide)
  exact ⟨by decide, by decide, by decide, by decide, rb1, rb2, hput, hget,
    hnone 2 (by decide) (by decide), hcur⟩

/-- C6, as the claim states it, fails on scenario S4: with capacity 3 and two groups, after
Put x,y group 0 receives x,y but group 1 then receives the empty batch, not x,y. -/
theorem per_group_independence_fails :
    ∃ rb1 rb2 rb3, Put (NewRingBuffer 3 2) ["x", "y"] = .ok rb1 ∧
      Get exampleCap rb1 2 0 = .ok (rb2, ["x", "y"]) ∧
      Get exampleCap rb2 2 1 = .ok (rb3, []) ∧
      ([] : List String) ≠ ["x", "y"] :=
  ⟨_, _, _, rfl, rfl, rfl, by decide⟩

/-- C6 (amended). On a fresh ring of capacity N ≥ 1 with two consumer groups, after
publishing k ≤ N messages, whichever group g of the two consumes first with Get(k, g)
receives the full sequence in publish order, and the Get(k, ·) of the other group that
follows returns the empty batch and changes nothing; k is a capacity `make` can allocate
(k ≤ maxCap), as it is when k ≤ N and the ring itself could be allocated. -/
theorem first_group_gets_stream {μ : Type} (maxCap N g : Nat) (hN : 1 ≤ N) (hg : g < 2)
    (batch : List μ) (hk : batch.length ≤ N) (hcap : batch.length ≤ maxCap) :
    ∃ rb1 rb2, Put (NewRingBuffer N 2) batch = .ok rb1 ∧
      Get maxCap rb1 (batch.length : Int) (g : Int) = .ok (rb2, batch) ∧
      Get maxCap rb2 (batch.length : Int) ((1 - g : Nat) : Int) = .ok (rb2, []) := by
  obtain ⟨rb1, rb2, hput, hget, ht2, hrc⟩ := fresh_put_get hN hg batch hk hcap
  have hc : idx? rb2.ReadCursors ((1 - g : Nat) : Int) = some (-1) := by
    rw [idx_natCast]
    exact hrc (1 - g) (by omega) (by omega)
  refine ⟨rb1, rb2, hput, hget, ?_⟩
  refine (Get_noop rb2 _ _ _ (by omega) (by omega) hc (Or.inr ⟨0, ?_, by decide⟩)).2
  have := Tracks_nil_flag ht2 0
  simpa using this

/-- Instance of the amended C6 with group 1 consuming first: capacity 3, Put x,y. -/
theorem first_group_gets_stream_witness :
    (1 ≤ 3) ∧ (1 < 2) ∧ (["x", "y"] : List String).length ≤ 3 ∧
    (["x", "y"] : List String).length ≤ exampleCap ∧
    ∃ rb1 rb2, Put (NewRingBuffer 3 2) ["x", "y"] = .ok rb1 ∧
      Get exampleCap rb1 ((["x", "y"] : List String).length : Int) ((1 : Nat) : Int) =
        .ok (rb2, ["x", "y"]) ∧
      Get exampleCap rb2 ((["x", "y"] : List String).length : Int) ((1 - 1 : Nat) : Int) =
        .ok (rb2, []) :=
  ⟨by decide, by decide, by decide, by decide,
    first_group_gets_stream exampleCap 3 1 (by decide) (by decide) ["x", "y"] (by decide)
      (by decide)⟩

/-- C9 at a failing input: on a ring built with one consumer group, both Get(1, 1) and
Get(1, -1) stop with a runtime fault (index out of range on the read cursors), and so does
the broker's Consume with group index 1; no error result is returned. -/
theorem out_of_range_group_panics :
    Get exampleCap (NewRingBuffer 3 1 : RingBuffer MsgPtr) 1 1 = .panic ∧
    Get exampleCap (NewRingBuffer 3 1 : RingBuffer MsgPtr) 1 (-1) = .panic ∧
    (NewServer 3 1).Consume exampleCap { topic := "t", consumerGroup := 1, batchSize := 1 } =
      .panic := by
  refine ⟨by decide, by decide, by decide⟩

/-- C10. Put postcondition (unconditional overwrite): on a ring of capacity N ≥ 1 whose write
cursor is w ≥ 0, a sequential Put of k messages never fails; it ends with the write cursor at
w + k; the slot of every sequence number w + i (i < k) is FILLED afterwards, whatever it was
before; that slot holds message i whenever no later message of the batch lands on it
(k ≤ i + N), in particular for every i when k ≤ N; cells and flags of the slots outside the
written range, the capacity and all read cursors are unchanged. A fresh ring has w = 0. -/
theorem put_postcondition {μ : Type} (N w : Nat) (rb : RingBuffer μ) (data : List μ)
    (hs : Shaped N rb) (hw : rb.writeCursor = (w : Int)) :
    ∃ rb', Put rb data = .ok rb' ∧
      rb'.writeCursor = (w : Int) + (data.length : Int) ∧
      (∀ i, i < data.length → flagAt rb' ((w : Int) + (i : Int)) = some 1) ∧
      (∀ i, i < data.length → data.length ≤ i + N →
        cellAt rb' ((w : Int) + (i : Int)) = some (data[i]?)) ∧
      (data.length ≤ N → ∀ i, i < data.length →
        cellAt rb' ((w : Int) + (i : Int)) = some (data[i]?)) ∧
      (∀ s, (∀ i, i < data.length → (w + i) % N ≠ s) →
        rb'.buffer[s]? = rb.buffer[s]? ∧ rb'.available[s]? = rb.available[s]?) ∧
      rb'.size = rb.size ∧ rb'.ReadCursors = rb.ReadCursors ∧
      ∀ G, (NewRingBuffer N G : RingBuffer μ).writeCursor = 0 := by
  obtain ⟨rb', hput, hwc, hp⟩ := Put_post w rb data hs hw
  have hcast : ∀ i : Nat, (w : Int) + (i : Int) = ((w + i : Nat) : Int) := by
    intro i; push_cast; ring
  refine ⟨rb', hput, by rw [hwc]; push_cast; ring, ?_, ?_, ?_, hp.frame, ?_, hp.cursors,
    fun _ => rfl⟩
  · intro i hi
    rw [hcast, flagAt_natCast hp.shaped]
    exact hp.filled i hi
  · intro i hi hlen
    rw [hcast, cellAt_natCast hp.shaped]
    exact hp.stored i hi hlen
  · intro hle i hi
    rw [hcast, cellAt_natCast hp.shaped]
    exact hp.stored i hi (by omega)
  · rw [hp.shaped.size, hs.size]

/-- Instance of C10: Put of two messages on a fresh ring of capacity 3. -/
theorem put_postcondition_witness :
    Shaped 3 (NewRingBuffer 3 1 : RingBuffer String) ∧
    (NewRingBuffer 3 1 : RingBuffer String).writeCursor = ((0 : Nat) : Int) ∧
    ∃ rb', Put (NewRingBuffer 3 1) ["1", "2"] = .ok rb' ∧
      rb'.writeCursor = 2 ∧ rb'.buffer = [some "1", some "2", none] ∧
      rb'.available = [1, 1, 0] ∧ rb'.ReadCursors = [-1] := by
  have h1 : Shaped 3 (NewRingBuffer 3 1 : RingBuffer String) := Shaped_fresh 1 (by decide)
  have h2 : (NewRingBuffer 3 1 : RingBuffer String).writeCursor = ((0 : Nat) : Int) := rfl
  obtain ⟨rb', hput, _⟩ := put_postcondition 3 0 (NewRingBuffer 3 1) ["1", "2"] h1 h2
  have hv : Put (NewRingBuffer 3 1) ["1", "2"] =
      .ok { size := 3, buffer := [some "1", some "2", none], writeCursor := 2,
            ReadCursors := [-1], available := [1, 1, 0], writeBarrier := 0,
            readBarrier := 0 } := rfl
  rw [hv] at hput
  cases hput
  exact ⟨h1, h2, _, hv, rfl, rfl, rfl, rfl⟩

/-! ## Several Puts in a row are one Put of the concatenation -/

theorem putLoop_append {μ : Type} (a b : List μ) :
    ∀ (rb : RingBuffer μ) (w : Int),
      putLoop (a ++ b) rb w =
        match putLoop a rb w with
        | .ok (rb1, w1) => putLoop b rb1 w1
        | .panic => .panic
        | .diverges => .diverges := by
  induction a with
  | nil => intro rb w; simp [putLoop]
  | cons d ds ih =>
    intro rb w
    simp only [List.cons_append, putLoop]
    split
    · rfl
    · split
      · exact ih _ _
      · rfl

theorem putLoop_writeCursor {μ : Type} (data : List μ) (c : Int) :
    ∀ (rb : RingBuffer μ) (w : Int),
      putLoop data { rb with writeCursor := c } w =
        match putLoop data rb w with
        | .ok (rb1, w1) => .ok ({ rb1 with writeCursor := c }, w1)
        | .panic => .panic
        | .diverges => .diverges := by
  induction data with
  | nil => intro rb w; simp [putLoop]
  | cons d ds ih =>
    intro rb w
    simp only [putLoop]
    split
    · rfl
    · split
      · exact ih
          { rb with
            buffer := setIdx rb.buffer (w.tmod (rb.size : Int)) (some d)
            available := setIdx rb.available (w.tmod (rb.size : Int)) 1 }
          (w + 1)
      · rfl

/-- `Put` is the store loop started at the write cursor, followed by the cursor update. -/
theorem Put_eq {μ : Type} (rb : RingBuffer μ) (data : List μ) :
    Put rb data =
      match putLoop data rb rb.writeCursor with
      | .ok (rb1, w1) => .ok { rb1 with writeCursor := w1 }
      | .panic => .panic
      | .diverges => .diverges := by
  simp only [Put, add_sub_cancel_right, putLoop_writeCursor]
  cases putLoop data rb rb.writeCursor with
  | ok p => rfl
  | panic => rfl
  | diverges => rfl

theorem Put_append {μ : Type} (rb : RingBuffer μ) (a b : List μ) :
    Put rb (a ++ b) =
      match Put rb a with
      | .ok rb1 => Put rb1 b
      | .panic => .panic
      | .diverges => .diverges := by
  rw [Put_eq rb (a ++ b), Put_eq rb a, putLoop_append]
  cases putLoop a rb rb.writeCursor with
  | ok p =>
    obtain ⟨rb1, w1⟩ := p
    simp only [Put_eq, putLoop_writeCursor]
    cases putLoop b rb1 w1 with
    | ok q => rfl
    | panic => rfl
    | diverges => rfl
  | panic => rfl
  | diverges => rfl

theorem Put_nil {μ : Type} (rb : RingBuffer μ) : Put rb ([] : List μ) = .ok rb := by
  simp [Put, putLoop]

theorem putAll_flatten {μ : Type} (batches : List (List μ)) :
    ∀ rb : RingBuffer μ, putAll rb batches = Put rb batches.flatten := by
  induction batches with
  | nil => intro rb; simp [putAll, Put_nil]
  | cons b rest ih =>
    intro rb
    rw [List.flatten_cons, Put_append, putAll]
    cases Put rb b with
    | ok rb1 => exact ih rb1
    | panic => rfl
    | diverges => rfl

/-- C3, as the claim states it, fails: with capacity 2 and one group, after Put 1,2,3 a single
Get(3, 0) returns 3,2, which is not the last two published messages in publish order 2,3. -/
theorem lossy_wrap_not_in_publish_order :
    ∃ rb1 rb2, putAll (NewRingBuffer 2 1) [["1", "2", "3"]] = .ok rb1 ∧
      Get exampleCap rb1 3 0 = .ok (rb2, ["3", "2"]) ∧
      ["3", "2"] ≠ List.drop 1 ["1", "2", "3"] :=
  ⟨_, _, rfl, rfl, by decide⟩

/-- C3 (amended). Lossy wrap-around: on a fresh ring of capacity N with one consumer group,
for 0 < m < N, publishing N + m messages (in one Put or in several) and then calling
Get(N + m, 0) once returns N messages, namely the last N published ones in slot order: first
the m newest (those published after the first N), then the N - m messages published at
positions m .. N - 1. -/
theorem lossy_wrap_slot_order {μ : Type} (maxCap N m : Nat) (hm : 0 < m) (hmN : m < N)
    (batches : List (List μ)) (hlen : batches.flatten.length = N + m)
    (hcap : N + m ≤ maxCap) :
    ∃ rb1 rb2, putAll (NewRingBuffer N 1) batches = .ok rb1 ∧
      Get maxCap rb1 ((N + m : Nat) : Int) 0 =
        .ok (rb2, batches.flatten.drop N ++ (batches.flatten.take N).drop m) := by
  have hN : 0 < N := by omega
  obtain ⟨rb1, hput, _, hp⟩ :=
    Put_post (N := N) 0 (NewRingBuffer N 1) batches.flatten (Shaped_fresh 1 hN) rfl
  have hrc : rb1.ReadCursors[0]? = some (((0 : Nat) : Int) - 1) := by
    rw [hp.cursors]; simp [NewRingBuffer]
  have hl : (batches.flatten.drop N ++ (batches.flatten.take N).drop m).length = N := by
    simp only [List.length_append, List.length_drop, List.length_take, hlen]
    omega
  have hfill : ∀ i, i < (batches.flatten.drop N ++ (batches.flatten.take N).drop m).length →
      rb1.available[(0 + i) % N]? = some 1 ∧
      rb1.buffer[(0 + i) % N]? =
        some ((batches.flatten.drop N ++ (batches.flatten.take N).drop m)[i]?) := by
    intro i hi
    rw [hl] at hi
    refine ⟨hp.filled i (by omega), ?_⟩
    have hdl : (batches.flatten.drop N).length = m := by
      rw [List.length_drop, hlen]; omega
    by_cases him : i < m
    · have e : (0 + i) % N = (0 + (N + i)) % N := by
        rw [Nat.zero_add, Nat.zero_add, Nat.add_mod_left]
      rw [e, hp.stored (N + i) (by omega) (by omega),
        List.getElem?_append_left (by omega), List.getElem?_drop]
    · rw [hp.stored i (by omega) (by omega), List.getElem?_append_right (by omega),
        List.getElem?_drop, List.getElem?_take, if_pos (by omega), hdl]
      congr 2
      omega
  obtain ⟨rb2, hget, _⟩ :=
    Get_run (N := N) 0 (N + m) 0 rb1 _ hp.shaped hrc (by rw [hl]; omega) (by rw [hl]) hcap
      hfill (Or.inr (Or.inl hl))
  exact ⟨rb1, rb2, by rw [putAll_flatten]; exact hput, hget⟩

/-- Instance of the amended C3: capacity 3, m = 1, the four messages published by two Puts;
Get(4, 0) returns 4,2,3. -/
theorem lossy_wrap_slot_order_witness :
    (0 < 1) ∧ (1 < 3) ∧ ([["1", "2"], ["3", "4"]] : List (List String)).flatten.length = 3 + 1 ∧
    3 + 1 ≤ exampleCap ∧
    ∃ rb1 rb2, putAll (NewRingBuffer 3 1) [["1", "2"], ["3", "4"]] = .ok rb1 ∧
      Get exampleCap rb1 ((3 + 1 : Nat) : Int) 0 = .ok (rb2, ["4", "2", "3"]) :=
  ⟨by decide, by decide, by decide, by decide,
    lossy_wrap_slot_order exampleCap 3 1 (by decide) (by decide) [["1", "2"], ["3", "4"]]
      (by decide) (by decide)⟩

/-! ## Put and Get never look inside a message -/

theorem idx_map {α β : Type} (f : α → β) (xs : List α) (i : Int) :
    idx? (xs.map f) i = (idx? xs i).map f := by
  unfold idx?
  split
  · rfl
  · exact List.getElem?_map f xs _

theorem putLoop_map {μ ν : Type} (f : μ → ν) (data : List μ) :
    ∀ (rb : RingBuffer μ) (w : Int),
      putLoop (data.map f) (rb.mapMsgs f) w =
        (putLoop data rb w).map (fun p => (p.1.mapMsgs f, p.2)) := by
  induction data with
  | nil => intro rb w; rfl
  | cons d ds ih =>
    intro rb w
    simp only [List.map_cons, putLoop]
    have hsize : (rb.mapMsgs f).size = rb.size := rfl
    have hbuf : (rb.mapMsgs f).buffer = rb.buffer.map (Option.map f) := rfl
    have hav : (rb.mapMsgs f).available = rb.available := rfl
    rw [hsize, hbuf, hav, idx_map]
    by_cases hsz : rb.size = 0
    · simp [hsz, Outcome.map]
    · simp only [if_neg hsz]
      cases h1 : idx? rb.buffer (w.tmod (rb.size : Int)) with
      | none => simp [Outcome.map]
      | some c =>
        cases h2 : idx? rb.available (w.tmod (rb.size : Int)) with
        | none => simp [Outcome.map]
        | some fl =>
          simp only [Option.map_some']
          have := ih
            { rb with
              buffer := setIdx rb.buffer (w.tmod (rb.size : Int)) (some d)
              available := setIdx rb.available (w.tmod (rb.size : Int)) 1 }
            (w + 1)
          rw [← this]
          congr 1
          simp [RingBuffer.mapMsgs, setIdx, List.map_set]

theorem Put_map {μ ν : Type} (f : μ → ν) (rb : RingBuffer μ) (data : List μ) :
    Put (rb.mapMsgs f) (data.map f) = (Put rb data).map (RingBuffer.mapMsgs f) := by
  rw [Put_eq, Put_eq]
  have hw : (rb.mapMsgs f).writeCursor = rb.writeCursor := rfl
  rw [hw, putLoop_map]
  cases putLoop data rb rb.writeCursor with
  | ok p => rfl
  | panic => rfl
  | diverges => rfl

theorem getLoop_map {μ ν : Type} (f : μ → ν) (g : Nat) :
    ∀ (n : Nat) (rb : RingBuffer μ) (nextRead : Int) (acc : List μ),
      getLoop g n (rb.mapMsgs f) nextRead (acc.map f) =
        (getLoop g n rb nextRead acc).map (fun p => (p.1.mapMsgs f, p.2.1.map f, p.2.2)) := by
  intro n
  induction n with
  | zero => intro rb nextRead acc; rfl
  | succ n ih =>
    intro rb nextRead acc
    simp only [getLoop]
    have hsize : (rb.mapMsgs f).size = rb.size := rfl
    have hbuf : (rb.mapMsgs f).buffer = rb.buffer.map (Option.map f) := rfl
    have hav : (rb.mapMsgs f).available = rb.available := rfl
    have hrc : (rb.mapMsgs f).ReadCursors = rb.ReadCursors := rfl
    rw [hsize, hbuf, hav, hrc, idx_map]
    by_cases hsz : rb.size = 0
    · simp [hsz, Outcome.map]
    · simp only [if_neg hsz]
      cases h2 : idx? rb.available (nextRead.tmod (rb.size : Int)) with
      | none => simp [Outcome.map]
      | some fl =>
        by_cases hfl : fl = 1
        · simp only [hfl, if_true]
          cases h1 : idx? rb.buffer (nextRead.tmod (rb.size : Int)) with
          | none => simp [Outcome.map]
          | some c =>
            cases c with
            | none => simp [Outcome.map]
            | some m =>
              simp only [Option.map_some']
              have := ih
                { rb with
                  available := setIdx rb.available (nextRead.tmod (rb.size : Int)) 0
                  ReadCursors := rb.ReadCursors.set g nextRead }
                (nextRead + 1) (acc ++ [m])
              rw [← this]
              simp [RingBuffer.mapMsgs]
        · simp [hfl, Outcome.map]

theorem Get_map {maxCap : Nat} {μ ν : Type} (f : μ → ν) (rb : RingBuffer μ) (k g : Int) :
    Get maxCap (rb.mapMsgs f) k g =
      (Get maxCap rb k g).map (fun p => (p.1.mapMsgs f, p.2.map f)) := by
  simp only [Get, GetTraced]
  have hrc : (rb.mapMsgs f).ReadCursors = rb.ReadCursors := rfl
  rw [hrc]
  by_cases hk : k < 0
  · simp [hk, Outcome.map]
  · simp only [if_neg hk]
    by_cases hk3 : (maxCap : Int) < k
    · simp [hk3, Outcome.map]
    · simp only [if_neg hk3]
      cases idx? rb.ReadCursors g with
      | none => simp [Outcome.map]
      | some c =>
        have := getLoop_map f g.toNat k.toNat rb (c + 1) []
        simp only [List.map_nil] at this
        simp only [this]
        cases getLoop g.toNat k.toNat rb (c + 1) [] with
        | ok p => rfl
        | panic => rfl
        | diverges => rfl

theorem withSeq_fst {μ : Type} (data : List μ) :
    ∀ w : Int, (withSeq w data).map Prod.fst = data := by
  induction data with
  | nil => intro w; rfl
  | cons d ds ih => intro w; simp [withSeq, ih]

/-- The run on messages paired with their sequence numbers is the plain run, message for
message: dropping the sequence numbers from its result gives the result of the plain run. -/
theorem runOps_withSeq_erase {maxCap : Nat} {μ : Type} (ops : List (Op μ)) :
    ∀ rb : RingBuffer (μ × Int),
      runOps maxCap asIs (rb.mapMsgs Prod.fst) ops =
        (runOps maxCap withSeq rb ops).map
          (fun p => (p.1.mapMsgs Prod.fst, p.2.map (List.map Prod.fst))) := by
  induction ops with
  | nil => intro rb; rfl
  | cons op ops ih =>
    intro rb
    cases op with
    | put data =>
      have hput := Put_map Prod.fst rb (withSeq rb.writeCursor data)
      rw [withSeq_fst] at hput
      simp only [runOps, asIs]
      rw [hput]
      cases Put rb (withSeq rb.writeCursor data) with
      | ok rb1 => exact ih rb1
      | panic => rfl
      | diverges => rfl
    | get k g =>
      simp only [runOps, Get_map]
      cases Get maxCap rb k g with
      | ok p =>
        obtain ⟨rb1, batch⟩ := p
        simp only [Outcome.map]
        rw [ih rb1]
        cases runOps maxCap withSeq rb1 ops with
        | ok q => rfl
        | panic => rfl
        | diverges => rfl
      | panic => rfl
      | diverges => rfl

theorem outstandingBounded_withSeq {maxCap : Nat} {μ : Type} (cap : Nat) (ops : List (Op μ)) :
    ∀ (rb : RingBuffer (μ × Int)) (out : Nat),
      outstandingBounded maxCap withSeq cap rb out ops =
        outstandingBounded maxCap asIs cap (rb.mapMsgs Prod.fst) out ops := by
  induction ops with
  | nil => intro rb out; rfl
  | cons op ops ih =>
    intro rb out
    cases op with
    | put data =>
      have hput := Put_map Prod.fst rb (withSeq rb.writeCursor data)
      rw [withSeq_fst] at hput
      simp only [outstandingBounded, asIs]
      rw [hput]
      cases Put rb (withSeq rb.writeCursor data) with
      | ok rb1 => simp only [Outcome.map]; rw [ih rb1]
      | panic => rfl
      | diverges => rfl
    | get k g =>
      simp only [outstandingBounded, Get_map]
      cases Get maxCap rb k g with
      | ok p =>
        obtain ⟨rb1, batch⟩ := p
        simp only [Outcome.map, List.length_map]
        exact ih rb1 _
      | panic => rfl
      | diverges => rfl

theorem mapMsgs_fresh {μ ν : Type} (f : μ → ν) (N G : Nat) :
    (NewRingBuffer N G : RingBuffer μ).mapMsgs f = NewRingBuffer N G := by
  simp [RingBuffer.mapMsgs, NewRingBuffer]

/-! ## Sequence numbers of delivered messages -/

theorem withSeq_length {μ : Type} (data : List μ) :
    ∀ w : Int, (withSeq w data).length = data.length := by
  induction data with
  | nil => intro w; rfl
  | cons d ds ih => intro w; simp [withSeq, ih]

theorem withSeq_increasing {μ : Type} (data : List μ) :
    ∀ w : Int, List.Pairwise (· < ·) ((withSeq w data).map Prod.snd) ∧
      ∀ x ∈ (withSeq w data).map Prod.snd, w ≤ x ∧ x < w + (data.length : Int) := by
  induction data with
  | nil => intro w; simp [withSeq]
  | cons d ds ih =>
    intro w
    obtain ⟨hp, hb⟩ := ih (w + 1)
    refine ⟨?_, ?_⟩
    · simp only [withSeq, List.map_cons, List.pairwise_cons]
      exact ⟨fun x hx => by have := (hb x hx).1; omega, hp⟩
    · intro x hx
      simp only [withSeq, List.map_cons, List.mem_cons] at hx
      rcases hx with rfl | hx
      · simp only [List.length_cons]; push_cast; omega
      · have := hb x hx
        simp only [List.length_cons]; push_cast; omega

theorem publishedAs_withSeq_increasing {μ : Type} (ops : List (Op μ)) :
    ∀ w : Int, List.Pairwise (· < ·) ((publishedAs withSeq w ops).map Prod.snd) ∧
      ∀ x ∈ (publishedAs withSeq w ops).map Prod.snd, w ≤ x := by
  induction ops with
  | nil => intro w; simp [publishedAs]
  | cons op ops ih =>
    intro w
    cases op with
    | put data =>
      obtain ⟨hp, hb⟩ := ih (w + (data.length : Int))
      obtain ⟨hp0, hb0⟩ := withSeq_increasing data w
      simp only [publishedAs, List.map_append]
      refine ⟨List.pairwise_append.2 ⟨hp0, hp, ?_⟩, ?_⟩
      · intro a ha b hb1
        have := (hb0 a ha).2
        have := hb b hb1
        omega
      · intro x hx
        rcases List.mem_append.1 hx with h | h
        · exact (hb0 x h).1
        · have := hb x h
          omega
    | get k g => exact ih w

/-- C4, as the claim states it, fails. With capacity 2 and one group, after Put a,b,c (the
producer laps the consumer) Get(3, 0) delivers the messages stored under sequence numbers
2, 1 in that order. With capacity 3 and two groups and no unconsumed message ever
overwritten, Put a,b,c; Get(1, 0); Put d; Get(3, 1) delivers to group 1 the sequence
numbers 3, 1, 2. -/
theorem in_group_ordering_fails :
    (∃ rb', runOps exampleCap withSeq (NewRingBuffer 2 1) [Op.put ["a", "b", "c"], .get 3 0] =
        .ok (rb', [[("c", 2), ("b", 1)]]) ∧
      ¬ List.Pairwise (· < ·) ([[(("c" : String), (2 : Int)), ("b", 1)]].flatten.map Prod.snd)) ∧
    (∃ rb', runOps exampleCap withSeq (NewRingBuffer 3 2)
        [Op.put ["a", "b", "c"], .get 1 0, .put ["d"], .get 3 1] =
        .ok (rb', [[("a", 0)], [("d", 3), ("b", 1), ("c", 2)]]) ∧
      ¬ List.Pairwise (· < ·)
        ([(("d" : String), (3 : Int)), ("b", 1), ("c", 2)].map Prod.snd)) :=
  ⟨⟨_, rfl, by decide⟩, ⟨_, rfl, by decide⟩⟩

/-- C4 (amended). In-group ordering without overwrite: on a fresh ring of capacity N ≥ 1 with
G groups, for every sequential history of Put and Get calls in which group g is the only one
that consumes and the number of published-but-undelivered messages never exceeds N, every
call returns as long as every batch size is one `make` can allocate, and whenever the history
runs to the end the messages delivered to g, over all its Get calls in order, have strictly
increasing sequence numbers (the value of the write cursor at which Put stored each). The
delivered messages are those of the plain run, paired with their sequence numbers. -/
theorem in_group_ordering_no_overwrite {μ : Type} (maxCap N G g : Nat) (hN : 1 ≤ N)
    (hG : g < G) (ops : List (Op μ)) (hg : onlyGroup g ops = true)
    (hb : outstandingBounded maxCap asIs N (NewRingBuffer N G) 0 ops = true) :
    (withinCap maxCap ops = true →
      ∃ rb' tagged, runOps maxCap withSeq (NewRingBuffer N G) ops = .ok (rb', tagged)) ∧
    ∀ rb' tagged, runOps maxCap withSeq (NewRingBuffer N G) ops = .ok (rb', tagged) →
      runOps maxCap asIs (NewRingBuffer N G) ops =
        .ok (rb'.mapMsgs Prod.fst, tagged.map (List.map Prod.fst)) ∧
      List.Pairwise (· < ·) (tagged.flatten.map Prod.snd) := by
  have hb2 : outstandingBounded maxCap withSeq N (NewRingBuffer N G) 0 ops = true := by
    rw [outstandingBounded_withSeq, mapMsgs_fresh]; exact hb
  have key : withinCap maxCap ops = true →
      ∃ rb' tagged pending', runOps maxCap withSeq (NewRingBuffer N G) ops = .ok (rb', tagged) ∧
        tagged.flatten ++ pending' =
          publishedAs withSeq (NewRingBuffer N G : RingBuffer (μ × Int)).writeCursor ops := by
    intro hw
    obtain ⟨rb', tagged, _, pending', hrun, _, heq⟩ :=
      run_tracks withSeq (fun w d => withSeq_length d w) ops (NewRingBuffer N G) 0 []
        (Tracks_fresh hN hG) hg hb2 hw
    exact ⟨rb', tagged, pending', hrun, by rw [heq]; rfl⟩
  refine ⟨?_, ?_⟩
  · intro hw
    obtain ⟨rb', tagged, _, hrun, _⟩ := key hw
    exact ⟨rb', tagged, hrun⟩
  · intro rb' tagged hrun
    obtain ⟨rb1, tagged1, pending', hrun1, heq⟩ :=
      key (runOps_ok_withinCap withSeq ops _ _ hrun)
    rw [hrun] at hrun1
    simp only [Outcome.ok.injEq, Prod.mk.injEq] at hrun1
    obtain ⟨_, rfl⟩ := hrun1
    refine ⟨?_, ?_⟩
    · have := @runOps_withSeq_erase maxCap μ ops (NewRingBuffer N G)
      rw [mapMsgs_fresh, hrun] at this
      exact this
    · have hpre : tagged.flatten <+:
          publishedAs withSeq (NewRingBuffer N G : RingBuffer (μ × Int)).writeCursor ops :=
        ⟨pending', heq⟩
      exact List.Pairwise.sublist (List.IsPrefix.map Prod.snd hpre).sublist
        (publishedAs_withSeq_increasing ops _).1

/-- Scenario S2 as an instance of the amended C4: the delivered sequence numbers are
0, 1, 2, 3. -/
theorem in_group_ordering_no_overwrite_witness :
    (1 ≤ 3) ∧ (0 < 1) ∧
    onlyGroup 0 [Op.put ["1", "2", "3"], .get 2 0, .put ["4"], .get 2 0] = true ∧
    outstandingBounded exampleCap asIs 3 (NewRingBuffer 3 1) 0
      [Op.put ["1", "2", "3"], .get 2 0, .put ["4"], .get 2 0] = true ∧
    withinCap exampleCap [Op.put ["1", "2", "3"], .get 2 0, .put ["4"], .get 2 0] = true ∧
    (∃ rb', runOps exampleCap withSeq (NewRingBuffer 3 1)
        [Op.put ["1", "2", "3"], .get 2 0, .put ["4"], .get 2 0] =
      .ok (rb', [[("1", 0), ("2", 1)], [("3", 2), ("4", 3)]])) ∧
    (∃ rb', runOps exampleCap asIs (NewRingBuffer 3 1)
        [Op.put ["1", "2", "3"], .get 2 0, .put ["4"], .get 2 0] =
      .ok (rb', [["1", "2"], ["3", "4"]])) ∧
    List.Pairwise (· < ·)
      (([[("1", 0), ("2", 1)], [("3", 2), ("4", 3)]] : List (List (String × Int))).flatten.map
        Prod.snd) := by
  have hrun : runOps exampleCap withSeq (NewRingBuffer 3 1)
      [Op.put ["1", "2", "3"], .get 2 0, .put ["4"], .get 2 0] =
      .ok (RingBuffer.mk 3 [some ("4", 3), some ("2", 1), some ("3", 2)] 4 [3] [0, 0, 0] 0 0,
        [[("1", 0), ("2", 1)], [("3", 2), ("4", 3)]]) := by decide
  obtain ⟨hplain, hinc⟩ := (in_group_ordering_no_overwrite exampleCap 3 1 0 (by decide)
    (by decide) [Op.put ["1", "2", "3"], .get 2 0, .put ["4"], .get 2 0] (by decide)
    (by decide)).2 _ _ hrun
  exact ⟨by decide, by decide, by decide, by decide, by decide, ⟨_, hrun⟩, ⟨_, hplain⟩, hinc⟩

/-! ## Get on reachable rings -/

theorem Sound_fresh {μ : Type} {N : Nat} (G : Nat) (hN : 0 < N) :
    Sound N G (NewRingBuffer N G : RingBuffer μ) := by
  refine ⟨Shaped_fresh G hN, by simp [NewRingBuffer], by simp [NewRingBuffer], ?_, ?_, ?_⟩
  · intro g c h
    simp only [NewRingBuffer, List.getElem?_replicate] at h
    split at h
    · cases h; decide
    · cases h
  · intro s h
    simp only [NewRingBuffer, List.getElem?_replicate] at h
    split at h
    · cases h
    · cases h
  · intro s f h
    simp only [NewRingBuffer, List.getElem?_replicate] at h
    split at h
    · cases h; exact Or.inl rfl
    · cases h

theorem Put_sound {μ : Type} {N G : Nat} {rb rb' : RingBuffer μ} (hs : Sound N G rb)
    (data : List μ) (hput : Put rb data = .ok rb') : Sound N G rb' := by
  obtain ⟨w, hw⟩ := Int.eq_ofNat_of_zero_le hs.wcur
  obtain ⟨rb2, hput2, hwc, hp⟩ := Put_post w rb data hs.shaped hw
  rw [hput2] at hput
  cases hput
  refine ⟨hp.shaped, by rw [hp.cursors]; exact hs.groups, by rw [hwc]; omega, ?_, ?_, ?_⟩
  · rw [hp.cursors]; exact hs.rcur
  · intro s h
    by_cases hex : ∃ i, i < data.length ∧ (w + i) % N = s
    · obtain ⟨i, hi, rfl⟩ := hex
      exact hp.holds i hi
    · obtain ⟨hb, ha⟩ := hp.frame s (fun i hi he => hex ⟨i, hi, he⟩)
      rw [hb]
      exact hs.backed s (by rw [← ha]; exact h)
  · intro s f h
    by_cases hex : ∃ i, i < data.length ∧ (w + i) % N = s
    · obtain ⟨i, hi, rfl⟩ := hex
      rw [hp.filled i hi] at h
      cases h
      exact Or.inr rfl
    · obtain ⟨_, ha⟩ := hp.frame s (fun i hi he => hex ⟨i, hi, he⟩)
      exact hs.binary s f (by rw [← ha]; exact h)

/-- Extends the description of a read that started one slot later by the slot just read. -/
theorem GetPost_step {μ : Type} {N g nr r : Nat} {rb rb' : RingBuffer μ} (hs : Shaped N rb)
    (hp : GetPost N g (nr + 1) r
      { rb with
        available := rb.available.set (nr % N) 0
        ReadCursors := rb.ReadCursors.set g (nr : Int) } rb') :
    GetPost N g nr (r + 1) rb rb' := by
  have hslot : nr % N < N := Nat.mod_lt _ hs.pos
  have hself : (rb.available.set (nr % N) 0)[nr % N]? = some 0 :=
    List.getElem?_set_self (by rw [hs.flags]; exact hslot)
  have e : ∀ i, nr + 1 + i = nr + (i + 1) := fun i => by omega
  refine ⟨hp.shaped, hp.cells, hp.wcur, hp.wbar, hp.rbar, ?_, ?_, ?_⟩
  · rw [hp.cursors]
    by_cases hz : r = 0
    · simp [hz]
    · have e2 : nr + 1 + r - 1 = nr + (r + 1) - 1 := by omega
      simp [hz, List.set_set, e2]
  · intro i hi
    cases i with
    | zero =>
      simp only [Nat.add_zero]
      by_cases hex : ∃ j, j < r ∧ (nr + 1 + j) % N = nr % N
      · obtain ⟨j, hj, hje⟩ := hex
        rw [← hje]
        exact hp.cleared j hj
      · rw [hp.frame (nr % N) (fun j hj he => hex ⟨j, hj, he⟩)]
        exact hself
    | succ i =>
      have := hp.cleared i (by omega)
      rwa [e] at this
  · intro s hne
    have h0s : nr % N ≠ s := hne 0 (by omega)
    rw [hp.frame s (fun i hi => by rw [e]; exact hne (i + 1) (by omega))]
    exact List.getElem?_set_ne h0s

/-- On a sound ring the read loop always returns. It delivers at most `n` messages, each the
content of the slot it was read from; it delivers fewer than `n` exactly when it was left
through the branch for a slot that is not FILLED, and that slot is then EMPTY. -/
theorem getLoop_sound {μ : Type} {N G g : Nat} :
    ∀ (n : Nat) (rb : RingBuffer μ) (nr : Nat) (acc : List μ), Sound N G rb →
      ∃ rb' out ex, getLoop g n rb (nr : Int) acc = .ok (rb', acc ++ out, ex) ∧
        Sound N G rb' ∧ GetPost N g nr out.length rb rb' ∧
        (∀ j, j < out.length → rb.buffer[(nr + j) % N]? = some (out[j]?)) ∧
        out.length ≤ n ∧ (out.length < n ↔ ex = .brokeOnEmpty) ∧
        (ex = .brokeOnEmpty → rb'.available[(nr + out.length) % N]? = some 0) := by
  intro n
  induction n with
  | zero =>
    intro rb nr acc hs
    refine ⟨rb, [], .exhausted, by simp [getLoop], hs, ?_, ?_, Nat.le_refl _, by simp, ?_⟩
    · exact ⟨hs.shaped, rfl, rfl, rfl, rfl, by simp,
        fun i hi => absurd hi (Nat.not_lt_zero i), fun _ _ => rfl⟩
    · intro j hj; simp at hj
    · intro h; cases h
  | succ n ih =>
    intro rb nr acc hs
    have hsh := hs.shaped
    have hslot : nr % N < N := Nat.mod_lt _ hsh.pos
    obtain ⟨f, hf⟩ : ∃ f, rb.available[nr % N]? = some f :=
      exists_getElem_of_lt (by rw [hsh.flags]; exact hslot)
    rcases hs.binary _ f hf with rfl | rfl
    · refine ⟨rb, [], .brokeOnEmpty, ?_, hs, ?_, ?_, Nat.zero_le _, by simp, ?_⟩
      · rw [getLoop_stop g n rb nr acc 0 hsh hf (by decide)]; simp
      · exact ⟨hsh, rfl, rfl, rfl, rfl, by simp,
          fun i hi => absurd hi (Nat.not_lt_zero i), fun _ _ => rfl⟩
      · intro j hj; simp at hj
      · intro _; simpa using hf
    · obtain ⟨m, hm⟩ := hs.backed _ hf
      have hself : (rb.available.set (nr % N) 0)[nr % N]? = some 0 :=
        List.getElem?_set_self (by rw [hsh.flags]; exact hslot)
      have hs1 : Sound N G
          { rb with
            available := rb.available.set (nr % N) 0
            ReadCursors := rb.ReadCursors.set g (nr : Int) } := by
        refine ⟨⟨hsh.pos, hsh.size, hsh.cells, by simp [hsh.flags]⟩, by simp [hs.groups],
          hs.wcur, ?_, ?_, ?_⟩
        · intro g' c h
          simp only [List.getElem?_set] at h
          split at h
          · split at h
            · cases h; omega
            · cases h
          · exact hs.rcur g' c h
        · intro s h
          by_cases hc : nr % N = s
          · subst hc
            simp only [hself] at h
            cases h
          · exact hs.backed s (by simpa [List.getElem?_set_ne hc] using h)
        · intro s f h
          by_cases hc : nr % N = s
          · subst hc
            simp only [hself] at h
            cases h
            exact Or.inl rfl
          · exact hs.binary s f (by simpa [List.getElem?_set_ne hc] using h)
      obtain ⟨rb', out, ex, hrun, hs', hp, hcont, hle, hex, hflag⟩ :=
        ih _ (nr + 1) (acc ++ [m]) hs1
      have e : ∀ i, nr + 1 + i = nr + (i + 1) := fun i => by omega
      refine ⟨rb', m :: out, ex, ?_, hs', ?_, ?_, ?_, ?_, ?_⟩
      · rw [getLoop_step g n rb nr acc m hsh hf hm, hrun]; simp
      · exact GetPost_step hsh hp
      · intro j hj
        cases j with
        | zero => simpa using hm
        | succ j =>
          have := hcont j (by simpa using hj)
          rw [e] at this
          simpa using this
      · simpa using hle
      · simpa using hex
      · intro h
        have := hflag h
        rw [e] at this
        simpa using this

/-- Total correctness of `Get` on a sound ring, for a valid group and a batch size `k ≥ 0`
that `make` can allocate. -/
theorem Get_sound {maxCap : Nat} {μ : Type} {N G : Nat} {rb : RingBuffer μ} (hs : Sound N G rb) (g k : Nat)
    (hg : g < G) (hcap : k ≤ maxCap) :
    ∃ rb' out ex, ∃ nr : Nat, rb.ReadCursors[g]? = some ((nr : Int) - 1) ∧
      GetTraced maxCap rb (k : Int) (g : Int) = .ok (rb', out, ex) ∧
      Get maxCap rb (k : Int) (g : Int) = .ok (rb', out) ∧
      Sound N G rb' ∧ GetPost N g nr out.length rb rb' ∧
      (∀ j, j < out.length → rb.buffer[(nr + j) % N]? = some (out[j]?)) ∧
      out.length ≤ k ∧ (out.length < k ↔ ex = .brokeOnEmpty) ∧
      (ex = .brokeOnEmpty → rb'.available[(nr + out.length) % N]? = some 0) := by
  obtain ⟨c, hc⟩ : ∃ c, rb.ReadCursors[g]? = some c :=
    exists_getElem_of_lt (by rw [hs.groups]; exact hg)
  have hc1 := hs.rcur g c hc
  obtain ⟨nr, hnr⟩ := Int.eq_ofNat_of_zero_le (by omega : 0 ≤ c + 1)
  have hc2 : c = (nr : Int) - 1 := by omega
  subst hc2
  obtain ⟨rb', out, ex, hrun, hs', hp, hcont, hle, hex, hflag⟩ :=
    getLoop_sound (g := g) k rb nr [] hs
  have hk : ¬ ((k : Int) < 0) := by omega
  have hk3 : ¬ ((maxCap : Int) < (k : Int)) := by omega
  have ht : GetTraced maxCap rb (k : Int) (g : Int) = .ok (rb', out, ex) := by
    simp only [GetTraced, if_neg hk, if_neg hk3, idx_natCast, hc, Int.toNat_ofNat,
      sub_add_cancel, hrun, List.nil_append]
  exact ⟨rb', out, ex, nr, hc, ht, by simp only [Get, ht], hs', hp, hcont, hle, hex, hflag⟩

/-- A `Get` that returns on a sound ring leaves a sound ring. -/
theorem Get_ok_sound {maxCap : Nat} {μ : Type} {N G : Nat} {rb rb' : RingBuffer μ} {k g : Int}
    {batch : List μ} (hs : Sound N G rb) (hget : Get maxCap rb k g = .ok (rb', batch)) :
    Sound N G rb' := by
  obtain ⟨hk0, hkc⟩ := Get_ok_bounds hget
  cases hc : idx? rb.ReadCursors g with
  | none => rw [Get_out_of_range rb k g hc] at hget; cases hget
  | some c =>
    have hg0 : ¬ (g < 0) := by
      intro hneg
      simp [idx?, hneg] at hc
    obtain ⟨gn, rfl⟩ := Int.eq_ofNat_of_zero_le (by omega : 0 ≤ g)
    obtain ⟨kn, rfl⟩ := Int.eq_ofNat_of_zero_le hk0
    have hgl : gn < G := by
      rw [idx_natCast] at hc
      by_contra hcon
      rw [List.getElem?_eq_none (by rw [hs.groups]; omega)] at hc
      cases hc
    obtain ⟨rb2, out, ex, nr, _, _, hget2, hs2, _⟩ :=
      Get_sound hs gn kn hgl (by omega : kn ≤ maxCap)
    rw [hget2] at hget
    cases hget
    exact hs2

theorem Reachable_sound {μ : Type} {N G : Nat} (hN : 0 < N) {rb : RingBuffer μ}
    (hr : Reachable N G rb) : Sound N G rb := by
  induction hr with
  | fresh => exact Sound_fresh G hN
  | put data _ hput ih => exact Put_sound ih data hput
  | @get rb rb' cap k g batch _ hget ih => exact Get_ok_sound ih hget

/-- C7, as the claim states it, fails on a batch size that `make` cannot allocate: on the
reachable ring of capacity 3 that holds A, Get(2^62, 0) with 2^62 ≥ 0 returns no batch at all,
it stops with a runtime fault. -/
theorem batch_limit_huge_batch_faults :
    Reachable 3 1 ringS3 ∧ (0 : Int) ≤ 2 ^ 62 ∧
    GetTraced exampleCap ringS3 (2 ^ 62) 0 = .panic ∧ Get exampleCap ringS3 (2 ^ 62) 0 = .panic :=
  ⟨Reachable.put ["A"] Reachable.fresh rfl, by decide, by decide, by decide⟩

/-- C7 (amended). Batch limit: for every ring reachable from NewRingBuffer(N, G) with N ≥ 1
and every valid group g (read cursor c), Get(k, g) with 0 ≤ k ≤ maxCap (a capacity `make` can
allocate) returns, with at most k messages, and it returns fewer than k exactly when its loop
was left on meeting a slot that is not FILLED; that slot, the one of sequence number
c + 1 + (number returned), is then EMPTY. With k > maxCap the call returns nothing: it stops
with a runtime fault. -/
theorem batch_limit {μ : Type} (maxCap N G : Nat) (hN : 1 ≤ N) (rb : RingBuffer μ)
    (hr : Reachable N G rb) (g : Nat) (hg : g < G) (k : Nat) :
    (k ≤ maxCap →
      ∃ rb' out ex c, idx? rb.ReadCursors (g : Int) = some c ∧
        GetTraced maxCap rb (k : Int) (g : Int) = .ok (rb', out, ex) ∧
        Get maxCap rb (k : Int) (g : Int) = .ok (rb', out) ∧
        out.length ≤ k ∧ (out.length < k ↔ ex = .brokeOnEmpty) ∧
        (ex = .brokeOnEmpty → flagAt rb' (c + 1 + (out.length : Int)) = some 0)) ∧
    (maxCap < k →
      GetTraced maxCap rb (k : Int) (g : Int) = .panic ∧
        Get maxCap rb (k : Int) (g : Int) = .panic) := by
  refine ⟨?_, fun h => Get_make_faults rb _ _ (Or.inr (by omega))⟩
  intro hcap
  obtain ⟨rb', out, ex, nr, hc, ht, hget, hs', _, _, hle, hex, hflag⟩ :=
    Get_sound (Reachable_sound hN hr) g k hg hcap
  refine ⟨rb', out, ex, (nr : Int) - 1, by rw [idx_natCast]; exact hc, ht, hget, hle, hex, ?_⟩
  intro h
  have e : (nr : Int) - 1 + 1 + (out.length : Int) = ((nr + out.length : Nat) : Int) := by
    push_cast; ring
  rw [e, flagAt_natCast hs'.shaped]
  exact hflag h

/-- Scenario S3 as an instance of the amended C7, with an allocation limit of 1000 entries:
capacity 3, one group, after Put A the call Get(5, 0) returns the one message A, fewer than
the 5 asked for, its loop having met an EMPTY slot. -/
theorem batch_limit_witness :
    (1 ≤ 3) ∧ Reachable 3 1 ringS3 ∧ (0 < 1) ∧ (5 ≤ 1000) ∧
    (∃ rb' out ex c, idx? ringS3.ReadCursors ((0 : Nat) : Int) = some c ∧
      GetTraced 1000 ringS3 ((5 : Nat) : Int) ((0 : Nat) : Int) = .ok (rb', out, ex) ∧
      Get 1000 ringS3 ((5 : Nat) : Int) ((0 : Nat) : Int) = .ok (rb', out) ∧
      out.length ≤ 5 ∧ (out.length < 5 ↔ ex = .brokeOnEmpty) ∧
      (ex = .brokeOnEmpty → flagAt rb' (c + 1 + (out.length : Int)) = some 0)) ∧
    (∃ rb', GetTraced 1000 ringS3 5 0 = .ok (rb', ["A"], .brokeOnEmpty)) :=
  have hr : Reachable 3 1 ringS3 := Reachable.put ["A"] Reachable.fresh rfl
  ⟨by decide, hr, by decide, by decide,
    (batch_limit 1000 3 1 (by decide) _ hr 0 (by decide) 5).1 (by decide), ⟨_, rfl⟩⟩

/-! ## Construction -/

/-- C11, as the claim states it, fails on batch sizes that `make` refuses: on the ring
NewRingBuffer(5, 2), Get(-1, 1) and Get(2^62, 1) stop with a runtime fault instead of
returning the empty batch. -/
theorem construction_get_faults :
    Get exampleCap (NewRingBuffer 5 2 : RingBuffer String) (-1) 1 = .panic ∧
    Get exampleCap (NewRingBuffer 5 2 : RingBuffer String) (2 ^ 62) 1 = .panic :=
  ⟨by decide, by decide⟩

/-- C11 (amended). Construction: NewRingBuffer(N, G) with N ≥ 1 yields a ring with exactly G
read cursors, each equal to -1, N availability flags all EMPTY and N empty cells, and
Get(k, g) on it returns the empty batch, leaving the ring as built, for every g < G and every
batch size k with 0 ≤ k ≤ maxCap (a capacity `make` can allocate); for every other k it stops
with a runtime fault. -/
theorem construction {μ : Type} (maxCap N G : Nat) (hN : 1 ≤ N) :
    (NewRingBuffer N G : RingBuffer μ).ReadCursors.length = G ∧
    (∀ c ∈ (NewRingBuffer N G : RingBuffer μ).ReadCursors, c = -1) ∧
    (NewRingBuffer N G : RingBuffer μ).available.length = N ∧
    (∀ f ∈ (NewRingBuffer N G : RingBuffer μ).available, f = 0) ∧
    (NewRingBuffer N G : RingBuffer μ).buffer.length = N ∧
    (∀ c ∈ (NewRingBuffer N G : RingBuffer μ).buffer, c = none) ∧
    (∀ g : Nat, g < G → ∀ k : Int, 0 ≤ k → k ≤ (maxCap : Int) →
      Get maxCap (NewRingBuffer N G : RingBuffer μ) k (g : Int) =
        .ok (NewRingBuffer N G, [])) ∧
    (∀ g : Nat, g < G → ∀ k : Int, k < 0 ∨ (maxCap : Int) < k →
      Get maxCap (NewRingBuffer N G : RingBuffer μ) k (g : Int) = .panic) := by
  refine ⟨by simp [NewRingBuffer], ?_, by simp [NewRingBuffer], ?_, by simp [NewRingBuffer],
    ?_, ?_, fun g _ k hk => (Get_make_faults _ k g hk).2⟩
  · intro c hc
    exact (List.mem_replicate.1 hc).2
  · intro f hf
    exact (List.mem_replicate.1 hf).2
  · intro c hc
    exact (List.mem_replicate.1 hc).2
  · intro g hg k hk hcap
    have ht : Tracks N g 0 ([] : List μ) (NewRingBuffer N G) := Tracks_fresh hN hg
    have hc : idx? (NewRingBuffer N G : RingBuffer μ).ReadCursors (g : Int) = some (-1) := by
      rw [idx_natCast]
      simpa using ht.rcur
    refine (Get_noop _ k g _ hk hcap hc (Or.inr ⟨0, ?_, by decide⟩)).2
    have := Tracks_nil_flag ht 0
    simpa using this

/-- Instance of the amended C11 (TestNewRingBuffer), with an allocation limit of 1000
entries: capacity 5 and two groups. -/
theorem construction_witness :
    (1 ≤ 5) ∧
    (NewRingBuffer 5 2 : RingBuffer String).ReadCursors = [-1, -1] ∧
    (NewRingBuffer 5 2 : RingBuffer String).available = [0, 0, 0, 0, 0] ∧
    (NewRingBuffer 5 2 : RingBuffer String).buffer = [none, none, none, none, none] ∧
    Get 1000 (NewRingBuffer 5 2 : RingBuffer String) 3 ((1 : Nat) : Int) =
      .ok (NewRingBuffer 5 2, []) :=
  ⟨by decide, rfl, rfl, rfl,
    (construction (μ := String) 1000 5 2 (by decide)).2.2.2.2.2.2.1 1 (by decide) 3 (by decide)
      (by decide)⟩

/-! ## Go maps as association lists -/

theorem mapGet_eq_none {υ : Type} (m : List (String × υ)) (key : String) :
    mapGet m key = none ↔ key ∉ mapKeys m := by
  induction m with
  | nil => simp [mapGet, mapKeys]
  | cons p rest ih =>
    obtain ⟨k, v⟩ := p
    by_cases h : k = key
    · simp [mapGet, mapKeys, h]
    · have hne : ¬ key = k := fun e => h e.symm
      simp only [mapGet, if_neg h, ih, mapKeys, List.map_cons, List.mem_cons, hne, false_or]

theorem mapGet_of_mem {υ : Type} (m : List (String × υ)) (key : String) (v : υ)
    (hk : (mapKeys m).Nodup) (h : (key, v) ∈ m) : mapGet m key = some v := by
  induction m with
  | nil => cases h
  | cons p rest ih =>
    obtain ⟨k, w⟩ := p
    simp only [mapKeys, List.map_cons, List.nodup_cons] at hk
    rcases List.mem_cons.1 h with h | h
    · cases h
      simp [mapGet]
    · have hne : k ≠ key := by
        intro e
        exact hk.1 (List.mem_map.2 ⟨(key, v), h, e.symm⟩)
      simp only [mapGet, if_neg hne]
      exact ih hk.2 h

theorem mapSet_absent {υ : Type} (m : List (String × υ)) (key : String) (v : υ)
    (h : key ∉ mapKeys m) : mapSet m key v = m ++ [(key, v)] := by
  induction m with
  | nil => rfl
  | cons p rest ih =>
    obtain ⟨k, w⟩ := p
    simp only [mapKeys, List.map_cons, List.mem_cons, not_or] at h
    have hne : k ≠ key := fun e => h.1 e.symm
    simp only [mapSet, if_neg hne, List.cons_append]
    rw [ih h.2]

theorem mapKeys_mapSet_present {υ : Type} (m : List (String × υ)) (key : String) (v : υ)
    (h : key ∈ mapKeys m) : mapKeys (mapSet m key v) = mapKeys m := by
  induction m with
  | nil => cases h
  | cons p rest ih =>
    obtain ⟨k, w⟩ := p
    by_cases hk : k = key
    · simp [mapSet, mapKeys, hk]
    · have hin : key ∈ mapKeys rest := by
        simp only [mapKeys, List.map_cons, List.mem_cons] at h
        rcases h with h | h
        · exact absurd h.symm hk
        · exact h
      simp only [mapSet, if_neg hk, mapKeys, List.map_cons]
      have := ih hin
      simp only [mapKeys] at this
      rw [this]

theorem mapKeys_mapSet {υ : Type} (m : List (String × υ)) (key : String) (v : υ) :
    mapKeys (mapSet m key v) = if key ∈ mapKeys m then mapKeys m else mapKeys m ++ [key] := by
  by_cases h : key ∈ mapKeys m
  · rw [if_pos h, mapKeys_mapSet_present m key v h]
  · rw [if_neg h, mapSet_absent m key v h]
    simp [mapKeys]

theorem mapKeys_mapSet_nodup {υ : Type} (m : List (String × υ)) (key : String) (v : υ)
    (hk : (mapKeys m).Nodup) : (mapKeys (mapSet m key v)).Nodup := by
  rw [mapKeys_mapSet]
  split
  · exact hk
  · rename_i h
    exact List.Nodup.append hk (List.nodup_singleton key) (by simpa using h)

theorem mem_mapKeys_mapSet {υ : Type} (m : List (String × υ)) (key : String) (v : υ) :
    key ∈ mapKeys (mapSet m key v) := by
  rw [mapKeys_mapSet]
  split
  · assumption
  · simp

/-! ## The topic and consumer-group registries -/

theorem RegistryOk_mapSet (topics : List (String × String)) (t st : String)
    (hok : RegistryOk topics) (ht : t ≠ "") (hst : st ≠ "") (hnew : t ∉ mapKeys topics) :
    RegistryOk (mapSet topics t st) := by
  refine ⟨mapKeys_mapSet_nodup topics t st hok.nodup, ?_⟩
  rw [mapSet_absent topics t st hnew]
  intro p hp
  rcases List.mem_append.1 hp with h | h
  · exact hok.named p h
  · simp only [List.mem_singleton] at h
    subst h
    exact ⟨ht, hst⟩

/-- The entries listed for a topic that the map holds: exactly the one of that topic. -/
theorem topics_filter_of_mem (topics : List (String × String)) (t st : String)
    (hk : (mapKeys topics).Nodup) (hin : (t, st) ∈ topics) :
    (topics.map (fun p => ({ topic := p.1, strategy := p.2 } : TopicInfo))).filter
      (fun e => decide (e.topic = t)) = [{ topic := t, strategy := st }] := by
  induction topics with
  | nil => cases hin
  | cons p rest ih =>
    obtain ⟨k, w⟩ := p
    simp only [mapKeys, List.map_cons, List.nodup_cons] at hk
    rcases List.mem_cons.1 hin with h | h
    · cases h
      have hnone : (rest.map (fun p => ({ topic := p.1, strategy := p.2 } : TopicInfo))).filter
          (fun e => decide (e.topic = t)) = [] := by
        rw [List.filter_eq_nil_iff]
        intro e he
        obtain ⟨q, hq, rfl⟩ := List.mem_map.1 he
        simp only [decide_eq_true_eq]
        intro e2
        exact hk.1 (List.mem_map.2 ⟨q, hq, e2⟩)
      simp [List.filter_cons, hnone]
    · have hne : k ≠ t := by
        intro e
        exact hk.1 (List.mem_map.2 ⟨(t, st), h, e.symm⟩)
      simp only [List.map_cons, List.filter_cons, decide_eq_true_eq, if_neg hne]
      exact ih hk.2 h

/-- C13. Topic uniqueness: for every registry state (a Go map filled by CreateTopic) in
which topic t is present with strategy s, CreateTopic(t, s') with a non-empty s' returns
success = false with the error "Topic already exists" and the server unchanged, and every
reply of ListTopics holds exactly one entry for t, with strategy s. -/
theorem topic_uniqueness (s : Server) (t st st' : String) (hok : RegistryOk s.topics)
    (hin : (t, st) ∈ s.topics) (hst' : st' ≠ "") :
    s.CreateTopic { topic := t, strategy := st' } =
      .ok (s, .response { success := false, error := "Topic already exists" }) ∧
    ∀ listed, listsTopics s listed →
      listed.filter (fun e => decide (e.topic = t)) = [{ topic := t, strategy := st }] := by
  have ht : t ≠ "" := (hok.named (t, st) hin).1
  have hget := mapGet_of_mem s.topics t st hok.nodup hin
  refine ⟨?_, ?_⟩
  · have hc : ¬ (t = "" ∨ st' = "") := by
      intro h
      rcases h with h | h
      · exact ht h
      · exact hst' h
    simp only [Server.CreateTopic, if_neg hc, hget]
  · rintro listed ⟨s', first, hlist, hperm⟩
    simp only [Server.ListTopics, Outcome.ok.injEq, Prod.mk.injEq, Reply.response.injEq,
      ListTopicsResponse.mk.injEq] at hlist
    obtain ⟨_, rfl⟩ := hlist
    have := List.Perm.filter (fun e => decide (e.topic = t)) hperm
    rw [topics_filter_of_mem s.topics t st hok.nodup hin] at this
    exact List.perm_singleton.1 this

/-- Scenario S5 as an instance of C13: topic t stays 'fanout' after an attempt with
'queue'. -/
theorem topic_uniqueness_witness :
    RegistryOk [("t", "fanout")] ∧ (("t", "fanout") ∈ [("t", "fanout")]) ∧ ("queue" ≠ "") ∧
    (({ rb := NewRingBuffer 8 3, topics := [("t", "fanout")], consumerMap := [] } :
        Server).CreateTopic { topic := "t", strategy := "queue" } =
      .ok ({ rb := NewRingBuffer 8 3, topics := [("t", "fanout")], consumerMap := [] },
        .response { success := false, error := "Topic already exists" }) ∧
    ∀ listed,
      listsTopics { rb := NewRingBuffer 8 3, topics := [("t", "fanout")], consumerMap := [] }
        listed →
      listed.filter (fun e => decide (e.topic = "t")) =
        [{ topic := "t", strategy := "fanout" }]) :=
  have hok : RegistryOk [("t", "fanout")] :=
    ⟨by simp [mapKeys], by intro p hp; simp at hp; subst hp; exact ⟨by decide, by decide⟩⟩
  ⟨hok, by simp, by decide,
    topic_uniqueness { rb := NewRingBuffer 8 3, topics := [("t", "fanout")], consumerMap := [] }
      "t" "fanout" "queue" hok (by simp) (by decide)⟩

/-- C14. Invalid topic: CreateTopic with an empty topic name or an empty strategy (or both)
returns success = false with the error "Invalid topic or strategy", whatever the registry
holds, and leaves the server, its topic registry included, unchanged. -/
theorem invalid_topic_rejected (s : Server) (req : CreateTopicRequest)
    (h : req.topic = "" ∨ req.strategy = "") :
    s.CreateTopic req =
      .ok (s, .response { success := false, error := "Invalid topic or strategy" }) := by
  simp only [Server.CreateTopic, if_pos h]

/-- Scenario S6 as an instance of C14: CreateTopic with an empty name and strategy queue, on
a server that already has a topic. -/
theorem invalid_topic_rejected_witness :
    (("" : String) = "" ∨ "queue" = "") ∧
    ({ rb := NewRingBuffer 8 3, topics := [("t", "fanout")], consumerMap := [] } :
        Server).CreateTopic { topic := "", strategy := "queue" } =
      .ok ({ rb := NewRingBuffer 8 3, topics := [("t", "fanout")], consumerMap := [] },
        .response { success := false, error := "Invalid topic or strategy" }) :=
  ⟨Or.inl rfl, invalid_topic_rejected _ { topic := "", strategy := "queue" } (Or.inl rfl)⟩

/-- C15. CreateTopic success: for every non-empty name t not present in the registry and
every non-empty strategy s, CreateTopic(t, s) returns success = true with an empty error and
touches neither the ring nor the consumer registry; ListTopics replies before the call with a
list that has no entry for t, and replies after the call with a list that is, up to order,
that earlier list with the one entry (t, s) added, so that exactly one of its entries is for
t. The same holds of every rearrangement of the two replies. -/
theorem create_topic_success (s : Server) (t st : String) (ht : t ≠ "") (hst : st ≠ "")
    (hnew : t ∉ mapKeys s.topics) :
    ∃ s' before after,
      s.ListTopics {} = .ok (s, .response { topics := before }) ∧
      s.CreateTopic { topic := t, strategy := st } =
        .ok (s', .response { success := true, error := "" }) ∧
      s'.ListTopics {} = .ok (s', .response { topics := after }) ∧
      s'.rb = s.rb ∧ s'.consumerMap = s.consumerMap ∧
      after.Perm ({ topic := t, strategy := st } :: before) ∧
      (∀ e ∈ before, e.topic ≠ t) ∧
      after.countP (fun e => decide (e.topic = t)) = 1 ∧
      ∀ listedBefore listedAfter, listsTopics s listedBefore → listsTopics s' listedAfter →
        listedAfter.Perm ({ topic := t, strategy := st } :: listedBefore) ∧
        ∀ e ∈ listedBefore, e.topic ≠ t := by
  have hget : mapGet s.topics t = none := (mapGet_eq_none s.topics t).2 hnew
  have hc : ¬ (t = "" ∨ st = "") := by
    intro h
    rcases h with h | h
    · exact ht h
    · exact hst h
  have hbefore : ∀ e ∈ s.topics.map (fun p => ({ topic := p.1, strategy := p.2 } : TopicInfo)),
      e.topic ≠ t := by
    intro e he e2
    obtain ⟨q, hq, rfl⟩ := List.mem_map.1 he
    exact hnew (List.mem_map.2 ⟨q, hq, e2⟩)
  have hafter : ((mapSet s.topics t st).map
      (fun p => ({ topic := p.1, strategy := p.2 } : TopicInfo))).Perm
      ({ topic := t, strategy := st } ::
        s.topics.map (fun p => ({ topic := p.1, strategy := p.2 } : TopicInfo))) := by
    rw [mapSet_absent s.topics t st hnew, List.map_append]
    exact List.perm_append_singleton _ _
  refine ⟨{ s with topics := mapSet s.topics t st },
    s.topics.map (fun p : String × String => ({ topic := p.1, strategy := p.2 } : TopicInfo)),
    (mapSet s.topics t st).map
      (fun p : String × String => ({ topic := p.1, strategy := p.2 } : TopicInfo)),
    rfl, ?_, rfl, rfl, rfl, hafter, hbefore, ?_, ?_⟩
  · simp only [Server.CreateTopic, if_neg hc, hget]
  · rw [hafter.countP_eq, List.countP_cons_of_pos]
    · have h0 : List.countP (fun e => decide (e.topic = t))
          (s.topics.map (fun p => ({ topic := p.1, strategy := p.2 } : TopicInfo))) = 0 := by
        rw [List.countP_eq_zero]
        intro e he
        simpa using hbefore e he
      rw [h0]
    · simp
  · rintro listedBefore listedAfter ⟨_, first, hb, hpb⟩ ⟨_, first', ha, hpa⟩
    simp only [Server.ListTopics, Outcome.ok.injEq, Prod.mk.injEq, Reply.response.injEq,
      ListTopicsResponse.mk.injEq] at hb ha
    obtain ⟨_, rfl⟩ := hb
    obtain ⟨_, rfl⟩ := ha
    refine ⟨?_, ?_⟩
    · exact hpa.trans (hafter.trans (List.Perm.cons _ hpb.symm))
    · intro e he
      exact hbefore e ((List.Perm.mem_iff hpb).1 he)

/-- Scenario S5 (first call) as an instance of C15, on a server that already has the topic
a: before CreateTopic t/fanout ListTopics replies a/queue, after it a/queue and t/fanout. -/
theorem create_topic_success_witness :
    ("t" ≠ "") ∧ ("fanout" ≠ "") ∧
    ("t" ∉ mapKeys (Server.mk (NewRingBuffer 8 3) [("a", "queue")] []).topics) ∧
    ∃ s', (Server.mk (NewRingBuffer 8 3) [("a", "queue")] []).ListTopics {} =
        .ok (Server.mk (NewRingBuffer 8 3) [("a", "queue")] [],
          .response { topics := [{ topic := "a", strategy := "queue" }] }) ∧
      (Server.mk (NewRingBuffer 8 3) [("a", "queue")] []).CreateTopic
          { topic := "t", strategy := "fanout" } =
        .ok (s', .response { success := true, error := "" }) ∧
      s'.ListTopics {} = .ok (s', .response { topics :=
        [{ topic := "a", strategy := "queue" }, { topic := "t", strategy := "fanout" }] }) := by
  have hnew : "t" ∉ mapKeys (Server.mk (NewRingBuffer 8 3) [("a", "queue")] []).topics := by
    decide
  obtain ⟨s', before, after, _, hcreate, _, _, _, _, _, _, _⟩ :=
    create_topic_success (Server.mk (NewRingBuffer 8 3) [("a", "queue")] []) "t" "fanout"
      (by decide) (by decide) hnew
  have hs' : s' = Server.mk (NewRingBuffer 8 3) [("a", "queue"), ("t", "fanout")] [] := by
    have hc : (Server.mk (NewRingBuffer 8 3) [("a", "queue")] []).CreateTopic
        { topic := "t", strategy := "fanout" } =
        .ok (Server.mk (NewRingBuffer 8 3) [("a", "queue"), ("t", "fanout")] [],
          .response { success := true, error := "" }) := by decide
    rw [hc] at hcreate
    simp only [Outcome.ok.injEq, Prod.mk.injEq] at hcreate
    exact hcreate.1.symm
  refine ⟨by decide, by decide, hnew, s', rfl, hcreate, ?_⟩
  rw [hs']
  rfl

theorem mapSet_idem {υ : Type} (m : List (String × υ)) (key : String) (v : υ) :
    mapSet (mapSet m key v) key v = mapSet m key v := by
  induction m with
  | nil => simp [mapSet]
  | cons p rest ih =>
    obtain ⟨k, w⟩ := p
    by_cases h : k = key
    · simp [mapSet, h]
    · simp [mapSet, h, ih]

/-- C16. Idempotent registration: RegisterConsumerGroup(n) always returns success and
touches neither the ring nor the topics; a second call with the same name returns success
too and leaves the server as the first call left it; ListConsumers replies with the same list
after the first call and after the second, and n appears in that list exactly once. The same
holds of every rearrangement of the reply, and when n was registered already (the call is
itself a second or later one), the replies ListConsumers can give are the same after the call
as before it. -/
theorem idempotent_registration (s : Server) (n : String)
    (hk : (mapKeys s.consumerMap).Nodup) :
    ∃ s1 s2 listed,
      s.RegisterConsumerGroup { consumerGroup := n } =
        .ok (s1, .response { success := true }) ∧
      s1.RegisterConsumerGroup { consumerGroup := n } =
        .ok (s2, .response { success := true }) ∧
      s1.ListConsumers {} = .ok (s1, .response { consumerGroups := listed }) ∧
      s2.ListConsumers {} = .ok (s2, .response { consumerGroups := listed }) ∧
      listed.count n = 1 ∧
      s2 = s1 ∧ s1.rb = s.rb ∧ s1.topics = s.topics ∧
      (∀ l, listsConsumers s1 l → l.count n = 1) ∧
      (n ∈ mapKeys s.consumerMap →
        s.ListConsumers {} = .ok (s, .response { consumerGroups := listed }) ∧
        ∀ l, listsConsumers s1 l ↔ listsConsumers s l) := by
  have hone : (mapKeys (mapSet s.consumerMap n true)).count n = 1 :=
    List.count_eq_one_of_mem (mapKeys_mapSet_nodup _ n true hk) (mem_mapKeys_mapSet _ n true)
  have hsame : ({ s with consumerMap := mapSet (mapSet s.consumerMap n true) n true } : Server) =
      { s with consumerMap := mapSet s.consumerMap n true } := by
    rw [mapSet_idem]
  refine ⟨{ s with consumerMap := mapSet s.consumerMap n true },
    { s with consumerMap := mapSet (mapSet s.consumerMap n true) n true },
    mapKeys (mapSet s.consumerMap n true), rfl, rfl, rfl, ?_, hone, hsame, rfl, rfl, ?_, ?_⟩
  · rw [hsame]
    rfl
  · rintro l ⟨_, first, hl, hp⟩
    simp only [Server.ListConsumers, Outcome.ok.injEq, Prod.mk.injEq, Reply.response.injEq,
      ListConsumersResponse.mk.injEq] at hl
    obtain ⟨_, rfl⟩ := hl
    rw [hp.count_eq]
    exact hone
  · intro hin
    have hkeys := mapKeys_mapSet_present s.consumerMap n true hin
    refine ⟨by rw [hkeys]; rfl, ?_⟩
    intro l
    constructor
    · rintro ⟨_, first, hl, hp⟩
      simp only [Server.ListConsumers, Outcome.ok.injEq, Prod.mk.injEq, Reply.response.injEq,
        ListConsumersResponse.mk.injEq] at hl
      obtain ⟨_, rfl⟩ := hl
      exact ⟨s, mapKeys s.consumerMap, rfl, by rw [← hkeys]; exact hp⟩
    · rintro ⟨_, first, hl, hp⟩
      simp only [Server.ListConsumers, Outcome.ok.injEq, Prod.mk.injEq, Reply.response.injEq,
        ListConsumersResponse.mk.injEq] at hl
      obtain ⟨_, rfl⟩ := hl
      exact ⟨_, mapKeys (mapSet s.consumerMap n true), rfl, by rw [hkeys]; exact hp⟩

/-- Instance of C16: registering group g1 twice on a server where g2 is registered;
ListConsumers replies g2, g1 after the first call and after the second. -/
theorem idempotent_registration_witness :
    (mapKeys [(("g2" : String), true)]).Nodup ∧
    ∃ s1 s2, (Server.mk (NewRingBuffer 8 3) [] [("g2", true)]).RegisterConsumerGroup
          { consumerGroup := "g1" } = .ok (s1, .response { success := true }) ∧
      s1.RegisterConsumerGroup { consumerGroup := "g1" } =
        .ok (s2, .response { success := true }) ∧
      s1.ListConsumers {} = .ok (s1, .response { consumerGroups := ["g2", "g1"] }) ∧
      s2.ListConsumers {} = .ok (s2, .response { consumerGroups := ["g2", "g1"] }) ∧
      (["g2", "g1"] : List String).count "g1" = 1 := by
  have hk : (mapKeys [(("g2" : String), true)]).Nodup := by decide
  obtain ⟨s1, s2, listed, h1, h2, hl1, hl2, hcount, _⟩ :=
    idempotent_registration (Server.mk (NewRingBuffer 8 3) [] [("g2", true)]) "g1" hk
  have hs1 : s1 = Server.mk (NewRingBuffer 8 3) [] [("g2", true), ("g1", true)] := by
    have hc : (Server.mk (NewRingBuffer 8 3) [] [("g2", true)]).RegisterConsumerGroup
        { consumerGroup := "g1" } =
        .ok (Server.mk (NewRingBuffer 8 3) [] [("g2", true), ("g1", true)],
          .response { success := true }) := by decide
    rw [hc] at h1
    simp only [Outcome.ok.injEq, Prod.mk.injEq] at h1
    exact h1.1.symm
  have hlisted : listed = ["g2", "g1"] := by
    rw [hs1] at hl1
    simp only [Server.ListConsumers, Outcome.ok.injEq, Prod.mk.injEq, Reply.response.injEq,
      ListConsumersResponse.mk.injEq, true_and] at hl1
    rw [← hl1]
    decide
  rw [hlisted] at hl1 hl2 hcount
  exact ⟨hk, s1, s2, h1, h2, hl1, hl2, hcount⟩

/-! ## Publish, Consume and the no-op handlers -/

/-- Every server reachable from NewServer(N, G) with N ≥ 1 has a sound ring, a topic map and
a consumer map without repeated keys, and no empty topic name or strategy. -/
theorem ServerReachable_ok {N G : Nat} (hN : 0 < N) {s : Server} (hr : ServerReachable N G s) :
    Sound N G s.rb ∧ RegistryOk s.topics ∧ (mapKeys s.consumerMap).Nodup := by
  induction hr with
  | fresh =>
    exact ⟨Sound_fresh G hN, ⟨by simp [NewServer, mapKeys], by simp [NewServer]⟩,
      by simp [NewServer, mapKeys]⟩
  | @call s s' cap rpc _ hcall ih =>
    obtain ⟨hsound, hreg, hcons⟩ := ih
    cases rpc with
    | publish req =>
      simp only [Server.after, Server.Publish] at hcall
      cases hm : req.message with
      | none =>
        simp only [hm, Outcome.map, Outcome.ok.injEq] at hcall
        subst hcall
        exact ⟨hsound, hreg, hcons⟩
      | some m =>
        simp only [hm] at hcall
        cases hput : Put s.rb [some m] with
        | ok rb' =>
          simp only [hput, Outcome.map, Outcome.ok.injEq] at hcall
          subst hcall
          exact ⟨Put_sound hsound _ hput, hreg, hcons⟩
        | panic => simp [hput, Outcome.map] at hcall
        | diverges => simp [hput, Outcome.map] at hcall
    | consume req =>
      simp only [Server.after, Server.Consume] at hcall
      cases hget : Get cap s.rb req.batchSize req.consumerGroup with
      | ok p =>
        obtain ⟨rb', messages⟩ := p
        simp only [hget, Outcome.map, Outcome.ok.injEq] at hcall
        subst hcall
        exact ⟨Get_ok_sound hsound hget, hreg, hcons⟩
      | panic => simp [hget, Outcome.map] at hcall
      | diverges => simp [hget, Outcome.map] at hcall
    | acknowledge req =>
      simp only [Server.after, Server.Acknowledge, Outcome.map, Outcome.ok.injEq] at hcall
      subst hcall
      exact ⟨hsound, hreg, hcons⟩
    | getDeadLetters req =>
      simp only [Server.after, Server.GetDeadLetters, Outcome.map, Outcome.ok.injEq] at hcall
      subst hcall
      exact ⟨hsound, hreg, hcons⟩
    | registerConsumerGroup req =>
      simp only [Server.after, Server.RegisterConsumerGroup, Outcome.map,
        Outcome.ok.injEq] at hcall
      subst hcall
      exact ⟨hsound, hreg, mapKeys_mapSet_nodup _ _ _ hcons⟩
    | createTopic req =>
      simp only [Server.after, Server.CreateTopic] at hcall
      by_cases hc : req.topic = "" ∨ req.strategy = ""
      · simp only [if_pos hc, Outcome.map, Outcome.ok.injEq] at hcall
        subst hcall
        exact ⟨hsound, hreg, hcons⟩
      · simp only [if_neg hc] at hcall
        cases hget : mapGet s.topics req.topic with
        | some st =>
          simp only [hget, Outcome.map, Outcome.ok.injEq] at hcall
          subst hcall
          exact ⟨hsound, hreg, hcons⟩
        | none =>
          simp only [hget, Outcome.map, Outcome.ok.injEq] at hcall
          subst hcall
          have hnew := (mapGet_eq_none s.topics req.topic).1 hget
          exact ⟨hsound,
            RegistryOk_mapSet s.topics req.topic req.strategy hreg (fun e => hc (Or.inl e))
              (fun e => hc (Or.inr e)) hnew, hcons⟩
    | listTopics req =>
      simp only [Server.after, Server.ListTopics, Outcome.map, Outcome.ok.injEq] at hcall
      subst hcall
      exact ⟨hsound, hreg, hcons⟩
    | listConsumers req =>
      simp only [Server.after, Server.ListConsumers, Outcome.map, Outcome.ok.injEq] at hcall
      subst hcall
      exact ⟨hsound, hreg, hcons⟩

/-- C17. Publish validation: Publish with a missing (nil) message returns an error and the
server, its ring included, unchanged; Publish with a present message, on a ring of capacity
N ≥ 1 whose write cursor is not negative, never fails, returns success = true, and leaves
exactly the ring that Put of that single message leaves, topics and consumers untouched. -/
theorem publish_validation (s : Server) (t : String) (m : Message) (N : Nat)
    (hs : Shaped N s.rb) (hw : 0 ≤ s.rb.writeCursor) :
    s.Publish { topic := t, message := none } = .ok (s, .error "invalid message") ∧
    ∃ rb', Put s.rb [some m] = .ok rb' ∧
      s.Publish { topic := t, message := some m } =
        .ok ({ s with rb := rb' }, .response { success := true }) := by
  refine ⟨rfl, ?_⟩
  obtain ⟨w, hweq⟩ := Int.eq_ofNat_of_zero_le hw
  obtain ⟨rb', hput, _, _⟩ := Put_post w s.rb [some m] hs hweq
  exact ⟨rb', hput, by simp only [Server.Publish, hput]⟩

/-- Instance of C17: publishing a message with id 1 on a new server of capacity 8. -/
theorem publish_validation_witness :
    Shaped 8 (NewServer 8 3).rb ∧ (0 ≤ (NewServer 8 3).rb.writeCursor) ∧
    (NewServer 8 3).Publish { topic := "t", message := none } =
      .ok (NewServer 8 3, .error "invalid message") ∧
    ∃ rb', Put (NewServer 8 3).rb [some { id := "1", type := "", payload := [] }] = .ok rb' ∧
      (NewServer 8 3).Publish
          { topic := "t", message := some { id := "1", type := "", payload := [] } } =
        .ok ({ NewServer 8 3 with rb := rb' }, .response { success := true }) :=
  ⟨Shaped_fresh 3 (by decide), by decide,
    publish_validation (NewServer 8 3) "t" { id := "1", type := "", payload := [] } 8
      (Shaped_fresh 3 (by decide)) (by decide)⟩

/-- C18. Topic does not route: for every broker state, group index and batch size, Consume
gives the same reply and the same resulting state for any two topic strings, created or not,
and so does Publish for any message; and on a new broker of capacity N ≥ 1 with G ≥ 1 groups
a message published under topic t1 is delivered by a Consume of batch size 1 that names
topic t2 (`make` being able to allocate one entry, 1 ≤ maxCap). -/
theorem topic_does_not_route (maxCap : Nat) (s : Server) (t1 t2 : String) (g k : Int)
    (p : MsgPtr) (N G : Nat) (hN : 1 ≤ N) (hG : 1 ≤ G) (hcap : 1 ≤ maxCap) (m : Message) :
    s.Consume maxCap { topic := t1, consumerGroup := g, batchSize := k } =
      s.Consume maxCap { topic := t2, consumerGroup := g, batchSize := k } ∧
    s.Publish { topic := t1, message := p } = s.Publish { topic := t2, message := p } ∧
    ∃ s1 s2, (NewServer N G).Publish { topic := t1, message := some m } =
        .ok (s1, .response { success := true }) ∧
      s1.Consume maxCap { topic := t2, consumerGroup := 0, batchSize := 1 } =
        .ok (s2, .response { messages := [some m], success := true }) := by
  refine ⟨rfl, rfl, ?_⟩
  obtain ⟨rb1, rb2, hput, hget, _, _⟩ :=
    fresh_put_get (μ := MsgPtr) (G := G) (g := 0) hN hG [some m] (by simpa using hN)
      (by simpa using hcap)
  refine ⟨{ NewServer N G with rb := rb1 }, { NewServer N G with rb := rb2 }, ?_, ?_⟩
  · have : Put (NewServer N G).rb [some m] = .ok rb1 := hput
    simp only [Server.Publish, this]
  · have : Get maxCap rb1 1 0 = .ok (rb2, [some m]) := by simpa using hget
    simp only [Server.Consume, this]

/-- Instance of C18 on the reference broker (capacity 8, three groups): published under
orders, consumed under invoices. -/
theorem topic_does_not_route_witness :
    (1 ≤ 8) ∧ (1 ≤ 3) ∧ (1 ≤ exampleCap) ∧
    ∃ s1 s2, (NewServer 8 3).Publish
          { topic := "orders", message := some { id := "1", type := "", payload := [] } } =
        .ok (s1, .response { success := true }) ∧
      s1.Consume exampleCap { topic := "invoices", consumerGroup := 0, batchSize := 1 } =
        .ok (s2, .response
          { messages := [some { id := "1", type := "", payload := [] }], success := true }) :=
  ⟨by decide, by decide, by decide,
    (topic_does_not_route exampleCap (NewServer 8 3) "orders" "invoices" 0 1 none 8 3
      (by decide) (by decide) (by decide) { id := "1", type := "", payload := [] }).2.2⟩

/-- C19. No-op wire reservations: for every request and every broker state, Acknowledge
returns success = true and GetDeadLetters returns success = true with an empty message list,
and each returns the server as it was: ring, topic registry and consumer-group registry. In
particular what a Consume delivers is the same after an Acknowledge as without it. -/
theorem noop_wire_reservations (maxCap : Nat) (s : Server) (ack : AckRequest)
    (dl : DeadLetterRequest) (c : ConsumeRequest) :
    s.Acknowledge ack = .ok (s, .response { success := true }) ∧
    s.GetDeadLetters dl = .ok (s, .response { messages := [], success := true }) ∧
    (match s.Acknowledge ack with
      | .ok (s', _) => s'.Consume maxCap c
      | .panic => .panic
      | .diverges => .diverges) = s.Consume maxCap c ∧
    (match s.GetDeadLetters dl with
      | .ok (s', _) => s'.Consume maxCap c
      | .panic => .panic
      | .diverges => .diverges) = s.Consume maxCap c :=
  ⟨rfl, rfl, rfl, rfl⟩

/-! ## Concurrent producers -/

theorem Producers.run_cons {μ : Type} (st : Producers μ) (i : Nat) (rest : List Nat) :
    Producers.run st (i :: rest) =
      match st.step i with
      | .ok st' => Producers.run st' rest
      | .panic => .panic
      | .diverges => .diverges := rfl

/-- The store steps of a call that runs alone are the store loop of `Put`, and its last step
is the final store to the write cursor. -/
theorem run_alone_storing {μ : Type} (data : List μ) :
    ∀ (ds : List μ) (rb : RingBuffer μ) (w : Int) (lines : List (μ × Int)),
      Producers.run { rb := rb, calls := [{ data := data, pc := .storing w ds }],
                      logged := lines } (List.replicate (ds.length + 1) 0) =
        match putLoop ds rb w with
        | .ok (rb', w') =>
          .ok { rb := { rb' with writeCursor := w' },
                calls := [{ data := data, pc := .returned }],
                logged := lines ++ withSeq w ds }
        | .panic => .panic
        | .diverges => .diverges := by
  intro ds
  induction ds with
  | nil =>
    intro rb w lines
    simp [Producers.run, Producers.step, PutCall.step, putLoop, withSeq]
  | cons d ds ih =>
    intro rb w lines
    rw [List.length_cons, List.replicate_succ, Producers.run_cons]
    simp only [Producers.step, List.getElem?_cons_zero, PutCall.step, putLoop]
    by_cases hsz : rb.size = 0
    · simp [hsz]
    · simp only [if_neg hsz]
      cases h1 : idx? rb.buffer (w.tmod (rb.size : Int)) with
      | none => simp
      | some c =>
        cases h2 : idx? rb.available (w.tmod (rb.size : Int)) with
        | none => simp
        | some fl =>
          simp only [List.set_cons_zero]
          rw [ih]
          simp [withSeq]

/-- A `Put` call that runs alone, through its `len(data) + 2` atomic steps, does what the
sequential `Put` does, and logs each message with the sequence number `withSeq` gives it. -/
theorem run_alone_eq_Put {μ : Type} (rb : RingBuffer μ) (data : List μ) :
    Producers.run (Producers.start rb [data]) (List.replicate (data.length + 2) 0) =
      match Put rb data with
      | .ok rb' =>
        .ok { rb := rb', calls := [{ data := data, pc := .returned }],
              logged := withSeq rb.writeCursor data }
      | .panic => .panic
      | .diverges => .diverges := by
  rw [List.replicate_succ, Producers.run_cons]
  simp only [Producers.start, List.map_cons, List.map_nil, Producers.step,
    List.getElem?_cons_zero, PutCall.step, add_sub_cancel_right, List.set_cons_zero,
    List.append_nil]
  rw [run_alone_storing]
  simp only [Put, add_sub_cancel_right, List.nil_append]
  cases putLoop data { rb with writeCursor := rb.writeCursor + (data.length : Int) }
      rb.writeCursor with
  | ok p => rfl
  | panic => rfl
  | diverges => rfl

/-- C12 at a failing interleaving. Three Put calls of one message each (a, b, c) on a new
ring of capacity 8; calls 0 and 1 both do their fetch-and-add, call 1 stores b under
sequence number 1 and returns, call 0 stores a under 0, and then the final store of call 0
takes the write cursor from 2 back to 1. Call 2, started after that, is given sequence
number 1 again: c overwrites b in slot 1 and the cursor ends at 2 for three messages. -/
theorem concurrent_put_cursor_regresses :
    ∃ st1 st2 fin,
      Producers.run (Producers.start (NewRingBuffer 8 3) [["a"], ["b"], ["c"]])
        [0, 1, 1, 1, 0] = .ok st1 ∧
      st1.step 0 = .ok st2 ∧
      st1.rb.writeCursor = 2 ∧ st2.rb.writeCursor = 1 ∧
      Producers.run st2 [2, 2, 2] = .ok fin ∧
      fin.logged = [("b", 1), ("a", 0), ("c", 1)] ∧
      fin.calls.map (fun c => c.pc) = [.returned, .returned, .returned] ∧
      fin.rb.buffer = [some "a", some "c", none, none, none, none, none, none] ∧
      fin.rb.writeCursor = 2 :=
  ⟨_, _, _, rfl, rfl, rfl, rfl, rfl, rfl, rfl, rfl, rfl⟩

/-! ## The Avro validator -/

theorem containsText_self (s : String) : containsText s s :=
  ⟨"", "", by simp⟩

theorem containsText_append_left (s part : String) (extra : String)
    (h : containsText s part) : containsText (extra ++ s) part := by
  obtain ⟨a, b, rfl⟩ := h
  exact ⟨extra ++ a, b, by simp [String.append_assoc]⟩

theorem containsText_append_right (s part : String) (extra : String)
    (h : containsText s part) : containsText (s ++ extra) part := by
  obtain ⟨a, b, rfl⟩ := h
  exact ⟨a, b ++ extra, by simp [String.append_assoc]⟩

/-- Every joined element occurs in the result of `strings.Join`. -/
theorem stringsJoin_contains (sep e : String) :
    ∀ elems : List String, e ∈ elems → containsText (stringsJoin elems sep) e := by
  intro elems
  induction elems with
  | nil => intro h; cases h
  | cons x rest ih =>
    intro h
    cases rest with
    | nil =>
      simp only [List.mem_singleton] at h
      subst h
      exact containsText_self _
    | cons y r =>
      simp only [stringsJoin]
      rcases List.mem_cons.1 h with h | h
      · subst h
        rw [String.append_assoc]
        exact containsText_append_right _ _ _ (containsText_self _)
      · exact containsText_append_left _ _ _ (ih h)

/-- A schema field that the data lacks is reported by the top-level loop. -/
theorem fieldErrors_missing (fx : Fmt) (data : List (String × GoVal)) (f : AvroSchemaField) :
    ∀ fields : List AvroSchemaField, f ∈ fields → mapGet data f.name = none →
      ("missing required field: " ++ f.name) ∈ fieldErrors fx data fields := by
  intro fields
  induction fields with
  | nil => intro h; cases h
  | cons g rest ih =>
    intro h hmiss
    rcases List.mem_cons.1 h with h | h
    · subst h
      simp [fieldErrors, hmiss]
    · have := ih h hmiss
      simp only [fieldErrors]
      cases hg : mapGet data g.name with
      | none => exact List.mem_cons_of_mem _ this
      | some val =>
        simp only
        cases validateType fx g.type val g.name with
        | none => exact this
        | some err => exact List.mem_cons_of_mem _ this

/-- C20. Avro missing field: for every top-level record schema and every data map, if some
field named in the schema is not a key of the data map, ValidateAvro returns a non-nil error
whose message contains "missing required field: <name>" for each such field. -/
theorem avro_missing_field (unmarshal : List UInt8 → Except String AvroSchema) (fx : Fmt)
    (schemaJSON : List UInt8) (schema : AvroSchema) (data : List (String × GoVal))
    (hparse : unmarshal schemaJSON = .ok schema) (hrec : schema.type = .string "record")
    (hmiss : ∃ f ∈ schema.fields, mapGet data f.name = none) :
    ∃ msg, ValidateAvro unmarshal fx schemaJSON data = some msg ∧
      ∀ f ∈ schema.fields, mapGet data f.name = none →
        containsText msg ("missing required field: " ++ f.name) := by
  obtain ⟨f0, hf0, hm0⟩ := hmiss
  have hne : (fieldErrors fx data schema.fields).length > 0 :=
    List.length_pos_of_mem (fieldErrors_missing fx data f0 schema.fields hf0 hm0)
  refine ⟨"schema validation failed:\n" ++ stringsJoin (fieldErrors fx data schema.fields) "\n",
    ?_, ?_⟩
  · simp only [ValidateAvro, hparse, hrec, if_pos hne]
  · intro f hf hm
    exact containsText_append_left _ _ _
      (stringsJoin_contains _ _ _ (fieldErrors_missing fx data f schema.fields hf hm))

/-- TestValidateAvro_MissingFields as an instance of C20: the schema has fields id and age,
the data only id. -/
theorem avro_missing_field_witness :
    ((fun _ => Except.ok missingFieldsSchema : List UInt8 → Except String AvroSchema) [] =
      .ok missingFieldsSchema) ∧
    missingFieldsSchema.type = .string "record" ∧
    (∃ f ∈ missingFieldsSchema.fields, mapGet [("id", GoVal.string "123")] f.name = none) ∧
    ∃ msg, ValidateAvro (fun _ => .ok missingFieldsSchema) plainFmt []
        [("id", GoVal.string "123")] = some msg ∧
      ∀ f ∈ missingFieldsSchema.fields, mapGet [("id", GoVal.string "123")] f.name = none →
        containsText msg ("missing required field: " ++ f.name) :=
  have hmiss : ∃ f ∈ missingFieldsSchema.fields,
      mapGet [("id", GoVal.string "123")] f.name = none :=
    ⟨{ name := "age", type := .string "int" }, by simp [missingFieldsSchema], rfl⟩
  ⟨rfl, rfl, hmiss,
    avro_missing_field (fun _ => .ok missingFieldsSchema) plainFmt [] missingFieldsSchema
      [("id", GoVal.string "123")] rfl rfl hmiss⟩

/-! ## The Avro validator: what is accepted -/

theorem sizeOf_goIndex_lt (m : List (String × GoVal)) (k : String) :
    sizeOf (goIndex m k) < 1 + sizeOf m := by
  induction m with
  | nil => simp [goIndex]
  | cons p rest ih =>
    obtain ⟨k', v⟩ := p
    simp only [goIndex]
    split
    · simp; omega
    · simp; omega

theorem unionAccepts_iff (fx : Fmt) (value : GoVal) (fieldName : String) :
    ∀ ts : List GoVal, unionAccepts fx ts value fieldName = true ↔
      ∃ t ∈ ts, validateType fx t value fieldName = none := by
  intro ts
  induction ts with
  | nil => rw [unionAccepts]; simp
  | cons t rest ih =>
    rw [unionAccepts]
    by_cases h : validateType fx t value fieldName = none
    · simp [h]
    · have h2 : (validateType fx t value fieldName).isNone = false := by
        cases hv : validateType fx t value fieldName with
        | none => exact absurd hv h
        | some e => rfl
      simp only [h2, Bool.false_eq_true, if_false, ih, List.mem_cons, exists_eq_or_imp, h,
        false_or]

theorem errors_none_iff {α : Type} (errors : List String) (e : α) :
    (if errors.length > 0 then some e else none) = none ↔ errors = [] := by
  cases errors with
  | nil => simp
  | cons x xs => simp

theorem checkArrayType_none_iff (fx : Fmt) (schema : List (String × GoVal)) (value : GoVal)
    (fieldName : String) :
    checkArrayType fx schema value fieldName = none ↔
      ∃ arr, value = .slice arr ∧ ∀ iv ∈ arr.enum,
        validateType fx (goIndex schema "items") iv.2
          (fieldName ++ "[" ++ toString iv.1 ++ "]") = none := by
  rw [checkArrayType.eq_def]
  cases value with
  | slice arr =>
    simp only [errors_none_iff, List.filterMap_eq_nil_iff, GoVal.slice.injEq, exists_eq_left']
  | _ => simp

theorem checkMapType_none_iff (fx : Fmt) (schema : List (String × GoVal)) (value : GoVal)
    (fieldName : String) :
    checkMapType fx schema value fieldName = none ↔
      ∃ m, value = .map m ∧ ∀ kv ∈ m,
        validateType fx (goIndex schema "values") kv.2
          (fieldName ++ "[" ++ kv.1 ++ "]") = none := by
  rw [checkMapType.eq_def]
  cases value with
  | map m =>
    simp only [errors_none_iff, List.filterMap_eq_nil_iff, GoVal.map.injEq, exists_eq_left']
  | _ => simp

theorem recordErrors_nil_iff (fx : Fmt) (recordData : List (String × GoVal))
    (fieldName : String) :
    ∀ fields : List GoVal, recordErrors fx fields recordData fieldName = [] ↔
      ∀ fm nm, GoVal.map fm ∈ fields → goIndex fm "name" = .string nm →
        ∃ val, mapGet recordData nm = some val ∧
          validateType fx (goIndex fm "type") val (fieldName ++ "." ++ nm) = none := by
  intro fields
  induction fields with
  | nil => rw [recordErrors]; simp
  | cons field rest ih =>
    rw [recordErrors.eq_def]
    cases field with
    | map fm0 =>
      simp only [List.mem_cons, GoVal.map.injEq]
      cases hname : goIndex fm0 "name" with
      | string nm0 =>
        simp only
        cases hget : mapGet recordData nm0 with
        | none =>
          simp only [List.cons_ne_nil, false_iff, not_forall]
          exact ⟨fm0, nm0, Or.inl rfl, hname, by simp [hget]⟩
        | some val =>
          simp only
          cases hv : validateType fx (goIndex fm0 "type") val (fieldName ++ "." ++ nm0) with
          | some err =>
            simp only [List.cons_ne_nil, false_iff, not_forall]
            refine ⟨fm0, nm0, Or.inl rfl, hname, ?_⟩
            rintro ⟨val', hget', hv'⟩
            rw [hget] at hget'
            cases hget'
            rw [hv] at hv'
            cases hv'
          | none =>
            simp only [ih]
            constructor
            · intro h fm nm hmem hnm
              rcases hmem with rfl | hmem
              · rw [hname] at hnm
                cases hnm
                exact ⟨val, hget, hv⟩
              · exact h fm nm hmem hnm
            · intro h fm nm hmem hnm
              exact h fm nm (Or.inr hmem) hnm
      | _ =>
        simp only [ih]
        constructor
        · intro h fm nm hmem hnm
          rcases hmem with rfl | hmem
          · rw [hname] at hnm
            cases hnm
          · exact h fm nm hmem hnm
        · intro h fm nm hmem hnm
          exact h fm nm (Or.inr hmem) hnm
    | _ =>
      simp only [ih, List.mem_cons]
      constructor
      · intro h fm nm hmem hnm
        rcases hmem with hmem | hmem
        · cases hmem
        · exact h fm nm hmem hnm
      · intro h fm nm hmem hnm
        exact h fm nm (Or.inr hmem) hnm

theorem checkRecordType_none_iff (fx : Fmt) (schema : List (String × GoVal)) (value : GoVal)
    (fieldName : String) (fields : List GoVal) (hf : goIndex schema "fields" = .slice fields) :
    checkRecordType fx schema value fieldName = none ↔
      ∃ recordData, value = .map recordData ∧
        ∀ fm nm, GoVal.map fm ∈ fields → goIndex fm "name" = .string nm →
          ∃ val, mapGet recordData nm = some val ∧
            validateType fx (goIndex fm "type") val (fieldName ++ "." ++ nm) = none := by
  rw [checkRecordType.eq_def]
  cases value with
  | map recordData =>
    simp only [GoVal.map.injEq, exists_eq_left']
    split
    · rename_i fields' hf'
      rw [hf] at hf'
      cases hf'
      simp only [errors_none_iff, recordErrors_nil_iff]
    · rename_i hno
      exact absurd hf (hno fields)
  | _ => simp

/-- Whether a value is accepted for a type depends neither on the field name nor on the
formatter. -/
theorem validateType_indep_aux :
    ∀ (k : Nat) (t : GoVal), sizeOf t ≤ k → ∀ (fx fx' : Fmt) (v : GoVal) (n n' : String),
      (validateType fx t v n = none ↔ validateType fx' t v n' = none) := by
  intro k
  induction k with
  | zero =>
    intro t ht
    have : 0 < sizeOf t := by cases t <;> simp
    omega
  | succ k ih =>
    intro t ht fx fx' v n n'
    cases t with
    | string s =>
      rw [validateType, validateType]
      by_cases h : checkPrimitiveType s v = true <;> simp [h]
    | slice ts =>
      rw [validateType, validateType]
      have hu : unionAccepts fx ts v n = true ↔ unionAccepts fx' ts v n' = true := by
        rw [unionAccepts_iff, unionAccepts_iff]
        have hsz : ∀ t ∈ ts, sizeOf t ≤ k := by
          intro t hmem
          have := List.sizeOf_lt_of_mem hmem
          simp only [GoVal.slice.sizeOf_spec] at ht
          omega
        constructor
        · rintro ⟨t, hmem, h⟩
          exact ⟨t, hmem, (ih t (hsz t hmem) fx fx' v n n').1 h⟩
        · rintro ⟨t, hmem, h⟩
          exact ⟨t, hmem, (ih t (hsz t hmem) fx fx' v n n').2 h⟩
      by_cases h : unionAccepts fx ts v n = true
      · simp [h, hu.1 h]
      · have h' : ¬ unionAccepts fx' ts v n' = true := fun e => h (hu.2 e)
        simp [h, h']
    | map m =>
      have hsub : ∀ key, sizeOf (goIndex m key) ≤ k := by
        intro key
        have := sizeOf_goIndex_lt m key
        simp only [GoVal.map.sizeOf_spec] at ht
        omega
      rw [validateType.eq_def, validateType.eq_def]
      simp only
      cases hty : goIndex m "type" with
      | string typeName =>
        simp only
        by_cases ha : typeName = "array"
        · simp only [ha, if_true, checkArrayType_none_iff]
          constructor
          · rintro ⟨arr, rfl, h⟩
            exact ⟨arr, rfl, fun iv hiv => (ih _ (hsub "items") fx fx' _ _ _).1 (h iv hiv)⟩
          · rintro ⟨arr, rfl, h⟩
            exact ⟨arr, rfl, fun iv hiv => (ih _ (hsub "items") fx fx' _ _ _).2 (h iv hiv)⟩
        · by_cases hm : typeName = "map"
          · have hne : ¬ ("map" = "array") := by decide
            simp only [hm, hne, if_false, if_true, checkMapType_none_iff]
            constructor
            · rintro ⟨mv, rfl, h⟩
              exact ⟨mv, rfl, fun kv hkv => (ih _ (hsub "values") fx fx' _ _ _).1 (h kv hkv)⟩
            · rintro ⟨mv, rfl, h⟩
              exact ⟨mv, rfl, fun kv hkv => (ih _ (hsub "values") fx fx' _ _ _).2 (h kv hkv)⟩
          · by_cases hr : typeName = "record"
            · have hne1 : ¬ ("record" = "array") := by decide
              have hne2 : ¬ ("record" = "map") := by decide
              simp only [hr, hne1, hne2, if_false, if_true]
              cases hfl : goIndex m "fields" with
              | slice fields =>
                rw [checkRecordType_none_iff fx m v n fields hfl,
                  checkRecordType_none_iff fx' m v n' fields hfl]
                have hsz : ∀ fm, GoVal.map fm ∈ fields → sizeOf (goIndex fm "type") ≤ k := by
                  intro fm hmem
                  have h1 := List.sizeOf_lt_of_mem hmem
                  have h2 := sizeOf_goIndex_lt fm "type"
                  have h3 := sizeOf_goIndex_lt m "fields"
                  rw [hfl] at h3
                  simp only [GoVal.map.sizeOf_spec, GoVal.slice.sizeOf_spec] at ht h1 h3
                  omega
                constructor
                · rintro ⟨rd, rfl, h⟩
                  refine ⟨rd, rfl, fun fm nm hmem hnm => ?_⟩
                  obtain ⟨val, hg, hv⟩ := h fm nm hmem hnm
                  exact ⟨val, hg, (ih _ (hsz fm hmem) fx fx' _ _ _).1 hv⟩
                · rintro ⟨rd, rfl, h⟩
                  refine ⟨rd, rfl, fun fm nm hmem hnm => ?_⟩
                  obtain ⟨val, hg, hv⟩ := h fm nm hmem hnm
                  exact ⟨val, hg, (ih _ (hsz fm hmem) fx fx' _ _ _).2 hv⟩
              | _ =>
                rw [checkRecordType.eq_def, checkRecordType.eq_def]
                cases v <;> simp [hfl]
            · simp [ha, hm, hr]
      | _ => simp
    | _ => rw [validateType, validateType] <;> simp

theorem validateType_none_iff (fx : Fmt) (t v : GoVal) (n : String) :
    validateType fx t v n = none ↔ avroAccepts t v = true := by
  rw [avroAccepts, Option.isNone_iff_eq_none]
  exact validateType_indep_aux (sizeOf t) t (Nat.le_refl _) fx plainFmt v n ""

theorem avroAccepts_eq_false (fx : Fmt) (t v : GoVal) (n : String)
    (h : avroAccepts t v = false) : ∃ e, validateType fx t v n = some e := by
  cases hv : validateType fx t v n with
  | none =>
    rw [(validateType_none_iff fx t v n).1 hv] at h
    cases h
  | some e => exact ⟨e, rfl⟩

theorem fieldErrors_nil_iff (fx : Fmt) (data : List (String × GoVal)) :
    ∀ fields : List AvroSchemaField, fieldErrors fx data fields = [] ↔
      ∀ f ∈ fields, ∃ v, mapGet data f.name = some v ∧
        validateType fx f.type v f.name = none := by
  intro fields
  induction fields with
  | nil => simp [fieldErrors]
  | cons g rest ih =>
    simp only [fieldErrors, List.mem_cons, forall_eq_or_imp]
    cases hg : mapGet data g.name with
    | none => simp
    | some val =>
      simp only
      cases hv : validateType fx g.type val g.name with
      | none => simp [ih, hv]
      | some err => simp [hv]

theorem expected_string_text (p g : String) :
    p ++ "' has incorrect type: expected " ++ "string" ++ ", got " ++ g =
      p ++ "' has incorrect type: expected string, got " ++ g := by
  have h : "' has incorrect type: expected " ++ "string" ++ ", got " =
      "' has incorrect type: expected string, got " := by decide
  rw [← h]
  simp only [String.append_assoc]

theorem expected_int_text (p g : String) :
    p ++ "' has incorrect type: expected " ++ "int" ++ ", got " ++ g =
      p ++ "' has incorrect type: expected int, got " ++ g := by
  have h : "' has incorrect type: expected " ++ "int" ++ ", got " =
      "' has incorrect type: expected int, got " := by decide
  rw [← h]
  simp only [String.append_assoc]

theorem fieldErrors_rejected (fx : Fmt) (data : List (String × GoVal)) (f : AvroSchemaField)
    (v : GoVal) (e : String) :
    ∀ fields : List AvroSchemaField, f ∈ fields → mapGet data f.name = some v →
      validateType fx f.type v f.name = some e → e ∈ fieldErrors fx data fields := by
  intro fields
  induction fields with
  | nil => intro h; cases h
  | cons g rest ih =>
    intro h hget hv
    rcases List.mem_cons.1 h with h | h
    · subst h
      simp [fieldErrors, hget, hv]
    · have := ih h hget hv
      simp only [fieldErrors]
      cases hg : mapGet data g.name with
      | none => exact List.mem_cons_of_mem _ this
      | some val =>
        simp only
        cases validateType fx g.type val g.name with
        | none => exact this
        | some err => exact List.mem_cons_of_mem _ this

/-- What `ValidateAvro` returns for a schema that decodes to a record. -/
theorem ValidateAvro_record (unmarshal : List UInt8 → Except String AvroSchema) (fx : Fmt)
    (schemaJSON : List UInt8) (schema : AvroSchema) (data : List (String × GoVal))
    (hparse : unmarshal schemaJSON = .ok schema) (hrec : schema.type = .string "record") :
    ValidateAvro unmarshal fx schemaJSON data =
      if (fieldErrors fx data schema.fields).length > 0 then
        some ("schema validation failed:\n" ++
          stringsJoin (fieldErrors fx data schema.fields) "\n")
      else none := by
  simp only [ValidateAvro, hparse, hrec]

/-- A field error makes `ValidateAvro` fail with a message that contains it. -/
theorem ValidateAvro_error_of_mem (unmarshal : List UInt8 → Except String AvroSchema)
    (fx : Fmt) (schemaJSON : List UInt8) (schema : AvroSchema) (data : List (String × GoVal))
    (hparse : unmarshal schemaJSON = .ok schema) (hrec : schema.type = .string "record")
    (e0 : String) (h0 : e0 ∈ fieldErrors fx data schema.fields) :
    ValidateAvro unmarshal fx schemaJSON data =
        some ("schema validation failed:\n" ++
          stringsJoin (fieldErrors fx data schema.fields) "\n") ∧
      ∀ e ∈ fieldErrors fx data schema.fields,
        containsText ("schema validation failed:\n" ++
          stringsJoin (fieldErrors fx data schema.fields) "\n") e := by
  have hne : (fieldErrors fx data schema.fields).length > 0 := List.length_pos_of_mem h0
  refine ⟨?_, ?_⟩
  · rw [ValidateAvro_record unmarshal fx schemaJSON schema data hparse hrec, if_pos hne]
  · intro e he
    exact containsText_append_left _ _ _ (stringsJoin_contains _ _ _ he)

/-- C21. Avro valid input: for every top-level record schema whose fields all have a
primitive type among string, int and boolean, and every data map that holds, for each schema
field, a value of the declared type (a Go string, int or bool), ValidateAvro returns nil. -/
theorem avro_valid_input (unmarshal : List UInt8 → Except String AvroSchema) (fx : Fmt)
    (schemaJSON : List UInt8) (schema : AvroSchema) (data : List (String × GoVal))
    (hparse : unmarshal schemaJSON = .ok schema) (hrec : schema.type = .string "record")
    (hfields : ∀ f ∈ schema.fields, ∃ v, mapGet data f.name = some v ∧
      ((f.type = .string "string" ∧ v.isString = true) ∨
       (f.type = .string "int" ∧ v.isInt = true) ∨
       (f.type = .string "boolean" ∧ v.isBool = true))) :
    ValidateAvro unmarshal fx schemaJSON data = none := by
  have hnil : fieldErrors fx data schema.fields = [] := by
    rw [fieldErrors_nil_iff]
    intro f hf
    obtain ⟨v, hget, hty⟩ := hfields f hf
    refine ⟨v, hget, ?_⟩
    rcases hty with ⟨ht, hv⟩ | ⟨ht, hv⟩ | ⟨ht, hv⟩
    · rw [ht, validateType]
      cases v <;> simp_all [GoVal.isString, checkPrimitiveType]
    · rw [ht, validateType]
      cases v <;> simp_all [GoVal.isInt, checkPrimitiveType]
    · rw [ht, validateType]
      cases v <;> simp_all [GoVal.isBool, checkPrimitiveType]
  rw [ValidateAvro_record unmarshal fx schemaJSON schema data hparse hrec, hnil]
  rfl

/-- TestValidateAvro_ValidInput as an instance of C21. -/
theorem avro_valid_input_witness :
    ((fun _ => Except.ok validInputSchema : List UInt8 → Except String AvroSchema) [] =
      .ok validInputSchema) ∧
    validInputSchema.type = .string "record" ∧
    ValidateAvro (fun _ => .ok validInputSchema) plainFmt []
      [("id", .string "123"), ("age", .int 30), ("active", .bool true)] = none :=
  ⟨rfl, rfl,
    avro_valid_input (fun _ => .ok validInputSchema) plainFmt [] validInputSchema
      [("id", .string "123"), ("age", .int 30), ("active", .bool true)] rfl rfl (by
        intro f hf
        simp only [validInputSchema, List.mem_cons, List.mem_singleton, List.not_mem_nil,
          or_false] at hf
        rcases hf with rfl | rfl | rfl
        · exact ⟨.string "123", rfl, Or.inl ⟨rfl, rfl⟩⟩
        · exact ⟨.int 30, rfl, Or.inr (Or.inl ⟨rfl, rfl⟩)⟩
        · exact ⟨.bool true, rfl, Or.inr (Or.inr ⟨rfl, rfl⟩)⟩)⟩

/-- C22. Avro type mismatch: for every top-level record schema, if some present field
declared "string" holds a value that is not a string, or some present field declared "int"
holds a value that is not a number, ValidateAvro returns a non-nil error, and its message
contains the error of every such field, not only of the first. -/
theorem avro_type_mismatch (unmarshal : List UInt8 → Except String AvroSchema) (fx : Fmt)
    (schemaJSON : List UInt8) (schema : AvroSchema) (data : List (String × GoVal))
    (hparse : unmarshal schemaJSON = .ok schema) (hrec : schema.type = .string "record")
    (hbad : ∃ f ∈ schema.fields, ∃ v, mapGet data f.name = some v ∧
      ((f.type = .string "string" ∧ v.isString = false) ∨
       (f.type = .string "int" ∧ v.isNumber = false))) :
    ∃ msg, ValidateAvro unmarshal fx schemaJSON data = some msg ∧
      ∀ f ∈ schema.fields, ∀ v, mapGet data f.name = some v →
        ((f.type = .string "string" ∧ v.isString = false →
          containsText msg ("field '" ++ f.name ++
            "' has incorrect type: expected string, got " ++ goTypeName v)) ∧
         (f.type = .string "int" ∧ v.isNumber = false →
          containsText msg ("field '" ++ f.name ++
            "' has incorrect type: expected int, got " ++ goTypeName v))) := by
  have hs : ∀ (f : AvroSchemaField) (v : GoVal), f.type = .string "string" →
      v.isString = false →
      validateType fx f.type v f.name = some ("field '" ++ f.name ++
        "' has incorrect type: expected string, got " ++ goTypeName v) := by
    intro f v ht hv
    rw [ht, validateType, ← expected_string_text]
    cases v <;> simp_all [GoVal.isString, checkPrimitiveType]
  have hi : ∀ (f : AvroSchemaField) (v : GoVal), f.type = .string "int" →
      v.isNumber = false →
      validateType fx f.type v f.name = some ("field '" ++ f.name ++
        "' has incorrect type: expected int, got " ++ goTypeName v) := by
    intro f v ht hv
    rw [ht, validateType, ← expected_int_text]
    cases v <;> simp_all [GoVal.isNumber, checkPrimitiveType]
  obtain ⟨f0, hf0, v0, hget0, hty0⟩ := hbad
  have h0 : ∃ e0, e0 ∈ fieldErrors fx data schema.fields := by
    rcases hty0 with ⟨ht, hv⟩ | ⟨ht, hv⟩
    · exact ⟨_, fieldErrors_rejected fx data f0 v0 _ _ hf0 hget0 (hs f0 v0 ht hv)⟩
    · exact ⟨_, fieldErrors_rejected fx data f0 v0 _ _ hf0 hget0 (hi f0 v0 ht hv)⟩
  obtain ⟨e0, he0⟩ := h0
  obtain ⟨hval, hall⟩ :=
    ValidateAvro_error_of_mem unmarshal fx schemaJSON schema data hparse hrec e0 he0
  refine ⟨_, hval, ?_⟩
  intro f hf v hget
  refine ⟨?_, ?_⟩
  · rintro ⟨ht, hv⟩
    exact hall _ (fieldErrors_rejected fx data f v _ _ hf hget (hs f v ht hv))
  · rintro ⟨ht, hv⟩
    exact hall _ (fieldErrors_rejected fx data f v _ _ hf hget (hi f v ht hv))

/-- TestValidateAvro_IncorrectTypes as an instance of C22: id holds the int 123 and age the
string 30; the message reports both fields. -/
theorem avro_type_mismatch_witness :
    ((fun _ => Except.ok missingFieldsSchema : List UInt8 → Except String AvroSchema) [] =
      .ok missingFieldsSchema) ∧
    missingFieldsSchema.type = .string "record" ∧
    ∃ msg, ValidateAvro (fun _ => .ok missingFieldsSchema) plainFmt []
        [("id", .int 123), ("age", .string "30")] = some msg ∧
      containsText msg ("field '" ++ "id" ++
        "' has incorrect type: expected string, got " ++ goTypeName (.int 123)) ∧
      containsText msg ("field '" ++ "age" ++
        "' has incorrect type: expected int, got " ++ goTypeName (.string "30")) := by
  have hbad : ∃ f ∈ missingFieldsSchema.fields, ∃ v,
      mapGet [("id", GoVal.int 123), ("age", GoVal.string "30")] f.name = some v ∧
      ((f.type = .string "string" ∧ v.isString = false) ∨
       (f.type = .string "int" ∧ v.isNumber = false)) :=
    ⟨{ name := "id", type := .string "string" }, by simp [missingFieldsSchema], .int 123, rfl,
      Or.inl ⟨rfl, rfl⟩⟩
  obtain ⟨msg, hmsg, hall⟩ :=
    avro_type_mismatch (fun _ => .ok missingFieldsSchema) plainFmt [] missingFieldsSchema
      [("id", .int 123), ("age", .string "30")] rfl rfl hbad
  refine ⟨rfl, rfl, msg, hmsg, ?_, ?_⟩
  · exact (hall { name := "id", type := .string "string" } (by simp [missingFieldsSchema])
      (.int 123) rfl).1 ⟨rfl, rfl⟩
  · exact (hall { name := "age", type := .string "int" } (by simp [missingFieldsSchema])
      (.string "30") rfl).2 ⟨rfl, rfl⟩

theorem forall_enum_snd {α : Type} (P : α → Prop) (l : List α) :
    (∀ iv ∈ l.enum, P iv.2) ↔ ∀ x ∈ l, P x := by
  have h : ∀ x, x ∈ l ↔ ∃ iv ∈ l.enum, iv.2 = x := by
    intro x
    conv_lhs => rw [← List.enum_map_snd l]
    simp only [List.mem_map]
  constructor
  · intro hP x hx
    obtain ⟨iv, hiv, rfl⟩ := (h x).1 hx
    exact hP iv hiv
  · intro hP iv hiv
    exact hP iv.2 ((h iv.2).2 ⟨iv, hiv, rfl⟩)

theorem validateType_array_iff (fx : Fmt) (t : List (String × GoVal)) (v : GoVal)
    (n : String) (ht : goIndex t "type" = .string "array") :
    validateType fx (.map t) v n = none ↔
      ∃ arr, v = .slice arr ∧ ∀ x ∈ arr, avroAccepts (goIndex t "items") x = true := by
  rw [validateType.eq_def]
  simp only [ht, if_true, checkArrayType_none_iff, validateType_none_iff]
  constructor
  · rintro ⟨arr, rfl, h⟩
    exact ⟨arr, rfl, (forall_enum_snd (fun x => avroAccepts (goIndex t "items") x = true) arr).1 h⟩
  · rintro ⟨arr, rfl, h⟩
    exact ⟨arr, rfl, (forall_enum_snd (fun x => avroAccepts (goIndex t "items") x = true) arr).2 h⟩

theorem validateType_map_iff (fx : Fmt) (t : List (String × GoVal)) (v : GoVal)
    (n : String) (ht : goIndex t "type" = .string "map") :
    validateType fx (.map t) v n = none ↔
      ∃ m, v = .map m ∧ ∀ kv ∈ m, avroAccepts (goIndex t "values") kv.2 = true := by
  have hne : ¬ ("map" = "array") := by decide
  rw [validateType.eq_def]
  simp only [ht, hne, if_false, if_true, checkMapType_none_iff, validateType_none_iff]

theorem validateType_record_iff (fx : Fmt) (t : List (String × GoVal)) (v : GoVal)
    (n : String) (fields : List GoVal) (ht : goIndex t "type" = .string "record")
    (hfl : goIndex t "fields" = .slice fields) :
    validateType fx (.map t) v n = none ↔
      ∃ recordData, v = .map recordData ∧
        ∀ fm nm, GoVal.map fm ∈ fields → goIndex fm "name" = .string nm →
          ∃ val, mapGet recordData nm = some val ∧
            avroAccepts (goIndex fm "type") val = true := by
  have hne1 : ¬ ("record" = "array") := by decide
  have hne2 : ¬ ("record" = "map") := by decide
  rw [validateType.eq_def]
  simp only [ht, hne1, hne2, if_false, if_true]
  rw [checkRecordType_none_iff fx t v n fields hfl]
  simp only [validateType_none_iff]

/-- C23. Avro union: for a declared type that is a union (a list of types), validateType
accepts a value if and only if at least one member type of the union accepts it; with the
union [null, string, int] a string, an integer and nil are accepted and a boolean is
rejected. -/
theorem avro_union (fx : Fmt) (ts : List GoVal) (v : GoVal) (n : String) :
    (validateType fx (.slice ts) v n = none ↔ ∃ t ∈ ts, avroAccepts t v = true) ∧
    (∀ s, validateType fx (.slice [.string "null", .string "string", .string "int"])
      (.string s) n = none) ∧
    (∀ i, validateType fx (.slice [.string "null", .string "string", .string "int"])
      (.int i) n = none) ∧
    validateType fx (.slice [.string "null", .string "string", .string "int"]) .nil n = none ∧
    (∀ b, validateType fx (.slice [.string "null", .string "string", .string "int"])
      (.bool b) n ≠ none) := by
  have key : ∀ ts v, validateType fx (.slice ts) v n = none ↔
      ∃ t ∈ ts, avroAccepts t v = true := by
    intro ts v
    rw [validateType]
    by_cases h : unionAccepts fx ts v n = true
    · simp only [h, if_true, true_iff]
      obtain ⟨t, ht, hv⟩ := (unionAccepts_iff fx v n ts).1 h
      exact ⟨t, ht, (validateType_none_iff fx t v n).1 hv⟩
    · simp only [h]
      constructor
      · intro hc
        simp at hc
      · rintro ⟨t, ht, hv⟩
        exact absurd ((unionAccepts_iff fx v n ts).2
          ⟨t, ht, (validateType_none_iff fx t v n).2 hv⟩) h
  refine ⟨key ts v, ?_, ?_, ?_, ?_⟩
  · intro s
    exact (key _ _).2 ⟨.string "string", by simp,
      (validateType_none_iff plainFmt _ _ "").1 (by simp [validateType, checkPrimitiveType])⟩
  · intro i
    exact (key _ _).2 ⟨.string "int", by simp,
      (validateType_none_iff plainFmt _ _ "").1 (by simp [validateType, checkPrimitiveType])⟩
  · exact (key _ _).2 ⟨.string "null", by simp,
      (validateType_none_iff plainFmt _ _ "").1 (by simp [validateType, checkPrimitiveType])⟩
  · intro b hb
    obtain ⟨t, ht, hv⟩ := (key _ _).1 hb
    have hv' := (validateType_none_iff plainFmt t (.bool b) "").2 hv
    simp only [List.mem_cons, List.mem_singleton, List.not_mem_nil, or_false] at ht
    rcases ht with rfl | rfl | rfl <;> simp [validateType, checkPrimitiveType] at hv'

/-- C24. Avro containers: a type declared as an array with items T accepts a value if and
only if the value is a list and T accepts every element; a type declared as a map with values
T accepts a value if and only if the value is a string-keyed map and T accepts every value.
So a value that is not a list (resp. not a map) is always rejected. -/
theorem avro_containers (fx : Fmt) (t : List (String × GoVal)) (v : GoVal) (n : String) :
    (goIndex t "type" = .string "array" →
      (validateType fx (.map t) v n = none ↔
        ∃ arr, v = .slice arr ∧ ∀ x ∈ arr, avroAccepts (goIndex t "items") x = true)) ∧
    (goIndex t "type" = .string "map" →
      (validateType fx (.map t) v n = none ↔
        ∃ m, v = .map m ∧ ∀ kv ∈ m, avroAccepts (goIndex t "values") kv.2 = true)) :=
  ⟨validateType_array_iff fx t v n, validateType_map_iff fx t v n⟩

/-- TestValidateAvro_ArrayType and TestValidateAvro_MapType as instances of C24: the list of
two strings is accepted for an array of strings and a string is rejected; the map of two
strings is accepted for a map of strings and a string is rejected. -/
theorem avro_containers_witness :
    validateType plainFmt (.map [("type", .string "array"), ("items", .string "string")])
      (.slice [.string "tag1", .string "tag2"]) "tags" = none ∧
    validateType plainFmt (.map [("type", .string "array"), ("items", .string "string")])
      (.string "not_an_array") "tags" ≠ none ∧
    validateType plainFmt (.map [("type", .string "map"), ("values", .string "string")])
      (.map [("key1", .string "value1"), ("key2", .string "value2")]) "metadata" = none ∧
    validateType plainFmt (.map [("type", .string "map"), ("values", .string "string")])
      (.string "not_a_map") "metadata" ≠ none := by
  refine ⟨?_, ?_, ?_, ?_⟩
  · refine ((avro_containers plainFmt [("type", .string "array"), ("items", .string "string")]
      (.slice [.string "tag1", .string "tag2"]) "tags").1 rfl).2 ⟨_, rfl, ?_⟩
    intro x hx
    simp only [List.mem_cons, List.mem_singleton, List.not_mem_nil, or_false] at hx
    rcases hx with rfl | rfl <;>
      simp [avroAccepts, goIndex, validateType, checkPrimitiveType]
  · intro h
    obtain ⟨arr, harr, _⟩ := ((avro_containers plainFmt
      [("type", .string "array"), ("items", .string "string")]
      (.string "not_an_array") "tags").1 rfl).1 h
    cases harr
  · refine ((avro_containers plainFmt [("type", .string "map"), ("values", .string "string")]
      (.map [("key1", .string "value1"), ("key2", .string "value2")]) "metadata").2 rfl).2
      ⟨_, rfl, ?_⟩
    intro kv hkv
    simp only [List.mem_cons, List.mem_singleton, List.not_mem_nil, or_false] at hkv
    rcases hkv with rfl | rfl <;>
      simp [avroAccepts, goIndex, validateType, checkPrimitiveType]
  · intro h
    obtain ⟨m, hm, _⟩ := ((avro_containers plainFmt
      [("type", .string "map"), ("values", .string "string")]
      (.string "not_a_map") "metadata").2 rfl).1 h
    cases hm

/-- C25. Avro nested record: a field declared as a nested record (with a list of fields) is
accepted if and only if its value is a map in which every field declared by the nested schema
is present and accepted for its declared type; when the value of such a field of the
top-level schema is a map in which a declared nested field is missing or wrongly typed,
ValidateAvro returns an error. -/
theorem avro_nested_record (unmarshal : List UInt8 → Except String AvroSchema) (fx : Fmt)
    (schemaJSON : List UInt8) (schema : AvroSchema) (data : List (String × GoVal))
    (f : AvroSchemaField) (t : List (String × GoVal)) (fields : List GoVal)
    (ht : goIndex t "type" = .string "record") (hfl : goIndex t "fields" = .slice fields)
    (hparse : unmarshal schemaJSON = .ok schema) (hrec : schema.type = .string "record")
    (hf : f ∈ schema.fields) (hft : f.type = .map t) :
    (∀ v n, validateType fx (.map t) v n = none ↔
      ∃ recordData, v = .map recordData ∧
        ∀ fm nm, GoVal.map fm ∈ fields → goIndex fm "name" = .string nm →
          ∃ val, mapGet recordData nm = some val ∧
            avroAccepts (goIndex fm "type") val = true) ∧
    (∀ recordData fm nm, mapGet data f.name = some (.map recordData) →
      GoVal.map fm ∈ fields → goIndex fm "name" = .string nm →
      (mapGet recordData nm = none ∨
        ∃ val, mapGet recordData nm = some val ∧
          avroAccepts (goIndex fm "type") val = false) →
      ∃ msg, ValidateAvro unmarshal fx schemaJSON data = some msg) := by
  refine ⟨fun v n => validateType_record_iff fx t v n fields ht hfl, ?_⟩
  intro recordData fm nm hget hfm hnm hbad
  cases hv : validateType fx f.type (.map recordData) f.name with
  | none =>
    exfalso
    rw [hft] at hv
    obtain ⟨rd, hrd, hall⟩ := (validateType_record_iff fx t _ _ fields ht hfl).1 hv
    cases hrd
    obtain ⟨val, hval, hacc⟩ := hall fm nm hfm hnm
    rcases hbad with hnone | ⟨val', hval', hrej⟩
    · rw [hnone] at hval
      cases hval
    · rw [hval'] at hval
      cases hval
      rw [hacc] at hrej
      cases hrej
  | some e =>
    exact ⟨_, (ValidateAvro_error_of_mem unmarshal fx schemaJSON schema data hparse hrec e
      (fieldErrors_rejected fx data f _ e _ hf hget hv)).1⟩

/-- TestValidateAvro_NestedRecord as an instance of C25: the child with a string name and an
int age is accepted, and the child whose name is the int 10 makes ValidateAvro fail. -/
theorem avro_nested_record_witness :
    goIndex childRecordType "type" = .string "record" ∧
    validateType plainFmt (.map childRecordType)
      (.map [("name", .string "Alice"), ("age", .int 10)]) "child" = none ∧
    ∃ msg, ValidateAvro (fun _ => .ok nestedRecordSchema) plainFmt []
      [("child", .map [("name", .int 10), ("age", .string "ten")])] = some msg := by
  have h := avro_nested_record (fun _ => .ok nestedRecordSchema) plainFmt [] nestedRecordSchema
    [("child", .map [("name", .int 10), ("age", .string "ten")])]
    { name := "child", type := .map childRecordType } childRecordType
    [.map [("name", .string "name"), ("type", .string "string")],
     .map [("name", .string "age"), ("type", .string "int")]]
    rfl rfl rfl rfl (by simp [nestedRecordSchema]) rfl
  refine ⟨rfl, (h.1 _ _).2 ⟨_, rfl, ?_⟩, ?_⟩
  · intro fm nm hfm hnm
    simp only [List.mem_cons, List.mem_singleton, List.not_mem_nil, or_false,
      GoVal.map.injEq] at hfm
    rcases hfm with rfl | rfl
    · cases hnm
      exact ⟨.string "Alice", rfl, by simp [avroAccepts, goIndex, validateType,
        checkPrimitiveType]⟩
    · cases hnm
      exact ⟨.int 10, rfl, by simp [avroAccepts, goIndex, validateType,
        checkPrimitiveType]⟩
  · exact h.2 [("name", .int 10), ("age", .string "ten")]
      [("name", .string "name"), ("type", .string "string")] "name" rfl (by simp) rfl
      (Or.inr ⟨.int 10, rfl, by simp [avroAccepts, goIndex, validateType,
        checkPrimitiveType]⟩)

/-- C26. Avro schema rejection: when the schema bytes do not decode, and when the decoded
schema has a top-level type other than "record", ValidateAvro returns a non-nil error, and
it is the same error for every data map: no field of the data is examined. -/
theorem avro_schema_rejection (unmarshal : List UInt8 → Except String AvroSchema) (fx : Fmt)
    (schemaJSON : List UInt8)
    (h : (∃ e, unmarshal schemaJSON = .error e) ∨
      (∃ schema, unmarshal schemaJSON = .ok schema ∧ schema.type ≠ .string "record")) :
    ∃ msg, ∀ data, ValidateAvro unmarshal fx schemaJSON data = some msg := by
  rcases h with ⟨e, he⟩ | ⟨schema, hs, hne⟩
  · exact ⟨"invalid Avro schema format: " ++ e, fun data => by simp only [ValidateAvro, he]⟩
  · refine ⟨"only 'record' type schemas are supported at the top level, found: " ++
      fx.verbV schema.type, fun data => ?_⟩
    simp only [ValidateAvro, hs]

/-- TestValidateAvro_InvalidSchema and TestValidateAvro_NonRecordSchema as instances of
C26. -/
theorem avro_schema_rejection_witness :
    (∃ msg, ∀ data, ValidateAvro (fun _ => .error "unexpected end of JSON input") plainFmt []
      data = some msg) ∧
    (∃ msg, ∀ data, ValidateAvro (fun _ => .ok nonRecordSchema) plainFmt [] data = some msg) :=
  ⟨avro_schema_rejection (fun _ => .error "unexpected end of JSON input") plainFmt []
      (Or.inl ⟨_, rfl⟩),
    avro_schema_rejection (fun _ => .ok nonRecordSchema) plainFmt []
      (Or.inr ⟨nonRecordSchema, rfl, by simp [nonRecordSchema]⟩)⟩

/-! ## The JSON Schema validator -/

theorem validateJSONSchema_nil (lib : JsonLib) (data : GoVal) (path : String) :
    validateJSONSchema lib none data path = .panic := by
  rw [validateJSONSchema]

theorem itemsLoop_nil (lib : JsonLib) (v : GoVal) (rest : List GoVal) (path : String)
    (i : Nat) : itemsLoop lib none (v :: rest) path i = .panic := by
  rw [itemsLoop, validateJSONSchema_nil]

theorem uniqueLoop_ne_diverges : ∀ (arr seen : List GoVal), uniqueLoop arr seen ≠ .diverges := by
  intro arr
  induction arr with
  | nil => intro seen; simp [uniqueLoop]
  | cons v rest ih =>
    intro seen
    simp only [uniqueLoop]
    split
    · split
      · simp
      · exact ih _
    · simp

theorem validateJSONSchema_no_items (lib : JsonLib) (s : JSONSchema) (v : GoVal)
    (rest : List GoVal) (path : String) (hp : s.properties = none) (hi : s.items = none) :
    validateJSONSchema lib (some s) (.slice (v :: rest)) path = .panic := by
  rw [validateJSONSchema]
  simp only [hi, itemsLoop_nil]
  split
  · rename_i props h
    rw [hp] at h
    cases h
  · cases hu : uniqueErrors s (v :: rest) path with
    | ok u => simp
    | panic => simp
    | diverges =>
      exfalso
      simp only [uniqueErrors] at hu
      split at hu
      · have := uniqueLoop_ne_diverges (v :: rest) []
        split at hu <;> simp_all
      · cases hu

theorem validateJSONSchema_object (lib : JsonLib) (s : JSONSchema)
    (props : List (String × Option JSONSchema)) (obj : List (String × GoVal)) (path : String)
    (hp : s.properties = some props) :
    validateJSONSchema lib (some s) (.map obj) path =
      match propertiesLoop lib props obj path with
      | .ok properties =>
        .ok (requiredErrors s (.map obj) path ++ properties ++
          (typeErrors lib s (.map obj) path ++ enumErrors lib s (.map obj) path ++
            numberErrors lib s (.map obj) path ++ stringErrors lib s (.map obj) path))
      | .panic => .panic
      | .diverges => .diverges := by
  rw [validateJSONSchema]
  simp only
  split
  · rename_i props' h
    rw [hp] at h
    cases h
    rfl
  · rename_i h
    rw [hp] at h
    cases h

theorem validateJSONSchema_not_object (lib : JsonLib) (s : JSONSchema)
    (props : List (String × Option JSONSchema)) (data : GoVal) (path : String)
    (hp : s.properties = some props) (hd : ∀ obj, data ≠ .map obj) :
    validateJSONSchema lib (some s) data path =
      .ok (requiredErrors s data path ++ [path ++ ": expected an object"]) := by
  rw [validateJSONSchema]
  simp only
  split
  · rfl
  · rename_i h
    rw [hp] at h
    cases h

theorem validateJSONSchema_plain (lib : JsonLib) (s : JSONSchema) (data : GoVal)
    (path : String) (hp : s.properties = none) (hd : ∀ arr, data ≠ .slice arr) :
    validateJSONSchema lib (some s) data path =
      .ok (requiredErrors s data path ++
        (typeErrors lib s data path ++ enumErrors lib s data path ++
          numberErrors lib s data path ++ stringErrors lib s data path)) := by
  rw [validateJSONSchema]
  simp only
  split
  · rename_i props h
    rw [hp] at h
    cases h
  · rfl

theorem validateJSONSchema_array (lib : JsonLib) (s : JSONSchema) (arr : List GoVal)
    (path : String) (hp : s.properties = none) :
    validateJSONSchema lib (some s) (.slice arr) path =
      match uniqueErrors s arr path with
      | .ok unique =>
        match itemsLoop lib s.items arr path 0 with
        | .ok items =>
          .ok (requiredErrors s (.slice arr) path ++
            (typeErrors lib s (.slice arr) path ++ enumErrors lib s (.slice arr) path ++
              numberErrors lib s (.slice arr) path ++ stringErrors lib s (.slice arr) path ++
              itemCountErrors s arr path ++ unique ++ items))
        | .panic => .panic
        | .diverges => .diverges
      | .panic => .panic
      | .diverges => .diverges := by
  rw [validateJSONSchema]
  simp only
  split
  · rename_i props h
    rw [hp] at h
    cases h
  · cases uniqueErrors s arr path with
    | ok u => cases itemsLoop lib s.items arr path 0 <;> rfl
    | panic => rfl
    | diverges => rfl

theorem propertiesLoop_present (lib : JsonLib) (field : String) (propSchema : Option JSONSchema)
    (rest : List (String × Option JSONSchema)) (obj : List (String × GoVal)) (path : String)
    (value : GoVal) (h : mapGet obj field = some value) :
    propertiesLoop lib ((field, propSchema) :: rest) obj path =
      match validateJSONSchema lib propSchema value (path ++ "." ++ field) with
      | .ok errs =>
        match propertiesLoop lib rest obj path with
        | .ok more => .ok (errs ++ more)
        | .panic => .panic
        | .diverges => .diverges
      | .panic => .panic
      | .diverges => .diverges := by
  rw [propertiesLoop]
  simp only [h]

theorem propertiesLoop_nil (lib : JsonLib) (obj : List (String × GoVal)) (path : String) :
    propertiesLoop lib [] obj path = .ok [] := by
  rw [propertiesLoop]

/-- What a normal return of `validateJSONSchema` has appended: either the schema has
properties and the data are not an object, and then the required-field errors and
"expected an object"; or the errors of all blocks in the order of the code. -/
theorem validateJSONSchema_ok_shape (lib : JsonLib) (s : JSONSchema) (data : GoVal)
    (path : String) (errs : List String)
    (h : validateJSONSchema lib (some s) data path = .ok errs) :
    (∃ props, s.properties = some props ∧ (∀ obj, data ≠ .map obj) ∧
      errs = requiredErrors s data path ++ [path ++ ": expected an object"]) ∨
    (∃ pe tail, errs = requiredErrors s data path ++ pe ++
        (typeErrors lib s data path ++ enumErrors lib s data path ++
          numberErrors lib s data path ++ stringErrors lib s data path) ++ tail ∧
      (∀ props obj, s.properties = some props → data = .map obj →
        propertiesLoop lib props obj path = .ok pe) ∧
      (∀ arr, data = .slice arr → ∃ u it, uniqueErrors s arr path = .ok u ∧
        itemsLoop lib s.items arr path 0 = .ok it ∧
        tail = itemCountErrors s arr path ++ u ++ it)) := by
  cases hp : s.properties with
  | some props =>
    by_cases hd : ∃ obj, data = .map obj
    · obtain ⟨obj, rfl⟩ := hd
      right
      rw [validateJSONSchema_object lib s props obj path hp] at h
      cases hl : propertiesLoop lib props obj path with
      | ok pe =>
        rw [hl] at h
        simp only [Outcome.ok.injEq] at h
        refine ⟨pe, [], ?_, ?_, ?_⟩
        · rw [← h]
          simp
        · intro props' obj' hp' hobj
          cases hp'
          cases hobj
          exact hl
        · intro arr harr
          cases harr
      | panic => rw [hl] at h; cases h
      | diverges => rw [hl] at h; cases h
    · left
      have hd' : ∀ obj, data ≠ .map obj := fun obj e => hd ⟨obj, e⟩
      rw [validateJSONSchema_not_object lib s props data path hp hd'] at h
      simp only [Outcome.ok.injEq] at h
      exact ⟨props, rfl, hd', h.symm⟩
  | none =>
    right
    by_cases hd : ∃ arr, data = .slice arr
    · obtain ⟨arr, rfl⟩ := hd
      rw [validateJSONSchema_array lib s arr path hp] at h
      cases hu : uniqueErrors s arr path with
      | ok u =>
        rw [hu] at h
        cases hi : itemsLoop lib s.items arr path 0 with
        | ok it =>
          rw [hi] at h
          simp only [Outcome.ok.injEq] at h
          refine ⟨[], itemCountErrors s arr path ++ u ++ it, ?_, ?_, ?_⟩
          · rw [← h]
            simp
          · intro props' obj' hp' _
            cases hp'
          · intro arr' harr
            cases harr
            exact ⟨u, it, hu, hi, rfl⟩
        | panic => rw [hi] at h; cases h
        | diverges => rw [hi] at h; cases h
      | panic => rw [hu] at h; cases h
      | diverges => rw [hu] at h; cases h
    · have hd' : ∀ arr, data ≠ .slice arr := fun arr e => hd ⟨arr, e⟩
      rw [validateJSONSchema_plain lib s data path hp hd'] at h
      simp only [Outcome.ok.injEq] at h
      refine ⟨[], [], ?_, ?_, ?_⟩
      · rw [← h]
        simp
      · intro props' obj' hp' _
        cases hp'
      · intro arr harr
        exact absurd harr (hd' arr)

theorem propertiesLoop_ok_mem (lib : JsonLib) (obj : List (String × GoVal)) (path : String)
    (field : String) (propSchema : Option JSONSchema) (value : GoVal)
    (hv : mapGet obj field = some value) :
    ∀ (props : List (String × Option JSONSchema)) (pe : List String),
      propertiesLoop lib props obj path = .ok pe → (field, propSchema) ∈ props →
      ∃ errs, validateJSONSchema lib propSchema value (path ++ "." ++ field) = .ok errs ∧
        ∀ e ∈ errs, e ∈ pe := by
  intro props
  induction props with
  | nil => intro pe _ hmem; cases hmem
  | cons p rest ih =>
    obtain ⟨f, ps⟩ := p
    intro pe h hmem
    rw [propertiesLoop] at h
    cases hg : mapGet obj f with
    | none =>
      simp only [hg] at h
      rcases List.mem_cons.1 hmem with heq | hmem'
      · cases heq
        rw [hv] at hg
        cases hg
      · exact ih pe h hmem'
    | some val =>
      simp only [hg] at h
      cases h1 : validateJSONSchema lib ps val (path ++ "." ++ f) with
      | ok errs1 =>
        rw [h1] at h
        cases h2 : propertiesLoop lib rest obj path with
        | ok more =>
          rw [h2] at h
          simp only [Outcome.ok.injEq] at h
          rcases List.mem_cons.1 hmem with heq | hmem'
          · cases heq
            rw [hv] at hg
            cases hg
            exact ⟨errs1, h1, fun e he => by rw [← h]; exact List.mem_append_left _ he⟩
          · obtain ⟨errs, hok, hsub⟩ := ih more h2 hmem'
            exact ⟨errs, hok, fun e he => by
              rw [← h]; exact List.mem_append_right _ (hsub e he)⟩
        | panic => rw [h2] at h; cases h
        | diverges => rw [h2] at h; cases h
      | panic => rw [h1] at h; cases h
      | diverges => rw [h1] at h; cases h

theorem requiredErrors_missing (s : JSONSchema) (obj : List (String × GoVal)) (path : String)
    (field : String) (hf : field ∈ s.required) (hm : mapGet obj field = none) :
    (path ++ ": missing required field '" ++ field ++ "'") ∈
      requiredErrors s (.map obj) path := by
  simp only [requiredErrors, List.mem_filterMap]
  exact ⟨field, hf, by simp only [hm]⟩

/-- A missing required key is reported whenever `validateJSONSchema` returns normally. -/
theorem validateJSONSchema_required (lib : JsonLib) (s : JSONSchema)
    (obj : List (String × GoVal)) (path : String) (errs : List String) (field : String)
    (hf : field ∈ s.required) (hm : mapGet obj field = none)
    (h : validateJSONSchema lib (some s) (.map obj) path = .ok errs) :
    (path ++ ": missing required field '" ++ field ++ "'") ∈ errs := by
  have hr := requiredErrors_missing s obj path field hf hm
  rcases validateJSONSchema_ok_shape lib s _ path errs h with
    ⟨_, _, _, he⟩ | ⟨pe, tail, he, _, _⟩
  · rw [he]
    exact List.mem_append_left _ hr
  · rw [he]
    simp only [List.append_assoc]
    exact List.mem_append_left _ hr

/-- The errors of a present property are among those of the object, whenever
`validateJSONSchema` returns normally on the object. -/
theorem validateJSONSchema_property (lib : JsonLib) (s : JSONSchema)
    (props : List (String × Option JSONSchema)) (obj : List (String × GoVal)) (path : String)
    (errs : List String) (field : String) (propSchema : Option JSONSchema) (value : GoVal)
    (hp : s.properties = some props) (hmem : (field, propSchema) ∈ props)
    (hv : mapGet obj field = some value)
    (h : validateJSONSchema lib (some s) (.map obj) path = .ok errs) :
    ∃ sub, validateJSONSchema lib propSchema value (path ++ "." ++ field) = .ok sub ∧
      ∀ e ∈ sub, e ∈ errs := by
  rcases validateJSONSchema_ok_shape lib s _ path errs h with
    ⟨_, _, hno, _⟩ | ⟨pe, tail, he, hloop, _⟩
  · exact absurd rfl (hno obj)
  · obtain ⟨sub, hsub, hin⟩ := propertiesLoop_ok_mem lib obj path field propSchema value hv
      props pe (hloop props obj hp rfl) hmem
    refine ⟨sub, hsub, fun e he' => ?_⟩
    rw [he]
    simp only [List.append_assoc]
    exact List.mem_append_right _ (List.mem_append_left _ (hin e he'))

/-- A value that the declared type does not admit is reported (or, under a schema with
properties, "expected an object" is) whenever `validateJSONSchema` returns normally. -/
theorem validateJSONSchema_type (lib : JsonLib) (s : JSONSchema) (data : GoVal)
    (path : String) (errs : List String) (ht : s.type ≠ .nil)
    (hv : validateJSONType s.type data = false)
    (h : validateJSONSchema lib (some s) data path = .ok errs) : errs ≠ [] := by
  have hte : typeErrors lib s data path =
      [path ++ ": incorrect type, expected " ++ lib.verbV s.type] := by
    cases hty : s.type <;> simp_all [typeErrors]
  rcases validateJSONSchema_ok_shape lib s _ path errs h with
    ⟨_, _, _, he⟩ | ⟨pe, tail, he, _, _⟩
  · rw [he]
    simp
  · rw [he, hte]
    simp

/-- A `float64` below the minimum or above the maximum is reported (or, under a schema with
properties, "expected an object" is) whenever `validateJSONSchema` returns normally. -/
theorem validateJSONSchema_float_bound (lib : JsonLib) (s : JSONSchema) (x : Rat)
    (path : String) (errs : List String)
    (hb : (∃ m, s.minimum = some m ∧ x < m) ∨ (∃ m, s.maximum = some m ∧ x > m))
    (h : validateJSONSchema lib (some s) (.float64 x) path = .ok errs) : errs ≠ [] := by
  have hne : numberErrors lib s (.float64 x) path ≠ [] := by
    simp only [numberErrors]
    rcases hb with ⟨m, hm, hlt⟩ | ⟨m, hm, hgt⟩
    · simp [hm, hlt]
    · simp [hm, hgt]
  rcases validateJSONSchema_ok_shape lib s _ path errs h with
    ⟨_, _, _, he⟩ | ⟨pe, tail, he, _, _⟩
  · rw [he]
    simp
  · rw [he]
    simp [hne]

/-- The numeric bounds are not applied to a Go `int`: under a schema without properties and
enum whose type is "integer", every `int` passes, whatever `minimum` and `maximum` are. -/
theorem validateJSONSchema_int_unbounded (lib : JsonLib) (s : JSONSchema) (n : Int)
    (path : String) (hp : s.properties = none) (ht : s.type = .string "integer")
    (he : s.enum = []) :
    validateJSONSchema lib (some s) (.int n) path = .ok [] := by
  rw [validateJSONSchema_plain lib s _ path hp (by intro arr h; cases h)]
  simp [requiredErrors, typeErrors, enumErrors, numberErrors, stringErrors, ht, he,
    validateJSONType, checkJsonPrimitiveType]

/-- An array shorter than `minItems` is reported (or, under a schema with properties,
"expected an object" is) whenever `validateJSONSchema` returns normally. -/
theorem validateJSONSchema_min_items (lib : JsonLib) (s : JSONSchema) (arr : List GoVal)
    (path : String) (errs : List String) (n : Int) (hn : s.minItems = some n)
    (hlt : (arr.length : Int) < n)
    (h : validateJSONSchema lib (some s) (.slice arr) path = .ok errs) : errs ≠ [] := by
  have hne : itemCountErrors s arr path ≠ [] := by
    simp [itemCountErrors, hn, hlt]
  rcases validateJSONSchema_ok_shape lib s _ path errs h with
    ⟨_, _, _, he⟩ | ⟨pe, tail, he, _, htail⟩
  · rw [he]
    simp
  · obtain ⟨u, it, _, _, ht⟩ := htail arr rfl
    rw [he, ht]
    simp [hne]

/-- A repeated hashable item under `uniqueItems` is reported (or, under a schema with
properties, "expected an object" is) whenever `validateJSONSchema` returns normally. -/
theorem validateJSONSchema_unique_items (lib : JsonLib) (s : JSONSchema) (arr : List GoVal)
    (path : String) (errs : List String) (hu : s.uniqueItems = true)
    (hdup : uniqueLoop arr [] = .ok true)
    (h : validateJSONSchema lib (some s) (.slice arr) path = .ok errs) : errs ≠ [] := by
  have hue : uniqueErrors s arr path = .ok [path ++ ": array must have unique items"] := by
    simp [uniqueErrors, hu, hdup]
  rcases validateJSONSchema_ok_shape lib s _ path errs h with
    ⟨_, _, _, he⟩ | ⟨pe, tail, he, _, htail⟩
  · rw [he]
    simp
  · obtain ⟨u, it, hu', _, ht⟩ := htail arr rfl
    rw [hue] at hu'
    cases hu'
    rw [he, ht]
    simp

/-- When `validateJSONSchema` can only return with errors, `ValidateJSON` never returns
nil. -/
theorem ValidateJSON_never_nil (unmarshal : List UInt8 → Except String JSONSchema)
    (lib : JsonLib) (schemaJSON : List UInt8) (schema : JSONSchema)
    (data : List (String × GoVal)) (hparse : unmarshal schemaJSON = .ok schema)
    (h : ∀ errs, validateJSONSchema lib (some schema) (.map data) "" = .ok errs → errs ≠ []) :
    ValidateJSON unmarshal lib schemaJSON data ≠ .ok none := by
  simp only [ValidateJSON, hparse]
  cases hv : validateJSONSchema lib (some schema) (.map data) "" with
  | ok errs =>
    have hne := h errs hv
    have hpos : errs.length > 0 := List.length_pos.2 hne
    simp [hpos]
  | panic => simp
  | diverges => simp

theorem ValidateJSON_of_panic (unmarshal : List UInt8 → Except String JSONSchema)
    (lib : JsonLib) (schemaJSON : List UInt8) (schema : JSONSchema)
    (data : List (String × GoVal)) (hparse : unmarshal schemaJSON = .ok schema)
    (h : validateJSONSchema lib (some schema) (.map data) "" = .panic) :
    ValidateJSON unmarshal lib schemaJSON data = .panic := by
  simp only [ValidateJSON, hparse, h]

theorem ValidateJSON_of_ok_nil (unmarshal : List UInt8 → Except String JSONSchema)
    (lib : JsonLib) (schemaJSON : List UInt8) (schema : JSONSchema)
    (data : List (String × GoVal)) (hparse : unmarshal schemaJSON = .ok schema)
    (h : validateJSONSchema lib (some schema) (.map data) "" = .ok []) :
    ValidateJSON unmarshal lib schemaJSON data = .ok none := by
  simp only [ValidateJSON, hparse, h]
  rfl

/-- C27 at a failing input. The schema requires `name` and declares a property `tags` of
type array without `items`; the data object lacks `name` and holds a one-item list under
`tags`. ValidateJSON returns no error: it stops with a runtime fault, the nil `schema.Items`
being dereferenced in the loop over the list. -/
theorem json_required_panics :
    "name" ∈ missingNameSchema.required ∧
    mapGet [("tags", GoVal.slice [.string "x"])] "name" = none ∧
    ∀ lib, ValidateJSON (fun _ => .ok missingNameSchema) lib []
      [("tags", .slice [.string "x"])] = .panic := by
  refine ⟨by simp [missingNameSchema], rfl, fun lib => ?_⟩
  have h1 : validateJSONSchema lib (some missingNameSchema)
      (.map [("tags", .slice [.string "x"])]) "" = .panic := by
    rw [validateJSONSchema_object lib missingNameSchema _ _ _ rfl,
      propertiesLoop_present lib "tags" _ _ [("tags", .slice [.string "x"])] ""
        (.slice [.string "x"]) rfl,
      validateJSONSchema_no_items lib _ (.string "x") [] _ rfl rfl]
  exact ValidateJSON_of_panic _ lib [] missingNameSchema _ rfl h1

/-- C28 at a failing input. The schema declares type string for the property `p`; the data
object holds a one-item list under `p`, which is not of type string. ValidateJSON returns no
error: after the type check it runs the loop over the list, where the nil `schema.Items` is
dereferenced, a runtime fault. -/
theorem json_type_mismatch_panics :
    validateJSONType (.string "string") (.slice [.float64 1]) = false ∧
    ∀ lib, ValidateJSON (fun _ => .ok stringPropertySchema) lib []
      [("p", .slice [.float64 1])] = .panic := by
  refine ⟨by simp [validateJSONType, checkJsonPrimitiveType], fun lib => ?_⟩
  have h1 : validateJSONSchema lib (some stringPropertySchema)
      (.map [("p", .slice [.float64 1])]) "" = .panic := by
    rw [validateJSONSchema_object lib stringPropertySchema _ _ _ rfl,
      propertiesLoop_present lib "p" _ _ [("p", .slice [.float64 1])] ""
        (.slice [.float64 1]) rfl,
      validateJSONSchema_no_items lib _ (.float64 1) [] _ rfl rfl]
  exact ValidateJSON_of_panic _ lib [] stringPropertySchema _ rfl h1

/-- C29 at a failing input. The property `age` is declared of type integer with minimum 10
and the data hold the Go int 5 under `age`: ValidateJSON returns nil, the bound being checked
for a `float64` only. -/
theorem json_int_below_minimum_accepted :
    ((5 : Rat) < 10) ∧
    ∀ lib, ValidateJSON (fun _ => .ok integerMinimumSchema) lib []
      [("age", .int 5)] = .ok none := by
  refine ⟨by norm_num, fun lib => ?_⟩
  have h0 : validateJSONSchema lib
      (some { emptySchema with type := GoVal.string "integer", minimum := some 10 })
      (.int 5) ("" ++ "." ++ "age") = .ok [] :=
    validateJSONSchema_int_unbounded lib _ 5 _ rfl rfl rfl
  have h1 : validateJSONSchema lib (some integerMinimumSchema)
      (.map [("age", .int 5)]) "" = .ok [] := by
    rw [validateJSONSchema_object lib integerMinimumSchema _ _ _ rfl,
      propertiesLoop_present lib "age" _ _ [("age", .int 5)] "" (.int 5) rfl, h0,
      propertiesLoop_nil]
    simp [requiredErrors, typeErrors, enumErrors, numberErrors, stringErrors, emptySchema,
      integerMinimumSchema]
  exact ValidateJSON_of_ok_nil _ lib [] integerMinimumSchema _ rfl h1

/-- C30 at failing inputs. Under a property of type array with `minItems: 2` and no `items`
the one-item list, and under one with `uniqueItems: true` and no `items` the list of two
equal numbers, are not rejected with an error: ValidateJSON stops with a runtime fault on the
nil `schema.Items`. With `items` declared, a list that holds a list before two equal numbers
faults as well, the list being used as a map key. -/
theorem json_array_constraints_panic :
    ∀ lib,
      ValidateJSON (fun _ => .ok shortArraySchema) lib [] [("xs", .slice [.float64 1])] =
        .panic ∧
      ValidateJSON (fun _ => .ok uniqueArraySchema) lib []
        [("xs", .slice [.float64 1, .float64 1])] = .panic ∧
      ValidateJSON (fun _ => .ok uniqueItemsSchema) lib []
        [("xs", .slice [.slice [], .float64 1, .float64 1])] = .panic := by
  intro lib
  have h1 : validateJSONSchema lib (some shortArraySchema)
      (.map [("xs", .slice [.float64 1])]) "" = .panic := by
    rw [validateJSONSchema_object lib shortArraySchema _ _ _ rfl,
      propertiesLoop_present lib "xs" _ _ [("xs", .slice [.float64 1])] ""
        (.slice [.float64 1]) rfl,
      validateJSONSchema_no_items lib _ (.float64 1) [] _ rfl rfl]
  have h2 : validateJSONSchema lib (some uniqueArraySchema)
      (.map [("xs", .slice [.float64 1, .float64 1])]) "" = .panic := by
    rw [validateJSONSchema_object lib uniqueArraySchema _ _ _ rfl,
      propertiesLoop_present lib "xs" _ _ [("xs", .slice [.float64 1, .float64 1])] ""
        (.slice [.float64 1, .float64 1]) rfl,
      validateJSONSchema_no_items lib _ (.float64 1) [.float64 1] _ rfl rfl]
  have h3 : validateJSONSchema lib (some uniqueItemsSchema)
      (.map [("xs", .slice [.slice [], .float64 1, .float64 1])]) "" = .panic := by
    rw [validateJSONSchema_object lib uniqueItemsSchema _ _ _ rfl,
      propertiesLoop_present lib "xs" _ _
        [("xs", .slice [.slice [], .float64 1, .float64 1])] ""
        (.slice [.slice [], .float64 1, .float64 1]) rfl,
      validateJSONSchema_array lib _ _ _ rfl]
    simp [uniqueErrors, uniqueLoop, GoVal.hashable, emptySchema]
  exact ⟨ValidateJSON_of_panic _ lib [] shortArraySchema _ rfl h1,
    ValidateJSON_of_panic _ lib [] uniqueArraySchema _ rfl h2,
    ValidateJSON_of_panic _ lib [] uniqueItemsSchema _ rfl h3⟩

/-! ## The schema registry -/

theorem mapGet_mapSet_self {υ : Type} (m : List (String × υ)) (key : String) (v : υ) :
    mapGet (mapSet m key v) key = some v := by
  induction m with
  | nil => simp [mapSet, mapGet]
  | cons p rest ih =>
    obtain ⟨k, w⟩ := p
    by_cases h : k = key
    · simp [mapSet, mapGet, h]
    · simp [mapSet, mapGet, h, ih]

theorem mapGet_mapSet_ne {υ : Type} (m : List (String × υ)) (key key' : String) (v : υ)
    (hne : key' ≠ key) : mapGet (mapSet m key v) key' = mapGet m key' := by
  induction m with
  | nil =>
    have : ¬ key = key' := fun e => hne e.symm
    simp [mapSet, mapGet, this]
  | cons p rest ih =>
    obtain ⟨k, w⟩ := p
    by_cases h : k = key
    · subst h
      have : ¬ k = key' := fun e => hne e.symm
      simp [mapSet, mapGet, this]
    · by_cases h' : k = key'
      · subst h'
        simp [mapSet, mapGet, h]
      · simp [mapSet, mapGet, h, h', ih]

/-- What a successful `RegisterSchema` returns and stores. -/
theorem RegisterSchema_ok (d : String → String) (r : SchemaRegistry)
    (id name version format content id' : String)
    (h : (r.RegisterSchema d id name version format content).2 = .ok id') :
    id' = (if id = "" then generateSchemaID d name version format content else id) ∧
    mapGet r.schemasByID id' = none ∧
    mapGet r.schemasByNameVers (name ++ ":" ++ version) = none ∧
    (r.RegisterSchema d id name version format content).1 =
      { schemasByID := mapSet r.schemasByID id'
          { ID := id', Name := name, Version := version, Format := format, Content := content }
        schemasByNameVers := mapSet r.schemasByNameVers (name ++ ":" ++ version)
          { ID := id', Name := name, Version := version, Format := format,
            Content := content } } := by
  simp only [SchemaRegistry.RegisterSchema] at h ⊢
  cases h1 : mapGet r.schemasByID
      (if id = "" then generateSchemaID d name version format content else id) with
  | some s1 =>
    rw [h1] at h
    cases h
  | none =>
    rw [h1] at h
    simp only at h ⊢
    cases h2 : mapGet r.schemasByNameVers (name ++ ":" ++ version) with
    | some s2 =>
      rw [h2] at h
      cases h
    | none =>
      rw [h2] at h
      simp only [Except.ok.injEq] at h
      subst h
      exact ⟨rfl, h1, rfl, rfl⟩

/-- A failed `RegisterSchema` leaves the registry as it was. -/
theorem RegisterSchema_error (d : String → String) (r : SchemaRegistry)
    (id name version format content e : String)
    (h : (r.RegisterSchema d id name version format content).2 = .error e) :
    (r.RegisterSchema d id name version format content).1 = r := by
  simp only [SchemaRegistry.RegisterSchema] at h ⊢
  cases h1 : mapGet r.schemasByID
      (if id = "" then generateSchemaID d name version format content else id) with
  | some s1 => rfl
  | none =>
    rw [h1] at h
    simp only at h ⊢
    cases h2 : mapGet r.schemasByNameVers (name ++ ":" ++ version) with
    | some s2 => rfl
    | none =>
      rw [h2] at h
      cases h

/-- On a reachable registry the name/version key of every registered schema is taken. -/
theorem RegistryReachable_key (d : String → String) (r : SchemaRegistry)
    (hr : RegistryReachable d r) :
    ∀ s, r.registered s → mapGet r.schemasByNameVers (s.Name ++ ":" ++ s.Version) ≠ none := by
  induction hr with
  | fresh =>
    rintro s ⟨i, hi⟩
    simp [NewSchemaRegistry, mapGet] at hi
  | @register r id name version format content _ ih =>
    cases hres : (r.RegisterSchema d id name version format content).2 with
    | error e =>
      rw [RegisterSchema_error d r id name version format content e hres]
      exact ih
    | ok id' =>
      obtain ⟨_, _, _, hst⟩ := RegisterSchema_ok d r id name version format content id' hres
      rw [hst]
      rintro s ⟨i, hi⟩
      simp only at hi ⊢
      by_cases hii : i = id'
      · subst hii
        rw [mapGet_mapSet_self] at hi
        cases hi
        simp only
        rw [mapGet_mapSet_self]
        simp
      · rw [mapGet_mapSet_ne _ _ _ _ hii] at hi
        have hold := ih s ⟨i, hi⟩
        by_cases hk : s.Name ++ ":" ++ s.Version = name ++ ":" ++ version
        · rw [hk, mapGet_mapSet_self]
          simp
        · rw [mapGet_mapSet_ne _ _ _ _ hk]
          exact hold

/-- C31 fails for an empty version: a schema registered under the ID id1 with name User and
the empty version is found by its ID, but GetSchema(User, "") reads its first argument as an
ID and answers "schema not found". -/
theorem round_trip_empty_version_fails :
    (NewSchemaRegistry.RegisterSchema plainDigest "id1" "User" "" "json" "content").2 =
      .ok "id1" ∧
    (NewSchemaRegistry.RegisterSchema plainDigest "id1" "User" "" "json" "content").1.GetSchema
      "id1" "" = .ok (Schema.mk "id1" "User" "" "json" "content") ∧
    (NewSchemaRegistry.RegisterSchema plainDigest "id1" "User" "" "json" "content").1.GetSchema
      "User" "" = .error "schema not found" := by
  refine ⟨rfl, rfl, rfl⟩

/-- C31, amended. After RegisterSchema(id, name, version, format, content) has succeeded with
id', the ID id' is the generated one when id is empty and id otherwise; GetSchema(id', "")
returns the schema with exactly that ID, name, version, format and content; for a version
that is not empty GetSchema(name, version) returns the same schema; for the empty version
GetSchema(name, "") is a lookup of name among the IDs, which answers as it did before the
registration unless name is id'. -/
theorem schema_round_trip (d : String → String) (r : SchemaRegistry)
    (id name version format content id' : String)
    (h : (r.RegisterSchema d id name version format content).2 = .ok id') :
    id' = (if id = "" then generateSchemaID d name version format content else id) ∧
    (r.RegisterSchema d id name version format content).1.GetSchema id' "" =
      .ok (Schema.mk id' name version format content) ∧
    (version ≠ "" →
      (r.RegisterSchema d id name version format content).1.GetSchema name version =
        .ok (Schema.mk id' name version format content)) ∧
    (version = "" → name ≠ id' →
      (r.RegisterSchema d id name version format content).1.GetSchema name version =
        r.GetSchema name "") := by
  obtain ⟨hid, _, _, hst⟩ := RegisterSchema_ok d r id name version format content id' h
  rw [hst]
  refine ⟨hid, ?_, ?_, ?_⟩
  · simp only [SchemaRegistry.GetSchema, if_true, mapGet_mapSet_self]
  · intro hv
    simp only [SchemaRegistry.GetSchema, if_neg hv, mapGet_mapSet_self]
  · intro hv hne
    subst hv
    simp only [SchemaRegistry.GetSchema, if_true, mapGet_mapSet_ne _ _ _ _ hne]

/-- The registration of the demo program as an instance of C31: no ID is given, and the
schema is found under the generated ID and under its name and version v1. -/
theorem schema_round_trip_witness :
    (NewSchemaRegistry.RegisterSchema plainDigest "" "User" "v1" "json" "content").2 =
      .ok "Userv1jsoncontent" ∧
    (NewSchemaRegistry.RegisterSchema plainDigest "" "User" "v1" "json" "content").1.GetSchema
      "Userv1jsoncontent" "" = .ok (Schema.mk "Userv1jsoncontent" "User" "v1" "json" "content") ∧
    (NewSchemaRegistry.RegisterSchema plainDigest "" "User" "v1" "json" "content").1.GetSchema
      "User" "v1" = .ok (Schema.mk "Userv1jsoncontent" "User" "v1" "json" "content") :=
  ⟨rfl,
    (schema_round_trip plainDigest NewSchemaRegistry "" "User" "v1" "json" "content"
      "Userv1jsoncontent" rfl).2.1,
    (schema_round_trip plainDigest NewSchemaRegistry "" "User" "v1" "json" "content"
      "Userv1jsoncontent" rfl).2.2.1 (by decide)⟩

/-- C32. Registration is atomic and unique: on every registry reachable from
NewSchemaRegistry, RegisterSchema returns the error "schema ID already exists" when the given
or generated ID is already in the table of IDs, and returns an error when a registered schema
has the same name and version; and whenever it returns an error both tables are as they were,
so that every GetSchema call answers as before. -/
theorem registration_atomic (d : String → String) (r : SchemaRegistry)
    (hr : RegistryReachable d r) (id name version format content : String) :
    ((∃ s, mapGet r.schemasByID
        (if id = "" then generateSchemaID d name version format content else id) = some s) →
      (r.RegisterSchema d id name version format content).2 =
        .error "schema ID already exists") ∧
    ((∃ s, r.registered s ∧ s.Name = name ∧ s.Version = version) →
      ∃ e, (r.RegisterSchema d id name version format content).2 = .error e) ∧
    (∀ e, (r.RegisterSchema d id name version format content).2 = .error e →
      (r.RegisterSchema d id name version format content).1 = r ∧
      ∀ identifier v,
        (r.RegisterSchema d id name version format content).1.GetSchema identifier v =
          r.GetSchema identifier v) := by
  refine ⟨?_, ?_, ?_⟩
  · rintro ⟨s, hs⟩
    simp only [SchemaRegistry.RegisterSchema, hs]
  · rintro ⟨s, hreg, hn, hv⟩
    have hkey := RegistryReachable_key d r hr s hreg
    rw [hn, hv] at hkey
    simp only [SchemaRegistry.RegisterSchema]
    cases h1 : mapGet r.schemasByID
        (if id = "" then generateSchemaID d name version format content else id) with
    | some s1 => exact ⟨_, rfl⟩
    | none =>
      simp only
      cases h2 : mapGet r.schemasByNameVers (name ++ ":" ++ version) with
      | some s2 => exact ⟨_, rfl⟩
      | none => exact absurd h2 hkey
  · intro e he
    have := RegisterSchema_error d r id name version format content e he
    exact ⟨this, fun identifier v => by rw [this]⟩

/-- A second registration of the same name and version under another ID, as an instance of
C32: it fails and the registry is as it was. -/
theorem registration_atomic_witness :
    RegistryReachable plainDigest
      (NewSchemaRegistry.RegisterSchema plainDigest "id1" "User" "v1" "json" "content").1 ∧
    ((NewSchemaRegistry.RegisterSchema plainDigest "id1" "User" "v1" "json" "content").1
      |>.RegisterSchema plainDigest "id2" "User" "v1" "avro" "other").2 =
      .error "schema name and version already registered" ∧
    ((NewSchemaRegistry.RegisterSchema plainDigest "id1" "User" "v1" "json" "content").1
      |>.RegisterSchema plainDigest "id2" "User" "v1" "avro" "other").1 =
      (NewSchemaRegistry.RegisterSchema plainDigest "id1" "User" "v1" "json" "content").1 :=
  ⟨RegistryReachable.register "id1" "User" "v1" "json" "content" RegistryReachable.fresh,
    rfl,
    ((registration_atomic plainDigest
      (NewSchemaRegistry.RegisterSchema plainDigest "id1" "User" "v1" "json" "content").1
      (RegistryReachable.register "id1" "User" "v1" "json" "content" RegistryReachable.fresh)
      "id2" "User" "v1" "avro" "other").2.2
      "schema name and version already registered" rfl).1⟩

/-- C33 at a failing input. The schemas (ab, c, json, s) and (a, bc, json, s) differ in name
and version, yet generateSchemaID hashes the same text abcjsons for both, whatever the hash
is: the IDs are equal, and registering the second without an ID after the first fails with
"schema ID already exists". -/
theorem generated_id_collision :
    (("ab", "c") : String × String) ≠ ("a", "bc") ∧
    (∀ d : String → String,
      generateSchemaID d "ab" "c" "json" "s" = generateSchemaID d "a" "bc" "json" "s") ∧
    (∀ d : String → String,
      (NewSchemaRegistry.RegisterSchema d "" "ab" "c" "json" "s").2 =
        .ok (generateSchemaID d "ab" "c" "json" "s") ∧
      ((NewSchemaRegistry.RegisterSchema d "" "ab" "c" "json" "s").1.RegisterSchema d
        "" "a" "bc" "json" "s").2 = .error "schema ID already exists") := by
  refine ⟨by decide, fun d => rfl, fun d => ⟨rfl, ?_⟩⟩
  have h1 : (NewSchemaRegistry.RegisterSchema d "" "ab" "c" "json" "s").1 =
      { schemasByID := [(generateSchemaID d "ab" "c" "json" "s",
          (Schema.mk (generateSchemaID d "ab" "c" "json" "s") "ab" "c" "json" "s"))]
        schemasByNameVers := [("ab:c",
          (Schema.mk (generateSchemaID d "ab" "c" "json" "s") "ab" "c" "json" "s"))] } := rfl
  have h2 : generateSchemaID d "a" "bc" "json" "s" = generateSchemaID d "ab" "c" "json" "s" :=
    rfl
  rw [h1]
  simp [SchemaRegistry.RegisterSchema, h2, mapGet]

theorem append_sep_injective {α : Type} (c : α) :
    ∀ (l1 l2 r1 r2 : List α), c ∉ l1 → c ∉ l2 → l1 ++ c :: r1 = l2 ++ c :: r2 →
      l1 = l2 ∧ r1 = r2 := by
  intro l1
  induction l1 with
  | nil =>
    intro l2 r1 r2 _ h2 h
    cases l2 with
    | nil =>
      simp only [List.nil_append, List.cons.injEq, true_and] at h
      exact ⟨rfl, h⟩
    | cons a l2 =>
      simp only [List.nil_append, List.cons_append, List.cons.injEq] at h
      exact absurd (h.1 ▸ List.mem_cons_self _ _) h2
  | cons a l1 ih =>
    intro l2 r1 r2 h1 h2 h
    cases l2 with
    | nil =>
      simp only [List.nil_append, List.cons_append, List.cons.injEq] at h
      exact absurd (h.1 ▸ List.mem_cons_self _ _) h1
    | cons b l2 =>
      simp only [List.cons_append, List.cons.injEq] at h
      obtain ⟨e1, e2⟩ := ih l2 r1 r2 (fun m => h1 (List.mem_cons_of_mem _ m))
        (fun m => h2 (List.mem_cons_of_mem _ m)) h.2
      exact ⟨by rw [h.1, e1], e2⟩

/-- The key of the table of names and versions tells two pairs apart when neither name
holds a colon. -/
theorem schemaKey_injective (name version name' version' : String)
    (h1 : ':' ∉ name.data) (h2 : ':' ∉ name'.data)
    (h : name ++ ":" ++ version = name' ++ ":" ++ version') :
    name = name' ∧ version = version' := by
  have hd := congrArg String.data h
  simp only [String.data_append, List.append_assoc] at hd
  simp only [List.singleton_append] at hd
  obtain ⟨e1, e2⟩ := append_sep_injective ':' _ _ _ _ h1 h2 hd
  exact ⟨String.ext e1, String.ext e2⟩

/-- C38 at a failing input. The pairs (a:b, c) and (a, b:c) give the same key a:b:c. After
the first is registered under the ID 1, registering the second under the ID 2 is rejected
with "schema name and version already registered", though no registered schema has the name a
and the version b:c; and GetSchema(a, b:c) returns the schema named a:b. -/
theorem name_version_key_collision :
    (NewSchemaRegistry.RegisterSchema plainDigest "1" "a:b" "c" "json" "s").2 = .ok "1" ∧
    ((NewSchemaRegistry.RegisterSchema plainDigest "1" "a:b" "c" "json" "s").1.RegisterSchema
      plainDigest "2" "a" "b:c" "json" "t").2 =
      .error "schema name and version already registered" ∧
    (∀ s, (NewSchemaRegistry.RegisterSchema plainDigest "1" "a:b" "c" "json" "s").1.registered
      s → ¬ (s.Name = "a" ∧ s.Version = "b:c")) ∧
    (NewSchemaRegistry.RegisterSchema plainDigest "1" "a:b" "c" "json" "s").1.GetSchema
      "a" "b:c" = .ok (Schema.mk "1" "a:b" "c" "json" "s") := by
  refine ⟨rfl, rfl, ?_, rfl⟩
  rintro s ⟨i, hi⟩ ⟨hn, _⟩
  have h1 : (NewSchemaRegistry.RegisterSchema plainDigest "1" "a:b" "c" "json" "s").1 =
      { schemasByID := [("1", (Schema.mk "1" "a:b" "c" "json" "s"))]
        schemasByNameVers := [("a:b:c", (Schema.mk "1" "a:b" "c" "json" "s"))] } := rfl
  rw [h1] at hi
  simp only [mapGet] at hi
  split at hi
  · cases hi
    exact absurd hn (by decide)
  · cases hi

/-! ## Get on any ring: what it leaves untouched, and how many messages it can deliver -/

theorem count_set_filled : ∀ (l : List Int) (i : Nat), l[i]? = some 1 →
    (l.set i 0).count 1 + 1 = l.count 1 := by
  intro l
  induction l with
  | nil => intro i h; simp at h
  | cons a rest ih =>
    intro i h
    cases i with
    | zero =>
      simp only [List.getElem?_cons_zero, Option.some.injEq] at h
      subst h
      simp [List.count_cons]
    | succ i =>
      simp only [List.getElem?_cons_succ] at h
      have := ih i h
      simp only [List.set_cons_succ, List.count_cons]
      omega

theorem idx_some_toNat {α : Type} (xs : List α) (i : Int) (a : α) (h : idx? xs i = some a) :
    0 ≤ i ∧ xs[i.toNat]? = some a := by
  unfold idx? at h
  split at h
  · cases h
  · exact ⟨by omega, h⟩

/-- The loop of `Get` on any ring, when it ends: it writes nothing but the read cursor of its
group and the flags of the slots it delivers from, and each delivered message takes one FILLED
flag away. -/
theorem getLoop_frame {μ : Type} (g : Nat) :
    ∀ (n : Nat) (rb : RingBuffer μ) (nr : Int) (acc : List μ) (rb' : RingBuffer μ)
      (res : List μ) (ex : LoopExit),
      getLoop g n rb nr acc = .ok (rb', res, ex) →
      rb'.size = rb.size ∧ rb'.buffer = rb.buffer ∧ rb'.writeCursor = rb.writeCursor ∧
      rb'.writeBarrier = rb.writeBarrier ∧ rb'.readBarrier = rb.readBarrier ∧
      (∀ g' : Nat, g' ≠ g → rb'.ReadCursors[g']? = rb.ReadCursors[g']?) ∧
      ∃ out, res = acc ++ out ∧
        (∀ s : Nat, (∀ j : Nat, j < out.length → (nr + (j : Int)).tmod (rb.size : Int) ≠ (s : Int)) →
          rb'.available[s]? = rb.available[s]?) ∧
        out.length + rb'.available.count 1 = rb.available.count 1 := by
  intro n
  induction n with
  | zero =>
    intro rb nr acc rb' res ex h
    simp only [getLoop, Outcome.ok.injEq, Prod.mk.injEq] at h
    obtain ⟨rfl, rfl, _⟩ := h
    exact ⟨rfl, rfl, rfl, rfl, rfl, fun _ _ => rfl, [], by simp, fun _ _ => rfl, by simp⟩
  | succ n ih =>
    intro rb nr acc rb' res ex h
    rw [getLoop] at h
    split at h
    · cases h
    · simp only at h
      cases hf : idx? rb.available (nr.tmod (rb.size : Int)) with
      | none => rw [hf] at h; cases h
      | some flag =>
        rw [hf] at h
        simp only at h
        split at h
        · rename_i hflag
          subst hflag
          cases hc : idx? rb.buffer (nr.tmod (rb.size : Int)) with
          | none => rw [hc] at h; cases h
          | some cell =>
            rw [hc] at h
            cases cell with
            | none => cases h
            | some msg =>
              simp only at h
              obtain ⟨hsz, hbuf, hw, hwb, hrb, hcur, out, hres, hfr, hcnt⟩ :=
                ih _ _ _ _ _ _ h
              obtain ⟨hslot, hget⟩ := idx_some_toNat _ _ _ hf
              simp only at hsz hbuf hw hwb hrb hcur hfr hcnt
              refine ⟨hsz, hbuf, hw, hwb, hrb, ?_, msg :: out, ?_, ?_, ?_⟩
              · intro g' hg'
                rw [hcur g' hg', List.getElem?_set_ne (Ne.symm hg')]
              · rw [hres]
                simp
              · intro s hs
                have h0 := hs 0 (by simp)
                have hne : (nr.tmod (rb.size : Int)).toNat ≠ s := by
                  intro e
                  apply h0
                  simp only [Nat.cast_zero, add_zero]
                  omega
                rw [hfr s (fun j hj => by
                  have := hs (j + 1) (by simp; omega)
                  have e : nr + ((j + 1 : Nat) : Int) = nr + 1 + (j : Int) := by
                    push_cast; ring
                  rw [e] at this
                  exact this)]
                simp only [setIdx]
                rw [List.getElem?_set_ne hne]
              · have := count_set_filled rb.available _ hget
                simp only [setIdx] at hcnt
                simp only [List.length_cons]
                omega
        · simp only [Outcome.ok.injEq, Prod.mk.injEq] at h
          obtain ⟨rfl, rfl, _⟩ := h
          exact ⟨rfl, rfl, rfl, rfl, rfl, fun _ _ => rfl, [], by simp, fun _ _ => rfl,
            by simp⟩

theorem Get_frame_aux {maxCap : Nat} {μ : Type} (rb rb' : RingBuffer μ) (k g : Int) (out : List μ)
    (h : Get maxCap rb k g = .ok (rb', out)) :
    ∃ c, idx? rb.ReadCursors g = some c ∧ 0 ≤ g ∧
      rb'.size = rb.size ∧ rb'.buffer = rb.buffer ∧ rb'.writeCursor = rb.writeCursor ∧
      rb'.writeBarrier = rb.writeBarrier ∧ rb'.readBarrier = rb.readBarrier ∧
      (∀ g' : Nat, (g' : Int) ≠ g → rb'.ReadCursors[g']? = rb.ReadCursors[g']?) ∧
      (∀ s : Nat, (∀ j : Nat, j < out.length →
          (c + 1 + (j : Int)).tmod (rb.size : Int) ≠ (s : Int)) →
        rb'.available[s]? = rb.available[s]?) ∧
      out.length + rb'.available.count 1 = rb.available.count 1 := by
  cases ht : GetTraced maxCap rb k g with
  | panic => simp only [Get, ht] at h; cases h
  | diverges => simp only [Get, ht] at h; cases h
  | ok r =>
    obtain ⟨rb1, res, ex⟩ := r
    simp only [Get, ht, Outcome.ok.injEq, Prod.mk.injEq] at h
    obtain ⟨rfl, rfl⟩ := h
    unfold GetTraced at ht
    split at ht
    · cases ht
    · split at ht
      · cases ht
      · cases hc : idx? rb.ReadCursors g with
        | none => rw [hc] at ht; cases ht
        | some c =>
          rw [hc] at ht
          simp only at ht
          obtain ⟨hsz, hbuf, hw, hwb, hrb, hcur, out, hres, hfr, hcnt⟩ :=
            getLoop_frame g.toNat _ _ _ _ _ _ _ ht
          simp only [List.nil_append] at hres
          subst hres
          have hg := (idx_some_toNat _ _ _ hc).1
          refine ⟨c, rfl, hg, hsz, hbuf, hw, hwb, hrb, ?_, hfr, hcnt⟩
          intro g' hg'
          exact hcur g' (by omega)

/-- C34. Get postcondition: on every ring reachable from NewRingBuffer(N, G) with N ≥ 1, for
every valid group g with read cursor c and every k ≥ 0, whenever Get(k, g) returns, the j-th
of the r returned messages is what the slot of sequence number c + 1 + j held before the
call, each of those r slots is EMPTY after the call, and the read cursor of g after the call
is c + r; and Get(k, g) does return when k is a capacity `make` can allocate (k ≤ maxCap). -/
theorem get_postcondition {μ : Type} (maxCap N G : Nat) (hN : 1 ≤ N) (rb : RingBuffer μ)
    (hr : Reachable N G rb) (g : Nat) (hg : g < G) (k : Nat) :
    (∃ c, idx? rb.ReadCursors (g : Int) = some c ∧
      ∀ rb' out, Get maxCap rb (k : Int) (g : Int) = .ok (rb', out) →
        (∀ j : Nat, j < out.length → cellAt rb (c + 1 + (j : Int)) = some (out[j]?)) ∧
        (∀ j : Nat, j < out.length → flagAt rb' (c + 1 + (j : Int)) = some 0) ∧
        idx? rb'.ReadCursors (g : Int) = some (c + (out.length : Int))) ∧
    (k ≤ maxCap → ∃ rb' out, Get maxCap rb (k : Int) (g : Int) = .ok (rb', out)) := by
  have hs := Reachable_sound hN hr
  by_cases hcap : k ≤ maxCap
  · obtain ⟨rb', out, ex, nr, hc, _, hget, hs', hpost, hmsgs, _, _, _⟩ :=
      Get_sound hs g k hg hcap
    have e : ∀ j : Nat, (nr : Int) - 1 + 1 + (j : Int) = ((nr + j : Nat) : Int) := by
      intro j; push_cast; ring
    refine ⟨⟨(nr : Int) - 1, by rw [idx_natCast]; exact hc, ?_⟩, fun _ => ⟨rb', out, hget⟩⟩
    intro rb2 out2 hget2
    rw [hget] at hget2
    simp only [Outcome.ok.injEq, Prod.mk.injEq] at hget2
    obtain ⟨rfl, rfl⟩ := hget2
    refine ⟨?_, ?_, ?_⟩
    · intro j hj
      rw [e, cellAt_natCast hs.shaped]
      exact hmsgs j hj
    · intro j hj
      rw [e, flagAt_natCast hs'.shaped]
      exact hpost.cleared j hj
    · rw [idx_natCast, hpost.cursors]
      by_cases hz : out.length = 0
      · rw [if_pos hz, hc, hz]
        simp
      · have hglt : g < rb.ReadCursors.length := by rw [hs.groups]; exact hg
        rw [if_neg hz, List.getElem?_set_self hglt]
        congr 1
        have : 1 ≤ nr + out.length := by omega
        push_cast [this]
        ring
  · obtain ⟨c, hc⟩ : ∃ c, rb.ReadCursors[g]? = some c :=
      exists_getElem_of_lt (by rw [hs.groups]; exact hg)
    refine ⟨⟨c, by rw [idx_natCast]; exact hc, ?_⟩, fun h => absurd h hcap⟩
    intro rb2 out2 hget2
    have := (Get_ok_bounds hget2).2
    omega

/-- Scenario S3 as an instance of C34: capacity 3, one group with read cursor -1; after Put A
the call Get(5, 0) returns the message A of slot 0, leaves slot 0 EMPTY and the read cursor
at 0. -/
theorem get_postcondition_witness :
    Reachable 3 1 ringS3 ∧
    ∃ rb', Get exampleCap ringS3 5 0 = .ok (rb', ["A"]) ∧
      cellAt ringS3 0 = some (some "A") ∧
      flagAt rb' 0 = some 0 ∧ idx? rb'.ReadCursors 0 = some 0 := by
  have hr : Reachable 3 1 ringS3 := Reachable.put ["A"] Reachable.fresh rfl
  obtain ⟨⟨c, hc, hpost⟩, _⟩ :=
    get_postcondition exampleCap 3 1 (by decide) ringS3 hr 0 (by decide) 5
  have h5 : Get exampleCap ringS3 ((5 : Nat) : Int) ((0 : Nat) : Int) = .ok
      (RingBuffer.mk 3 [some "A", none, none] 1 [0] [0, 0, 0] 0 0, ["A"]) := by decide
  have hc' : c = -1 := by
    have : idx? ringS3.ReadCursors ((0 : Nat) : Int) = some (-1) := by decide
    rw [this] at hc
    cases hc
    rfl
  subst hc'
  obtain ⟨_, hflag, hcur⟩ := hpost _ _ h5
  refine ⟨hr, _, h5, by decide, ?_, ?_⟩
  · have := hflag 0 (by decide)
    simpa using this
  · simpa using hcur

theorem idx_of_nonneg {α : Type} (xs : List α) (i : Int) (h : 0 ≤ i) :
    idx? xs i = xs[i.toNat]? := by
  unfold idx?
  rw [if_neg (by omega)]

/-- The counter carried along the loop of `Get` changes nothing else: without it the counted
loop is `getLoop`. When the loop ends, `reads` has grown by the number of messages appended
and `failedChecks` by one exactly when the loop was left by `break`. -/
theorem getLoopCounted_spec {μ : Type} (g : Nat) :
    ∀ (n : Nat) (rb : RingBuffer μ) (nr : Int) (acc : List μ) (count : LoopCount),
      (getLoopCounted g n rb nr acc count).map (fun r => (r.1, r.2.1, r.2.2.1)) =
        getLoop g n rb nr acc ∧
      ∀ rb' res ex count', getLoopCounted g n rb nr acc count = .ok (rb', res, ex, count') →
        count'.reads + acc.length = count.reads + res.length ∧
        count'.reads ≤ count.reads + n ∧
        count'.failedChecks = count.failedChecks + (if ex = .brokeOnEmpty then 1 else 0) := by
  intro n
  induction n with
  | zero =>
    intro rb nr acc count
    refine ⟨rfl, ?_⟩
    intro rb' res ex count' h
    simp only [getLoopCounted, Outcome.ok.injEq, Prod.mk.injEq] at h
    obtain ⟨_, rfl, rfl, rfl⟩ := h
    simp
  | succ n ih =>
    intro rb nr acc count
    rw [getLoopCounted, getLoop]
    by_cases hsz : rb.size = 0
    · rw [if_pos hsz, if_pos hsz]
      exact ⟨rfl, fun _ _ _ _ h => by cases h⟩
    · rw [if_neg hsz, if_neg hsz]
      simp only
      cases hf : idx? rb.available (nr.tmod (rb.size : Int)) with
      | none => exact ⟨rfl, fun _ _ _ _ h => by cases h⟩
      | some flag =>
        simp only
        by_cases hflag : flag = 1
        · rw [if_pos hflag, if_pos hflag]
          cases hc : idx? rb.buffer (nr.tmod (rb.size : Int)) with
          | none => exact ⟨rfl, fun _ _ _ _ h => by cases h⟩
          | some cell =>
            cases cell with
            | none => exact ⟨rfl, fun _ _ _ _ h => by cases h⟩
            | some msg =>
              simp only
              obtain ⟨h1, h2⟩ := ih
                { rb with
                  available := setIdx rb.available (nr.tmod (rb.size : Int)) 0
                  ReadCursors := rb.ReadCursors.set g nr }
                (nr + 1) (acc ++ [msg]) { count with reads := count.reads + 1 }
              refine ⟨h1, ?_⟩
              intro rb' res ex count' h
              obtain ⟨ha, hb, hc'⟩ := h2 _ _ _ _ h
              simp only [List.length_append, List.length_singleton] at ha
              dsimp only at ha hb hc'
              exact ⟨by omega, by omega, hc'⟩
        · rw [if_neg hflag, if_neg hflag]
          refine ⟨rfl, ?_⟩
          intro rb' res ex count' h
          simp only [Outcome.ok.injEq, Prod.mk.injEq] at h
          obtain ⟨_, rfl, rfl, rfl⟩ := h
          simp

/-- The counted body of `Get` is `GetTraced` once the counter is dropped; when it returns,
`reads` is the number of messages returned, at most the batch size, and `failedChecks` is one
exactly when the loop was left by `break`, zero otherwise. -/
theorem GetCounted_spec {maxCap : Nat} {μ : Type} (rb : RingBuffer μ) (k g : Int) :
    (GetCounted maxCap rb k g).map (fun r => (r.1, r.2.1, r.2.2.1)) = GetTraced maxCap rb k g ∧
    ∀ rb' res ex count, GetCounted maxCap rb k g = .ok (rb', res, ex, count) →
      count.reads = res.length ∧ count.reads ≤ k.toNat ∧
      count.failedChecks = if ex = .brokeOnEmpty then 1 else 0 := by
  unfold GetCounted GetTraced
  by_cases hk : k < 0
  · rw [if_pos hk, if_pos hk]
    exact ⟨rfl, fun _ _ _ _ h => by cases h⟩
  · rw [if_neg hk, if_neg hk]
    by_cases hk3 : (maxCap : Int) < k
    · rw [if_pos hk3, if_pos hk3]
      exact ⟨rfl, fun _ _ _ _ h => by cases h⟩
    · rw [if_neg hk3, if_neg hk3]
      cases hc : idx? rb.ReadCursors g with
      | none => exact ⟨rfl, fun _ _ _ _ h => by cases h⟩
      | some c =>
        simp only
        obtain ⟨h1, h2⟩ := getLoopCounted_spec g.toNat k.toNat rb (c + 1) ([] : List μ)
          { reads := 0, failedChecks := 0 }
        refine ⟨h1, ?_⟩
        intro rb' res ex count h
        obtain ⟨ha, hb, hc'⟩ := h2 _ _ _ _ h
        simp only [List.length_nil, Nat.add_zero, Nat.zero_add] at ha hb hc'
        exact ⟨ha, hb, hc'⟩

/-- C35, as the claim states it, fails on a batch size that `make` cannot allocate: on the
ring of capacity 3 reached by Put A, Get(2^62, 0) does not return at most 3 messages, it
stops with a runtime fault before the first iteration of its loop. -/
theorem get_huge_batch_no_result :
    Reachable 3 1 ringS3 ∧ (0 : Int) ≤ 2 ^ 62 ∧
    GetCounted exampleCap ringS3 (2 ^ 62) 0 = .panic ∧
    Get exampleCap ringS3 (2 ^ 62) 0 = .panic ∧
    ¬ ∃ rb' out, Get exampleCap ringS3 (2 ^ 62) 0 = .ok (rb', out) ∧ out.length ≤ 3 := by
  have h : Get exampleCap ringS3 (2 ^ 62) 0 = .panic := by decide
  refine ⟨Reachable.put ["A"] Reachable.fresh rfl, by decide, by decide, h, ?_⟩
  rintro ⟨rb', out, hget, _⟩
  rw [h] at hget
  cases hget

/-- C35 (amended). Get completes in bounded steps: on every ring reachable from
NewRingBuffer(N, G) with N ≥ 1 every slot flagged FILLED holds a message, so the non-advancing
branch of the loop is never taken; for every valid group g and every k with 0 ≤ k ≤ maxCap (a
capacity `make` can allocate), Get(k, g) returns, with at most min(k, N) messages, after at
most min(k, N) iterations of its loop that read a message and at most one that fails the
availability check, both counted while the loop runs. With k > maxCap the call stops with a
runtime fault before the loop. -/
theorem get_bounded_steps {μ : Type} (maxCap N G : Nat) (hN : 1 ≤ N) (rb : RingBuffer μ)
    (hr : Reachable N G rb) (g : Nat) (hg : g < G) (k : Nat) :
    (∀ seq : Int, flagAt rb seq = some 1 → ∃ m, cellAt rb seq = some (some m)) ∧
    (k ≤ maxCap →
      ∃ rb' out ex count,
        GetCounted maxCap rb (k : Int) (g : Int) = .ok (rb', out, ex, count) ∧
        Get maxCap rb (k : Int) (g : Int) = .ok (rb', out) ∧
        out.length ≤ min k N ∧ count.reads = out.length ∧ count.reads ≤ min k N ∧
        count.failedChecks ≤ 1 ∧ count.reads + count.failedChecks ≤ min k N + 1) ∧
    (maxCap < k →
      GetCounted maxCap rb (k : Int) (g : Int) = .panic ∧
        Get maxCap rb (k : Int) (g : Int) = .panic) := by
  have hs := Reachable_sound hN hr
  refine ⟨?_, ?_, ?_⟩
  · intro seq hflag
    unfold flagAt at hflag
    unfold cellAt
    split at hflag
    · cases hflag
    · rename_i hsz
      rw [if_neg hsz]
      obtain ⟨hnn, hget⟩ := idx_some_toNat _ _ _ hflag
      rw [idx_of_nonneg _ _ hnn]
      exact hs.backed _ hget
  · intro hcap
    obtain ⟨rb', out, ex, nr, _, ht, hget, _, _, _, hle, _, _⟩ := Get_sound hs g k hg hcap
    obtain ⟨c, _, _, _, _, _, _, _, _, _, hcnt⟩ := Get_frame_aux rb rb' _ _ out hget
    have hN' : out.length ≤ N := by
      have h1 : rb.available.count 1 ≤ rb.available.length := List.count_le_length _ _
      rw [hs.shaped.flags] at h1
      omega
    have hmin : out.length ≤ min k N := Nat.le_min.2 ⟨hle, hN'⟩
    obtain ⟨herase, hcount⟩ := @GetCounted_spec maxCap μ rb (k : Int) (g : Int)
    rw [ht] at herase
    cases hgc : GetCounted maxCap rb (k : Int) (g : Int) with
    | panic => rw [hgc] at herase; cases herase
    | diverges => rw [hgc] at herase; cases herase
    | ok r =>
      obtain ⟨rb1, out1, ex1, count⟩ := r
      rw [hgc] at herase
      simp only [Outcome.map, Outcome.ok.injEq, Prod.mk.injEq] at herase
      obtain ⟨rfl, rfl, rfl⟩ := herase
      obtain ⟨hreads, _, hfail⟩ := hcount _ _ _ _ hgc
      have hf1 : count.failedChecks ≤ 1 := by
        rw [hfail]
        split <;> omega
      exact ⟨rb1, out1, ex1, count, rfl, hget, hmin, hreads, by omega, hf1, by omega⟩
  · intro hcap
    have hf : ((k : Nat) : Int) < 0 ∨ (maxCap : Int) < ((k : Nat) : Int) := Or.inr (by omega)
    have hp := (Get_make_faults rb (k : Int) (g : Int) hf).1
    have herase := (@GetCounted_spec maxCap μ rb (k : Int) (g : Int)).1
    rw [hp] at herase
    refine ⟨?_, (Get_make_faults rb (k : Int) (g : Int) hf).2⟩
    cases hgc : GetCounted maxCap rb (k : Int) (g : Int) with
    | panic => rfl
    | diverges => rw [hgc] at herase; cases herase
    | ok r => rw [hgc] at herase; cases herase

/-- Scenario S3 as an instance of the amended C35, with an allocation limit of 1000 entries:
on the ring of capacity 3 that holds A, Get(5, 0) returns the one message after two
iterations of its loop, one that reads A and one that fails the availability check. -/
theorem get_bounded_steps_witness :
    (1 ≤ 3) ∧ Reachable 3 1 ringS3 ∧ (0 < 1) ∧ (5 ≤ 1000) ∧
    (∃ rb' out ex count, GetCounted 1000 ringS3 ((5 : Nat) : Int) ((0 : Nat) : Int) =
        .ok (rb', out, ex, count) ∧
      count.reads ≤ min 5 3 ∧ count.failedChecks ≤ 1) ∧
    ∃ rb', GetCounted 1000 ringS3 5 0 =
      .ok (rb', ["A"], .brokeOnEmpty, { reads := 1, failedChecks := 1 }) := by
  have hr : Reachable 3 1 ringS3 := Reachable.put ["A"] Reachable.fresh rfl
  obtain ⟨rb', out, ex, count, hc, _, _, _, hreads, hfail, _⟩ :=
    (get_bounded_steps 1000 3 1 (by decide) ringS3 hr 0 (by decide) 5).2.1 (by decide)
  have h5 : GetCounted 1000 ringS3 5 0 = .ok
      (RingBuffer.mk 3 [some "A", none, none] 1 [0] [0, 0, 0] 0 0, ["A"], .brokeOnEmpty,
        { reads := 1, failedChecks := 1 }) := by
    decide
  exact ⟨by decide, hr, by decide, by decide, ⟨rb', out, ex, count, hc, hreads, hfail⟩,
    _, h5⟩

/-- C36. Get frame: on every ring and for every k and g, a call Get(k, g) that returns
leaves the write cursor, the content of every slot, the size, the barriers and the read cursor
of every other group as they were, and changes no availability flag but those of the slots it
delivered from (the slots of the sequence numbers c + 1 + j, c being the read cursor of g and
j counting the delivered messages). On every ring reachable from NewRingBuffer(N, G) with
N ≥ 1, the call does return when g is a valid group and 0 ≤ k ≤ maxCap, a capacity `make`
can allocate. -/
theorem get_frame {μ : Type} (maxCap : Nat) (rb : RingBuffer μ) (k g : Int) :
    (∀ rb' out, Get maxCap rb k g = .ok (rb', out) →
      ∃ c, idx? rb.ReadCursors g = some c ∧
        rb'.writeCursor = rb.writeCursor ∧ rb'.buffer = rb.buffer ∧ rb'.size = rb.size ∧
        rb'.writeBarrier = rb.writeBarrier ∧ rb'.readBarrier = rb.readBarrier ∧
        (∀ g' : Nat, (g' : Int) ≠ g → rb'.ReadCursors[g']? = rb.ReadCursors[g']?) ∧
        (∀ s : Nat, (∀ j : Nat, j < out.length →
            (c + 1 + (j : Int)).tmod (rb.size : Int) ≠ (s : Int)) →
          rb'.available[s]? = rb.available[s]?)) ∧
    (∀ N G : Nat, 1 ≤ N → Reachable N G rb → 0 ≤ k → k ≤ (maxCap : Int) → 0 ≤ g →
      g < (G : Int) → ∃ rb' out, Get maxCap rb k g = .ok (rb', out)) := by
  refine ⟨?_, ?_⟩
  · intro rb' out h
    obtain ⟨c, hc, _, hsz, hbuf, hw, hwb, hrb, hcur, hfr, _⟩ := Get_frame_aux rb rb' k g out h
    exact ⟨c, hc, hw, hbuf, hsz, hwb, hrb, hcur, hfr⟩
  · intro N G hN hr hk hcap hg hgG
    obtain ⟨rb', out, _, _, _, _, hget, _⟩ :=
      Get_sound (Reachable_sound hN hr) g.toNat k.toNat (by omega) (by omega : k.toNat ≤ maxCap)
    have ek : ((k.toNat : Nat) : Int) = k := Int.toNat_of_nonneg hk
    have eg : ((g.toNat : Nat) : Int) = g := Int.toNat_of_nonneg hg
    rw [ek, eg] at hget
    exact ⟨rb', out, hget⟩

/-- A ring of capacity 3 with two groups after Put A, B, as an instance of C36: Get(1, 0)
delivers A from slot 0 and leaves the write cursor, the cells, the read cursor of group 1
and the flags of slots 1 and 2 as they were. -/
theorem get_frame_witness :
    ∃ rb rb', Put (NewRingBuffer 3 2 : RingBuffer String) ["A", "B"] = .ok rb ∧
      Get exampleCap rb 1 0 = .ok (rb', ["A"]) ∧
      rb'.writeCursor = rb.writeCursor ∧ rb'.buffer = rb.buffer ∧
      rb'.ReadCursors[1]? = rb.ReadCursors[1]? ∧
      rb'.available[1]? = rb.available[1]? ∧ rb'.available[2]? = rb.available[2]? := by
  have hput : Put (NewRingBuffer 3 2 : RingBuffer String) ["A", "B"] = .ok
      (RingBuffer.mk 3 [some "A", some "B", none] 2 [-1, -1] [1, 1, 0] 0 0) := by decide
  have hget :
      Get exampleCap (RingBuffer.mk 3 [some "A", some "B", none] 2 [-1, -1] [1, 1, 0] 0 0) 1 0 =
      .ok (RingBuffer.mk 3 [some "A", some "B", none] 2 [0, -1] [0, 1, 0] 0 0, ["A"]) := by
    decide
  obtain ⟨c, hc, hw, hbuf, _, _, _, hcur, hfr⟩ := (get_frame exampleCap _ 1 0).1 _ _ hget
  have hc' : c = -1 := by
    have : idx? ([-1, -1] : List Int) 0 = some (-1) := by decide
    simp only at hc
    rw [this] at hc
    cases hc
    rfl
  subst hc'
  refine ⟨_, _, hput, hget, hw, hbuf, hcur 1 (by decide), hfr 1 ?_, hfr 2 ?_⟩
  · intro j hj
    have : j = 0 := by simpa using hj
    subst this
    decide
  · intro j hj
    have : j = 0 := by simpa using hj
    subst this
    decide

/-! ## The JSON Schema validator is not total -/

/-- C37 at failing inputs. Under a property of type array that declares no `items`, the
one-item list of a string makes validateJSONSchema (and ValidateJSON) stop with a runtime
fault, the nil `schema.Items` being dereferenced; under an array of objects with
`uniqueItems: true`, the one-item list of an empty object does so as well, the object being
used as a map key. No error list is returned. -/
theorem json_validation_faults :
    (∀ lib, validateJSONSchema lib (some tagsArraySchema)
        (.map [("tags", .slice [.string "a"])]) "" = .panic) ∧
    (∀ lib, ValidateJSON (fun _ => .ok tagsArraySchema) lib []
        [("tags", .slice [.string "a"])] = .panic) ∧
    (∀ lib, validateJSONSchema lib (some uniqueObjectsSchema)
        (.map [("xs", .slice [.map []])]) "" = .panic) ∧
    (∀ lib, ValidateJSON (fun _ => .ok uniqueObjectsSchema) lib []
        [("xs", .slice [.map []])] = .panic) := by
  have h1 : ∀ lib, validateJSONSchema lib (some tagsArraySchema)
      (.map [("tags", .slice [.string "a"])]) "" = .panic := by
    intro lib
    rw [validateJSONSchema_object lib tagsArraySchema _ _ _ rfl,
      propertiesLoop_present lib "tags" _ _ [("tags", .slice [.string "a"])] ""
        (.slice [.string "a"]) rfl,
      validateJSONSchema_no_items lib _ (.string "a") [] _ rfl rfl]
  have h2 : ∀ lib, validateJSONSchema lib (some uniqueObjectsSchema)
      (.map [("xs", .slice [.map []])]) "" = .panic := by
    intro lib
    rw [validateJSONSchema_object lib uniqueObjectsSchema _ _ _ rfl,
      propertiesLoop_present lib "xs" _ _ [("xs", .slice [.map []])] ""
        (.slice [.map []]) rfl,
      validateJSONSchema_array lib _ _ _ rfl]
    simp [uniqueErrors, uniqueLoop, GoVal.hashable, emptySchema]
  exact ⟨h1, fun lib => ValidateJSON_of_panic _ lib [] tagsArraySchema _ rfl (h1 lib),
    h2, fun lib => ValidateJSON_of_panic _ lib [] uniqueObjectsSchema _ rfl (h2 lib)⟩

/-! ## The cuckoo filter -/

theorem fingerprint_eq_zero_iff (data : List UInt8) :
    fingerprint data = 0 ↔ hashFunc data % 65536 = 65535 := by
  unfold fingerprint
  have := Nat.mod_lt (hashFunc data) (show 0 < 65536 by decide)
  omega

theorem altIndex_lt (idx fp : Nat) : altIndex idx fp < numBuckets := by
  unfold altIndex
  exact Nat.mod_lt _ (by decide)

/-- The function `altIndex` is an involution on the bucket indices. -/
theorem altIndex_involution (i fp : Nat) (hi : i < numBuckets) :
    altIndex (altIndex i fp) fp = i := by
  unfold altIndex
  simp only
  have hh : hashFunc [UInt8.ofNat fp, UInt8.ofNat (fp >>> 8)] % numBuckets < 2 ^ 10 :=
    Nat.mod_lt _ (by decide)
  generalize hashFunc [UInt8.ofNat fp, UInt8.ofNat (fp >>> 8)] % numBuckets = h at hh
  have hx : i ^^^ h < 2 ^ 10 := Nat.xor_lt_two_pow hi hh
  have e1 : (i ^^^ h) % numBuckets = i ^^^ h := Nat.mod_eq_of_lt hx
  rw [e1, Nat.xor_cancel_right]
  exact Nat.mod_eq_of_lt hi

theorem bucket_set_self (cf : CuckooFilter) (i : Nat) (b : List Nat)
    (hi : i < cf.buckets.length) :
    CuckooFilter.bucket { buckets := cf.buckets.set i b } i = b := by
  simp [CuckooFilter.bucket, List.getD, hi]

theorem bucket_set_ne (cf : CuckooFilter) (i k : Nat) (b : List Nat) (hne : i ≠ k) :
    CuckooFilter.bucket { buckets := cf.buckets.set i b } k = cf.bucket k := by
  simp [CuckooFilter.bucket, List.getD, List.getElem?_set_ne hne]

theorem fillFirstEmpty_spec : ∀ (b : List Nat) (fp : Nat) (b' : List Nat),
    fillFirstEmpty b fp = some b' →
      b'.length = b.length ∧ fp ∈ b' ∧ ∀ x, x ≠ 0 → x ∈ b → x ∈ b' := by
  intro b
  induction b with
  | nil => intro fp b' h; cases h
  | cons f rest ih =>
    intro fp b' h
    simp only [fillFirstEmpty] at h
    split at h
    · rename_i hf
      cases h
      refine ⟨rfl, List.mem_cons_self _ _, ?_⟩
      intro x hx hmem
      rcases List.mem_cons.1 hmem with e | e
      · exact absurd (e.trans hf) hx
      · exact List.mem_cons_of_mem _ e
    · cases hr : fillFirstEmpty rest fp with
      | none => rw [hr] at h; cases h
      | some rest' =>
        rw [hr] at h
        cases h
        obtain ⟨hl, hm, hk⟩ := ih fp rest' hr
        refine ⟨by simp [hl], List.mem_cons_of_mem _ hm, ?_⟩
        intro x hx hmem
        rcases List.mem_cons.1 hmem with e | e
        · exact e ▸ List.mem_cons_self _ _
        · exact List.mem_cons_of_mem _ (hk x hx e)

theorem mem_set_or_evicted : ∀ (l : List Nat) (j x y : Nat), x ∈ l →
    x ∈ l.set j y ∨ l.getD j 0 = x := by
  intro l
  induction l with
  | nil => intro j x y h; cases h
  | cons a rest ih =>
    intro j x y h
    cases j with
    | zero =>
      rcases List.mem_cons.1 h with e | e
      · right
        simp [e]
      · left
        simp [e]
    | succ j =>
      rcases List.mem_cons.1 h with e | e
      · left
        simp [e]
      · rcases ih j x y e with h1 | h1
        · left
          simp [h1]
        · right
          simpa using h1

theorem contains_iff (cf : CuckooFilter) (i fp : Nat) :
    cf.contains i fp = true ↔ fp ∈ cf.bucket i := by
  simp [CuckooFilter.contains, List.any_eq_true]

theorem CuckooShaped_set (cf : CuckooFilter) (i : Nat) (b : List Nat) (hs : CuckooShaped cf)
    (hb : b.length = bucketSize) : CuckooShaped { buckets := cf.buckets.set i b } := by
  refine ⟨by simp [hs.1], ?_⟩
  intro b' hb'
  rcases List.mem_or_eq_of_mem_set hb' with h | h
  · exact hs.2 b' h
  · rw [h]; exact hb

theorem CuckooShaped_bucket (cf : CuckooFilter) (i : Nat) (hs : CuckooShaped cf)
    (hi : i < numBuckets) : (cf.bucket i).length = bucketSize := by
  have hlt : i < cf.buckets.length := by rw [hs.1]; exact hi
  have : cf.bucket i = cf.buckets[i] := by
    simp [CuckooFilter.bucket, List.getD, hlt]
  rw [this]
  exact hs.2 _ (List.getElem_mem _)

theorem insertIntoBucket_true (cf cf' : CuckooFilter) (i fp : Nat) (hs : CuckooShaped cf)
    (hi : i < numBuckets) (h : cf.insertIntoBucket i fp = (cf', true)) :
    CuckooShaped cf' ∧ fp ∈ cf'.bucket i ∧
      ∀ k x, x ≠ 0 → x ∈ cf.bucket k → x ∈ cf'.bucket k := by
  unfold CuckooFilter.insertIntoBucket at h
  cases hf : fillFirstEmpty (cf.bucket i) fp with
  | none => rw [hf] at h; cases h
  | some b =>
    rw [hf] at h
    simp only [Prod.mk.injEq, and_true] at h
    subst h
    obtain ⟨hl, hm, hk⟩ := fillFirstEmpty_spec _ _ _ hf
    have hlt : i < cf.buckets.length := by rw [hs.1]; exact hi
    refine ⟨CuckooShaped_set cf i b hs (by rw [hl]; exact CuckooShaped_bucket cf i hs hi),
      by rw [bucket_set_self cf i b hlt]; exact hm, ?_⟩
    intro k x hx hmem
    by_cases hik : i = k
    · subst hik
      rw [bucket_set_self cf i b hlt]
      exact hk x hx hmem
    · rw [bucket_set_ne cf i k b hik]
      exact hmem

theorem insertIntoBucket_false (cf cf' : CuckooFilter) (i fp : Nat)
    (h : cf.insertIntoBucket i fp = (cf', false)) : cf' = cf := by
  unfold CuckooFilter.insertIntoBucket at h
  cases hf : fillFirstEmpty (cf.bucket i) fp with
  | none =>
    rw [hf] at h
    simp only [Prod.mk.injEq, and_true] at h
    exact h.symm
  | some b => rw [hf] at h; simp at h

theorem store_spec (cf : CuckooFilter) (i j fp : Nat) (hs : CuckooShaped cf)
    (hi : i < numBuckets) (hj : j < bucketSize) :
    CuckooShaped (cf.store i j fp) ∧ fp ∈ (cf.store i j fp).bucket i ∧
      ∀ k x, x ∈ cf.bucket k →
        x ∈ (cf.store i j fp).bucket k ∨ (k = i ∧ (cf.bucket i).getD j 0 = x) := by
  have hlt : i < cf.buckets.length := by rw [hs.1]; exact hi
  have hlen := CuckooShaped_bucket cf i hs hi
  unfold CuckooFilter.store
  refine ⟨CuckooShaped_set cf i _ hs (by simp [hlen]), ?_, ?_⟩
  · rw [bucket_set_self cf i _ hlt]
    exact List.mem_set _ _ (by rw [hlen]; exact hj) fp
  · intro k x hmem
    by_cases hik : i = k
    · subst hik
      rw [bucket_set_self cf i _ hlt]
      rcases mem_set_or_evicted _ j x fp hmem with h | h
      · exact Or.inl h
      · exact Or.inr ⟨rfl, h⟩
    · rw [bucket_set_ne cf i k _ hik]
      exact Or.inl hmem

/-- The eviction loop keeps a fingerprint that is not 0 within reach: if it sits in one of
its two buckets, or is the one in hand on its way to one of them, then it sits in one of them
when the loop ends with true. -/
theorem kickLoop_keeps (picks : Nat → Nat) (fpx i1 i2 : Nat) (hfp : fpx ≠ 0)
    (h12 : altIndex i1 fpx = i2) (h21 : altIndex i2 fpx = i1) :
    ∀ (left n : Nat) (cf : CuckooFilter) (i fp : Nat), CuckooShaped cf → i < numBuckets →
      ((fpx ∈ cf.bucket i1 ∨ fpx ∈ cf.bucket i2) ∨ (fp = fpx ∧ (i = i1 ∨ i = i2))) →
      (kickLoop picks left n cf i fp).2 = true →
      fpx ∈ (kickLoop picks left n cf i fp).1.bucket i1 ∨
        fpx ∈ (kickLoop picks left n cf i fp).1.bucket i2 := by
  intro left
  induction left with
  | zero =>
    intro n cf i fp _ _ _ h
    simp [kickLoop] at h
  | succ left ih =>
    intro n cf i fp hs hi hinv h
    have hj : picks n % bucketSize < bucketSize := Nat.mod_lt _ (by decide)
    obtain ⟨hs1, hin1, hkeep1⟩ := store_spec cf i (picks n % bucketSize) fp hs hi hj
    have hi' := altIndex_lt i ((cf.bucket i).getD (picks n % bucketSize) 0)
    have hinv1 : (fpx ∈ (cf.store i (picks n % bucketSize) fp).bucket i1 ∨
          fpx ∈ (cf.store i (picks n % bucketSize) fp).bucket i2) ∨
        ((cf.bucket i).getD (picks n % bucketSize) 0 = fpx ∧
          (altIndex i ((cf.bucket i).getD (picks n % bucketSize) 0) = i1 ∨
            altIndex i ((cf.bucket i).getD (picks n % bucketSize) 0) = i2)) := by
      rcases hinv with (hb | hb) | ⟨hfpx, hb | hb⟩
      · rcases hkeep1 i1 fpx hb with h' | ⟨hk, he⟩
        · exact Or.inl (Or.inl h')
        · right
          refine ⟨he, Or.inr ?_⟩
          rw [he, ← hk, h12]
      · rcases hkeep1 i2 fpx hb with h' | ⟨hk, he⟩
        · exact Or.inl (Or.inr h')
        · right
          refine ⟨he, Or.inl ?_⟩
          rw [he, ← hk, h21]
      · left; left
        rw [← hfpx, ← hb]
        exact hin1
      · left; right
        rw [← hfpx, ← hb]
        exact hin1
    simp only [kickLoop] at h ⊢
    cases hins : (cf.store i (picks n % bucketSize) fp).insertIntoBucket
        (altIndex i ((cf.bucket i).getD (picks n % bucketSize) 0))
        ((cf.bucket i).getD (picks n % bucketSize) 0) with
    | mk cf2 ok =>
      rw [hins] at h
      cases ok with
      | true =>
        simp only
        obtain ⟨_, hin2, hkeep2⟩ := insertIntoBucket_true _ _ _ _ hs1 hi' hins
        rcases hinv1 with (hb | hb) | ⟨he, hb | hb⟩
        · exact Or.inl (hkeep2 i1 fpx hfp hb)
        · exact Or.inr (hkeep2 i2 fpx hfp hb)
        · left
          rw [← he, ← hb]
          exact hin2
        · right
          rw [← he, ← hb]
          exact hin2
      | false =>
        simp only at h ⊢
        have hcf2 := insertIntoBucket_false _ _ _ _ hins
        subst hcf2
        exact ih (n + 1) _ _ _ hs1 hi' hinv1 h

theorem index_lt (data : List UInt8) : index data < numBuckets :=
  Nat.mod_lt _ (by decide)

theorem Lookup_iff (cf : CuckooFilter) (data : List UInt8) :
    cf.Lookup data = true ↔
      fingerprint data ∈ cf.bucket (index data) ∨
        fingerprint data ∈ cf.bucket (altIndex (index data) (fingerprint data)) := by
  simp only [CuckooFilter.Lookup, Bool.or_eq_true, contains_iff]

/-- An item whose fingerprint is not 0 is found right after an `Insert` that returned true,
whatever the random choices were. -/
theorem Insert_then_Lookup (cf : CuckooFilter) (data : List UInt8) (first : Nat)
    (picks : Nat → Nat) (hs : CuckooShaped cf) (hfp : fingerprint data ≠ 0)
    (h : (cf.Insert data first picks).2 = true) :
    (cf.Insert data first picks).1.Lookup data = true := by
  rw [Lookup_iff]
  have hi1 := index_lt data
  have hi2 := altIndex_lt (index data) (fingerprint data)
  unfold CuckooFilter.Insert at h ⊢
  simp only at h ⊢
  cases h1 : cf.insertIntoBucket (index data) (fingerprint data) with
  | mk cf1 ok1 =>
    rw [h1] at h
    cases ok1 with
    | true =>
      simp only
      exact Or.inl (insertIntoBucket_true _ _ _ _ hs hi1 h1).2.1
    | false =>
      simp only at h ⊢
      cases h2 : cf.insertIntoBucket (altIndex (index data) (fingerprint data))
          (fingerprint data) with
      | mk cf2 ok2 =>
        rw [h2] at h
        cases ok2 with
        | true =>
          simp only
          exact Or.inr (insertIntoBucket_true _ _ _ _ hs hi2 h2).2.1
        | false =>
          simp only at h ⊢
          refine kickLoop_keeps picks (fingerprint data) (index data)
            (altIndex (index data) (fingerprint data)) hfp rfl
            (altIndex_involution _ _ hi1) maxKicks 0 cf _ _ hs ?_ ?_ h
          · split
            · exact hi1
            · exact hi2
          · right
            refine ⟨rfl, ?_⟩
            split
            · exact Or.inl rfl
            · exact Or.inr rfl

theorem CuckooShaped_new : CuckooShaped NewCuckooFilter := by
  refine ⟨by simp [NewCuckooFilter], ?_⟩
  intro b hb
  simp only [NewCuckooFilter] at hb
  rw [List.eq_of_mem_replicate hb]
  simp

theorem insertIntoBucket_shaped (cf : CuckooFilter) (i fp : Nat) (hs : CuckooShaped cf)
    (hi : i < numBuckets) : CuckooShaped (cf.insertIntoBucket i fp).1 := by
  cases h : cf.insertIntoBucket i fp with
  | mk cf' ok =>
    cases ok with
    | true => exact (insertIntoBucket_true _ _ _ _ hs hi h).1
    | false =>
      rw [insertIntoBucket_false _ _ _ _ h]
      exact hs

theorem kickLoop_shaped (picks : Nat → Nat) :
    ∀ (left n : Nat) (cf : CuckooFilter) (i fp : Nat), CuckooShaped cf → i < numBuckets →
      CuckooShaped (kickLoop picks left n cf i fp).1 := by
  intro left
  induction left with
  | zero => intro n cf i fp hs _; exact hs
  | succ left ih =>
    intro n cf i fp hs hi
    have hj : picks n % bucketSize < bucketSize := Nat.mod_lt _ (by decide)
    have hs1 := (store_spec cf i (picks n % bucketSize) fp hs hi hj).1
    have hi' := altIndex_lt i ((cf.bucket i).getD (picks n % bucketSize) 0)
    have hs2 := insertIntoBucket_shaped _ (altIndex i ((cf.bucket i).getD
      (picks n % bucketSize) 0)) ((cf.bucket i).getD (picks n % bucketSize) 0) hs1 hi'
    simp only [kickLoop]
    cases hins : (cf.store i (picks n % bucketSize) fp).insertIntoBucket
        (altIndex i ((cf.bucket i).getD (picks n % bucketSize) 0))
        ((cf.bucket i).getD (picks n % bucketSize) 0) with
    | mk cf2 ok =>
      rw [hins] at hs2
      cases ok with
      | true => exact hs2
      | false => exact ih (n + 1) _ _ _ hs2 hi'

theorem Insert_shaped (cf : CuckooFilter) (data : List UInt8) (first : Nat)
    (picks : Nat → Nat) (hs : CuckooShaped cf) :
    CuckooShaped (cf.Insert data first picks).1 := by
  have hi1 := index_lt data
  have hi2 := altIndex_lt (index data) (fingerprint data)
  have hs1 := insertIntoBucket_shaped cf (index data) (fingerprint data) hs hi1
  have hs2 := insertIntoBucket_shaped cf (altIndex (index data) (fingerprint data))
    (fingerprint data) hs hi2
  unfold CuckooFilter.Insert
  simp only
  cases h1 : cf.insertIntoBucket (index data) (fingerprint data) with
  | mk cf1 ok1 =>
    rw [h1] at hs1
    cases ok1 with
    | true => exact hs1
    | false =>
      simp only
      cases h2 : cf.insertIntoBucket (altIndex (index data) (fingerprint data))
          (fingerprint data) with
      | mk cf2 ok2 =>
        rw [h2] at hs2
        cases ok2 with
        | true => exact hs2
        | false =>
          simp only
          refine kickLoop_shaped picks maxKicks 0 cf _ _ hs ?_
          split
          · exact hi1
          · exact hi2

theorem clearFirst_length : ∀ (b : List Nat) (fp : Nat) (b' : List Nat),
    clearFirst b fp = some b' → b'.length = b.length := by
  intro b
  induction b with
  | nil => intro fp b' h; cases h
  | cons f rest ih =>
    intro fp b' h
    simp only [clearFirst] at h
    split at h
    · cases h; rfl
    · cases hr : clearFirst rest fp with
      | none => rw [hr] at h; cases h
      | some rest' =>
        rw [hr] at h
        cases h
        simp [ih fp rest' hr]

theorem removeFromBucket_shaped (cf : CuckooFilter) (i fp : Nat) (hs : CuckooShaped cf)
    (hi : i < numBuckets) : CuckooShaped (cf.removeFromBucket i fp).1 := by
  unfold CuckooFilter.removeFromBucket
  cases hc : clearFirst (cf.bucket i) fp with
  | none => exact hs
  | some b =>
    exact CuckooShaped_set cf i b hs
      (by rw [clearFirst_length _ _ _ hc]; exact CuckooShaped_bucket cf i hs hi)

theorem Delete_shaped (cf : CuckooFilter) (data : List UInt8) (hs : CuckooShaped cf) :
    CuckooShaped (cf.Delete data).1 := by
  have hs1 := removeFromBucket_shaped cf (index data) (fingerprint data) hs (index_lt data)
  have hs2 := removeFromBucket_shaped cf (altIndex (index data) (fingerprint data))
    (fingerprint data) hs (altIndex_lt _ _)
  unfold CuckooFilter.Delete
  simp only
  cases h1 : cf.removeFromBucket (index data) (fingerprint data) with
  | mk cf1 ok1 =>
    rw [h1] at hs1
    cases ok1 with
    | true => exact hs1
    | false => exact hs2

/-- No method changes the shape of the buckets, so no index expression of the filter can
be out of range. -/
theorem CuckooReachable_shaped (cf : CuckooFilter) (hr : CuckooReachable cf) :
    CuckooShaped cf := by
  induction hr with
  | fresh => exact CuckooShaped_new
  | insert data first picks _ ih => exact Insert_shaped _ data first picks ih
  | delete data _ ih => exact Delete_shaped _ data ih

set_option maxRecDepth 20000

/-- C39 at a failing input. The FNV-1 hash of the byte string bywh is 1630928895, whose low
16 bits are all ones: in uint16 arithmetic adding one wraps around, and fingerprint(bywh) is
0, the value that marks an empty slot. -/
theorem fingerprint_zero :
    hashFunc keyBywh = 1630928895 ∧ hashFunc keyBywh % 65536 = 65535 ∧
      fingerprint keyBywh = 0 := by
  decide

/-- C40 at a failing input. After four Insert calls of aulq and four of ym on a new filter,
buckets 50 and 1023, the two buckets of bywh, are full. Insert(bywh), whose fingerprint is
0, goes to the eviction loop; when the random choice picks bucket 50, the 0 replaces a
fingerprint 17459, whose alternate bucket is 50 again, where it is put back into the slot
that now reads as empty: Insert returns true, the filter is as before, and Lookup(bywh)
returns false. -/
theorem insert_then_lookup_fails :
    CuckooReachable fullBuckets ∧
    fullBuckets.bucket 50 = [17459, 17459, 17459, 17459] ∧
    fullBuckets.bucket 1023 = [2048, 2048, 2048, 2048] ∧
    index keyBywh = 1023 ∧ altIndex 1023 (fingerprint keyBywh) = 50 ∧
    altIndex 50 17459 = 50 ∧
    (fullBuckets.Insert keyBywh 1 (fun _ => 0)).2 = true ∧
    (fullBuckets.Insert keyBywh 1 (fun _ => 0)).1 = fullBuckets ∧
    (fullBuckets.Insert keyBywh 1 (fun _ => 0)).1.Lookup keyBywh = false := by
  refine ⟨?_, by decide, by decide, by decide, by decide, by decide, by decide, by decide,
    by decide⟩
  exact CuckooReachable.insert _ _ _ (CuckooReachable.insert _ _ _
    (CuckooReachable.insert _ _ _ (CuckooReachable.insert _ _ _
      (CuckooReachable.insert _ _ _ (CuckooReachable.insert _ _ _
        (CuckooReachable.insert _ _ _ (CuckooReachable.insert _ _ _
          CuckooReachable.fresh)))))))

end Kafkaesque
